import Mathlib

/-!
Verification of the `OracleCI` conditional-independence oracle
(`tigramite/independence_tests/oracle_conditional_independence.py`).

The Python class decides d-separation queries on a time-unrolled causal
graph.  This file gives a shallow embedding of its data model and
operations: links dictionaries become lists of per-variable parent-entry
lists, variable-lag nodes become pairs of integers, Python dict state
(the memoised `dsepsets` cache, the BFS visit tables) becomes explicit
association lists, and fallible code returns `Except String`.
Python `while` loops are embedded as fuel-indexed recursion; the fuel
bounds are chosen from the same finiteness arguments that make the
Python loops terminate.
-/

namespace OracleCI

/-- A variable-lag node `(var, lag)`; lags are non-positive in valid queries. -/
abbrev VLNode := Int × Int

/-- One entry of `links[j]`, mirroring the two accepted Python shapes:
a bare pair `(i, tau)` (coefficient taken as `1.`), or a length-3 tuple
`((i, tau), coeff, func)` (the generating function is irrelevant to the
oracle and is dropped). -/
inductive LinkEntry
  | bare (i : Int) (tau : Int)
  | withFunc (i : Int) (tau : Int) (coeff : ℚ)
  deriving DecidableEq, Repr

/-- The `(i, tau, coeff)` parse of a link entry, as in the Python
`if len(link_props) == 3 ... else ...` idiom. -/
def LinkEntry.parse : LinkEntry → Int × Int × ℚ
  | .bare i tau => (i, tau, 1)
  | .withFunc i tau c => (i, tau, c)

/-- The source-variable index of a link entry. -/
def LinkEntry.srcVar (e : LinkEntry) : Int := e.parse.1

/-- `links` dictionary with keys `0 .. N-1`, as a list indexed by variable. -/
abbrev Links := List (List LinkEntry)

/-- Total number of link entries, used for fuel bounds. -/
def totalEntries (links : Links) : Nat := (links.map List.length).sum

/-- `links[v]`.  Python raises `KeyError` outside `0 .. N-1`; the embedding
returns `[]` there, and theorems that depend on this behaviour carry a
well-formedness hypothesis keeping all lookups in range. -/
def linkList (links : Links) (v : Int) : List LinkEntry :=
  if h : 0 ≤ v ∧ v.toNat < links.length then links[v.toNat] else []

/-- `_get_lagged_parents(var_lag, exclude_contemp)`.  Note the Python tests
`lag == 0` — the lag of the *node* — rather than `tau == 0`, the relative
lag of the *link* (compare `_get_lagged_children`, which tests `tau`). -/
def getLaggedParents (links : Links) (varLag : VLNode) (excludeContemp : Bool) :
    List VLNode :=
  (linkList links varLag.1).filterMap fun e =>
    let p := e.parse
    if p.2.2 ≠ 0 then
      if ¬(excludeContemp ∧ varLag.2 = 0) then some (p.1, varLag.2 + p.2.1) else none
    else none

/-- Modelled from the spec: `parentsOf(node, excludeContemporaneous)` as the
spec (§4.2) describes it — "skipping zero-coefficient links and, if
requested, lag-0 links", where lag-0 refers to the link's relative lag.
Used only to exhibit the divergence of `getLaggedParents` from its own
documentation. -/
def laggedParentsSpec (links : Links) (varLag : VLNode) (excludeContemp : Bool) :
    List VLNode :=
  (linkList links varLag.1).filterMap fun e =>
    let p := e.parse
    if p.2.2 ≠ 0 then
      if ¬(excludeContemp ∧ p.2.1 = 0) then some (p.1, varLag.2 + p.2.1) else none
    else none

/-- Helper: append `x` to the `i`-th bucket of a list of lists
(`children[i].append(...)`).  Out-of-range `i` would be a Python
`KeyError`; theorems needing exactness carry well-formedness. -/
def appendAt {α : Type} (l : List (List α)) (i : Int) (x : α) : List (List α) :=
  if h : 0 ≤ i ∧ i.toNat < l.length then l.set i.toNat (l[i.toNat] ++ [x]) else l

/-- One inner step of `_get_children()`: register variable `j` as a child
of the parent of link entry `e`, storing `abs(tau)` as the child lag. -/
def addChildEntry (j : Nat) (ch : List (List (Int × Int))) (e : LinkEntry) :
    List (List (Int × Int)) :=
  if e.parse.2.2 ≠ 0 then
    appendAt ch e.parse.1 (Int.ofNat j, (e.parse.2.1.natAbs : Int))
  else ch

/-- `_get_children()`: invert the parent links; for children the stored lag
`abs(tau)` is non-negative. -/
def getChildren (links : Links) : List (List (Int × Int)) :=
  (List.range links.length).foldl
    (fun children j => (linkList links (Int.ofNat j)).foldl (addChildEntry j) children)
    (List.replicate links.length [])

/-- `children[v]` lookup. -/
def childList (children : List (List (Int × Int))) (v : Int) : List (Int × Int) :=
  if h : 0 ≤ v ∧ v.toNat < children.length then children[v.toNat] else []

/-- `_get_lagged_children(var_lag, children, exclude_contemp)`. -/
def getLaggedChildren (children : List (List (Int × Int))) (varLag : VLNode)
    (excludeContemp : Bool) : List VLNode :=
  (childList children varLag.1).filterMap fun c =>
    if ¬(excludeContemp ∧ c.2 = 0) then some (c.1, varLag.2 + c.2) else none

/-- `OrderedDict.fromkeys`, with an explicit seen-set accumulator:
deduplicate keeping the first occurrence, order preserved. -/
def dedupKeysAux (seen : List VLNode) : List VLNode → List VLNode
  | [] => []
  | x :: xs =>
    if seen.contains x then dedupKeysAux seen xs
    else x :: dedupKeysAux (seen ++ [x]) xs

/-- `OrderedDict.fromkeys`: deduplicate keeping the first occurrence. -/
def dedupKeys (l : List VLNode) : List VLNode := dedupKeysAux [] l

/-- `_check_XYZ(X, Y, Z)`: canonicalise and validate a query.  The tuple-shape
check `np.array(XYZ).shape != (dim, 2)` is enforced here by the `VLNode`
type itself.  An empty `Y` makes `np.array(Y)[:, 1]` raise, mirrored by an
error. -/
def canonZ (X Y Z : List VLNode) : List VLNode :=
  (dedupKeys Z).filter
    (fun node => !((dedupKeys X).contains node || (dedupKeys Y).contains node))

def checkXYZ (N : Int) (X Y Z : List VLNode) :
    Except String (List VLNode × List VLNode × List VLNode) :=
  if (dedupKeys X ++ dedupKeys Y ++ canonZ X Y Z).any (fun n => n.2 > 0) then
    .error "all lags must be non-positive"
  else if (dedupKeys X ++ dedupKeys Y ++ canonZ X Y Z).any
      (fun n => n.1 ≥ N || n.1 < 0) then
    .error "var indices must be in range"
  else if (dedupKeys Y).isEmpty then
    .error "IndexError: too many indices for array"
  else if (dedupKeys Y).all (fun n => n.2 ≠ 0) then
    .error "one of the Y-nodes must have zero lag"
  else
    .ok (dedupKeys X, dedupKeys Y, canonZ X Y Z)

/-- Python list indexing `l[i]` with wrap-around for negative indices and
`IndexError` out of range (used for `self.observed_vars[x[0]]`). -/
def pyGet (l : List Int) (i : Int) : Except String Int :=
  let j := if i < 0 then i + (l.length : Int) else i
  if h : 0 ≤ j ∧ j.toNat < l.length then .ok l[j.toNat]
  else .error "IndexError: list index out of range"

/-- Translate query nodes from observed-variable indices to full indices. -/
def translateNodes (obs : List Int) (nodes : List VLNode) :
    Except String (List VLNode) :=
  nodes.mapM fun n => do
    let v ← pyGet obs n.1
    pure (v, n.2)

/-! ### Ancestor search (`_get_non_blocked_ancestors`) -/

/-- `_repeating(link, seen_links)`: a candidate edge repeats a seen edge when
sources, targets and the absolute relative lag offset agree
(shift-invariance of the time-series graph). -/
def repeatingLink (link : VLNode × VLNode) (seen : List (VLNode × VLNode)) : Bool :=
  seen.any fun s =>
    link.1.1 == s.1.1 && link.2.1 == s.2.1 &&
      (link.2.2 - link.1.2).natAbs == (s.2.2 - s.1.2).natAbs

/-- The two modes of the ancestor search. -/
inductive AncMode
  | nonRepeating
  | maxLagMode
  deriving DecidableEq, Repr

/-- `conds += [(selection_var, -tau_sel) for tau_sel in range(0, max_lag + 1)]`
over all selection variables: the implicit conditioning on selection
variables up to lag `maxLag`. -/
def selAugment (selv : List Int) (maxLag : Int) : List VLNode :=
  selv.flatMap fun s =>
    (List.range (maxLag + 1).toNat).map fun t : Nat => (s, -(Int.ofNat t))

/-- `conds = [z for z in conds if z not in Y]`. -/
def ancCondsPre (Y conds : List VLNode) : List VLNode :=
  conds.filter fun z => !(Y.contains z)

/-- The conditioning set used by the non-repeating ancestor search: the
augmentation happens while `max_lag` still holds its initial value `0`, so
only the lag-0 copy of each selection variable is added. -/
def ancCondsNR (selv : List Int) (Y conds : List VLNode) : List VLNode :=
  ancCondsPre Y conds ++ selAugment selv 0

/-- The conditioning set used by the max-lag ancestor search: selection
variables are added at every lag `0 .. max_lag`. -/
def ancCondsML (selv : List Int) (Y conds : List VLNode) (ml : Int) : List VLNode :=
  ancCondsPre Y conds ++ selAugment selv ml

/-- Mutable state of the per-seed ancestor traversal. -/
structure AncState where
  anc : List VLNode
  seen : List (VLNode × VLNode)
  maxLag : Int
  nextLevel : List VLNode
  deriving Repr

/-- Admission of one candidate parent `par` of `varlag`, mirroring the body
of the innermost loop of `_get_non_blocked_ancestors`. -/
def ancAdmit (mode : AncMode) (conds : List VLNode) (varlag par : VLNode)
    (st : AncState) : AncState :=
  if ¬ conds.contains par ∧ ¬ st.anc.contains par then
    if (mode = .nonRepeating ∧ ¬ repeatingLink (par, varlag) st.seen) ∨
        (mode = .maxLagMode ∧ par.2.natAbs ≤ st.maxLag.natAbs) then
      { anc := st.anc ++ [par]
        seen := st.seen ++ [(par, varlag)]
        maxLag := if mode = .nonRepeating then max st.maxLag (par.2.natAbs : Int)
                  else st.maxLag
        nextLevel := st.nextLevel ++ [par] }
    else st
  else st

/-- One breadth-first level of the ancestor traversal. -/
def ancLevel (links : Links) (mode : AncMode) (conds : List VLNode)
    (level : List VLNode) (st : AncState) : AncState :=
  level.foldl
    (fun st varlag =>
      (getLaggedParents links varlag false).foldl
        (fun st par => ancAdmit mode conds varlag par st) st)
    st

/-- The `while len(this_level) > 0` loop, as fuel-indexed recursion.  The
Python loop terminates because every admission either consumes a fresh
shift-class of links (non-repeating mode) or a fresh in-horizon node
(max-lag mode); `ancFuel` majorises both counts. -/
def ancLoop (links : Links) (mode : AncMode) (conds : List VLNode) :
    Nat → List VLNode → AncState → AncState
  | 0, _, st => st
  | fuel + 1, level, st =>
    if level.isEmpty then st
    else
      let st' := ancLevel links mode conds level { st with nextLevel := [] }
      ancLoop links mode conds fuel st'.nextLevel st'

/-- Fuel majorising the number of levels of the ancestor traversal. -/
def ancFuel (links : Links) (mode : AncMode) (ml : Int) : Nat :=
  match mode with
  | .nonRepeating => totalEntries links + 2
  | .maxLagMode => (totalEntries links + 2) * (2 * ml.natAbs + 2) + 2

/-- One seed of the non-repeating ancestor search: `max_lag` is bumped to
the seed's own lag before the per-seed traversal runs. -/
def nrStep (links : Links) (conds1 : List VLNode)
    (acc : List (VLNode × List VLNode) × Int) (y : VLNode) :
    List (VLNode × List VLNode) × Int :=
  let ml1 : Int := max acc.2 (y.2.natAbs : Int)
  let st := ancLoop links .nonRepeating conds1
    (ancFuel links .nonRepeating 0) [y]
    { anc := [], seen := [], maxLag := ml1, nextLevel := [] }
  (acc.1 ++ [(y, st.anc)], st.maxLag)

/-- The non-repeating ancestor search over all seeds in `Y`; the running
maximum lag threads across seeds, starting at `0`. -/
def nonBlockedAncestorsNR (links : Links) (selv : List Int)
    (Y conds : List VLNode) : List (VLNode × List VLNode) × Int :=
  Y.foldl (nrStep links (ancCondsNR selv Y conds)) ([], 0)

/-- The max-lag ancestor search over all seeds in `Y`. -/
def nonBlockedAncestorsML (links : Links) (selv : List Int)
    (Y conds : List VLNode) (ml : Int) : List (VLNode × List VLNode) × Int :=
  let conds1 := ancCondsML selv Y conds ml
  Y.foldl
    (fun (acc : List (VLNode × List VLNode) × Int) y =>
      let st := ancLoop links .maxLagMode conds1
        (ancFuel links .maxLagMode ml) [y]
        { anc := [], seen := [], maxLag := acc.2, nextLevel := [] }
      (acc.1 ++ [(y, st.anc)], st.maxLag))
    ([], ml)

/-- `_get_non_blocked_ancestors(Y, conds, mode, max_lag)`: dispatcher over
the two modes; the max-lag mode without a bound raises. -/
def getNonBlockedAncestors (links : Links) (selv : List Int)
    (Y conds : List VLNode) (mode : AncMode) (maxLagIn : Option Int) :
    Except String (List (VLNode × List VLNode) × Int) :=
  match mode, maxLagIn with
  | .nonRepeating, _ => .ok (nonBlockedAncestorsNR links selv Y conds)
  | .maxLagMode, none => .error "max_lag must be set in mode = max_lag"
  | .maxLagMode, some ml => .ok (nonBlockedAncestorsML links selv Y conds ml)

/-- `_get_max_lag_from_XYZ(X, Y, Z)`: maximum non-repeated ancestral lag of
`X`, `Y` and `Z`, each conditioned on `Z`. -/
def getMaxLagFromXYZ (links : Links) (selv : List Int) (X Y Z : List VLNode) :
    Int :=
  max (max (nonBlockedAncestorsNR links selv X Z).2
           (nonBlockedAncestorsNR links selv Y Z).2)
      (nonBlockedAncestorsNR links selv Z Z).2

/-! ### Bidirectional breadth-first path search (`_has_any_path`)

The Python search stores, per visited node, a dict from marks
(`None`/`'tail'`/`'arrowhead'`) to predecessor links.  Only the *presence*
of a mark is ever consulted by the search itself; the predecessor values
feed `backtrace_path`, whose result is consumed by `_is_dsep` solely for
its truthiness (a reconstructed path is a nonempty list, hence truthy).
The embedding therefore keeps the set of marks per node and returns a
`Bool`. -/

/-- A traversal mark: `None` (start/end node), `'tail'` or `'arrowhead'`. -/
inductive PMark
  | start
  | tail
  | arrow
  deriving DecidableEq, Repr

/-- The set of marks recorded for a visited node. -/
structure MarkSet where
  hasStart : Bool
  hasTail : Bool
  hasArrow : Bool
  deriving DecidableEq, Repr

/-- The mark set `{None: None}` of a start or end node. -/
def MarkSet.startOnly : MarkSet := ⟨true, false, false⟩

/-- Visit table of one search direction (`pred` or `succ`). -/
abbrev PathMap := List (VLNode × MarkSet)

/-- Mark set recorded for `v`, if any. -/
def pmLookup (m : PathMap) (v : VLNode) : Option MarkSet :=
  (m.find? (fun p => p.1 == v)).map (·.2)

/-- `v in this_path`. -/
def pmMem (m : PathMap) (v : VLNode) : Bool := (pmLookup m v).isSome

/-- Update (or create) the mark set of `v`. -/
def pmUpdate (m : PathMap) (v : VLNode) (f : MarkSet → MarkSet) : PathMap :=
  match m with
  | [] => [(v, f ⟨false, false, false⟩)]
  | p :: rest => if p.1 = v then (v, f p.2) :: rest else p :: pmUpdate rest v f

/-- Add a `'tail'` mark to a mark set. -/
def msAddTail (ms : MarkSet) : MarkSet := { ms with hasTail := true }

/-- Add an `'arrowhead'` mark to a mark set. -/
def msAddArrow (ms : MarkSet) : MarkSet := { ms with hasArrow := true }

/-- Record a `'tail'` mark for `v`. -/
def pmSetTail (m : PathMap) (v : VLNode) : PathMap := pmUpdate m v msAddTail

/-- Record an `'arrowhead'` mark for `v`. -/
def pmSetArrow (m : PathMap) (v : VLNode) : PathMap := pmUpdate m v msAddArrow

/-- The fixed data of one `_has_any_path` invocation. -/
structure WalkCtx where
  links : Links
  children : List (List (Int × Int))
  conds : List VLNode
  maxLag : Int
  backdoor : Bool
  xstart : VLNode

/-- Whether a `'tail'` arrival at `w` gets recorded and fringed (the Python
dedup test `w not in this_path or ('tail' not in ... and None not in ...)`). -/
def pmRecTail (P : PathMap) (w : VLNode) : Bool :=
  match pmLookup P w with
  | none => true
  | some ms => !ms.hasTail && !ms.hasStart

/-- Whether an `'arrowhead'` arrival at `w` gets recorded and fringed. -/
def pmRecArrow (P : PathMap) (w : VLNode) : Bool :=
  match pmLookup P w with
  | none => true
  | some ms => !ms.hasArrow && !ms.hasStart

/-- The connection test of `_walk_to_children`: a tail-reached node of the
other direction must be unconditioned, an arrowhead-reached node must be
conditioned, and a start/end node always connects. -/
def childMeet (otherP : PathMap) (conds : List VLNode) (w : VLNode) : Bool :=
  match pmLookup otherP w with
  | none => false
  | some ms =>
    (ms.hasTail && !(conds.contains w)) || (ms.hasArrow && conds.contains w) ||
      ms.hasStart

/-- `_walk_to_parents(v, fringe, this_path, other_path)` over the remaining
parent list; a found connection breaks the iteration. -/
def walkToParentsGo (ctx : WalkCtx) (otherPath : PathMap) :
    List VLNode → List (VLNode × PMark) → PathMap →
      Bool × List (VLNode × PMark) × PathMap
  | [], fringe, thisPath => (false, fringe, thisPath)
  | w :: rest, fringe, thisPath =>
    if ctx.backdoor ∧ w = ctx.xstart then
      walkToParentsGo ctx otherPath rest fringe thisPath
    else if ¬ ctx.conds.contains w ∧ w.2 ≤ 0 ∧ (w.2.natAbs : Int) ≤ ctx.maxLag then
      if pmRecTail thisPath w then
        if pmMem otherPath w then
          (true, fringe ++ [(w, PMark.tail)], pmSetTail thisPath w)
        else
          walkToParentsGo ctx otherPath rest (fringe ++ [(w, PMark.tail)])
            (pmSetTail thisPath w)
      else
        if pmMem otherPath w then (true, fringe, thisPath)
        else walkToParentsGo ctx otherPath rest fringe thisPath
    else walkToParentsGo ctx otherPath rest fringe thisPath

/-- `_walk_to_parents` proper. -/
def walkToParents (ctx : WalkCtx) (v : VLNode) (fringe : List (VLNode × PMark))
    (thisPath otherPath : PathMap) : Bool × List (VLNode × PMark) × PathMap :=
  walkToParentsGo ctx otherPath (getLaggedParents ctx.links v false) fringe thisPath

/-- `_walk_to_children(v, fringe, this_path, other_path)` over the remaining
child list.  One may walk into conditioned children; only the horizon is
enforced. -/
def walkToChildrenGo (ctx : WalkCtx) (otherPath : PathMap) :
    List VLNode → List (VLNode × PMark) → PathMap →
      Bool × List (VLNode × PMark) × PathMap
  | [], fringe, thisPath => (false, fringe, thisPath)
  | w :: rest, fringe, thisPath =>
    if w.2 ≤ 0 ∧ (w.2.natAbs : Int) ≤ ctx.maxLag then
      if pmRecArrow thisPath w then
        if childMeet otherPath ctx.conds w then
          (true, fringe ++ [(w, PMark.arrow)], pmSetArrow thisPath w)
        else
          walkToChildrenGo ctx otherPath rest (fringe ++ [(w, PMark.arrow)])
            (pmSetArrow thisPath w)
      else
        if childMeet otherPath ctx.conds w then (true, fringe, thisPath)
        else walkToChildrenGo ctx otherPath rest fringe thisPath
    else walkToChildrenGo ctx otherPath rest fringe thisPath

/-- `_walk_to_children` proper. -/
def walkToChildren (ctx : WalkCtx) (v : VLNode) (fringe : List (VLNode × PMark))
    (thisPath otherPath : PathMap) : Bool × List (VLNode × PMark) × PathMap :=
  walkToChildrenGo ctx otherPath (getLaggedChildren ctx.children v false)
    fringe thisPath

/-- The per-node dispatch of `_walk_fringe`: standing on a condition one can
only leave an arrowhead (collider opened by conditioning) towards parents;
off conditions a tail continues to parents or children and an arrowhead
only to children. -/
def walkFringeGo (ctx : WalkCtx) (otherPath : PathMap) :
    List (VLNode × PMark) → List (VLNode × PMark) → PathMap →
      Bool × List (VLNode × PMark) × PathMap
  | [], fringe, thisPath => (false, fringe, thisPath)
  | (v, mark) :: rest, fringe, thisPath =>
    if ctx.conds.contains v then
      if mark = PMark.arrow ∨ mark = PMark.start then
        match walkToParents ctx v fringe thisPath otherPath with
        | (found, fr, pm) =>
          if found then (found, fr, pm)
          else walkFringeGo ctx otherPath rest fr pm
      else walkFringeGo ctx otherPath rest fringe thisPath
    else
      if mark = PMark.tail ∨ mark = PMark.start then
        match walkToParents ctx v fringe thisPath otherPath with
        | (f1, fr1, pm1) =>
          if f1 then (f1, fr1, pm1)
          else
            match walkToChildren ctx v fr1 pm1 otherPath with
            | (f2, fr2, pm2) =>
              if f2 then (f2, fr2, pm2)
              else walkFringeGo ctx otherPath rest fr2 pm2
      else
        match walkToChildren ctx v fringe thisPath otherPath with
        | (found, fr, pm) =>
          if found then (found, fr, pm)
          else walkFringeGo ctx otherPath rest fr pm

/-- `_walk_fringe`, including the backdoor special case for the very first
expansion from `x`. -/
def walkFringe (ctx : WalkCtx) (level fringe : List (VLNode × PMark))
    (thisPath otherPath : PathMap) : Bool × List (VLNode × PMark) × PathMap :=
  if ctx.backdoor ∧ level = [(ctx.xstart, PMark.start)] then
    walkToParents ctx ctx.xstart fringe thisPath otherPath
  else walkFringeGo ctx otherPath level fringe thisPath

/-- The `while forward_fringe and reverse_fringe` loop: expand the smaller
fringe; `none` means fuel exhaustion (unreachable at `bfsFuel`). -/
def bfsLoop (ctx : WalkCtx) :
    Nat → PathMap → PathMap → List (VLNode × PMark) → List (VLNode × PMark) →
      Option Bool
  | 0, _, _, _, _ => none
  | fuel + 1, pred, succ, ff, rf =>
    if ff.isEmpty ∨ rf.isEmpty then some false
    else if ff.length ≤ rf.length then
      match walkFringe ctx ff [] pred succ with
      | (found, fr, pm) =>
        if found then some true else bfsLoop ctx fuel pm succ fr rf
    else
      match walkFringe ctx rf [] succ pred with
      | (found, fr, pm) =>
        if found then some true else bfsLoop ctx fuel pred pm ff fr

/-- The bidirectional search for one pair `(x, y)`. -/
def hasPathPairCore (ctx : WalkCtx) (fuel : Nat) (x y : VLNode) : Option Bool :=
  bfsLoop ctx fuel [(x, MarkSet.startOnly)] [(y, MarkSet.startOnly)]
    [(x, PMark.start)] [(y, PMark.start)]

/-- Fuel majorising the number of loop rounds: each round consumes a
nonempty fringe, and every fringe entry corresponds to a distinct
`(node, mark)` record of one side, of which there are finitely many
within the lag horizon. -/
def bfsFuel (links : Links) (maxLag : Int) : Nat :=
  8 * (links.length + totalEntries links + 2) * (maxLag.natAbs + 3) + 8

/-- The conditioning set used by `_has_any_path`: user conditions minus
`X ∪ Y`, plus every selection variable at every lag `0 .. max_lag`. -/
def hasAnyPathConds (X Y conds : List VLNode) (selv : List Int) (maxLag : Int) :
    List VLNode :=
  (conds.filter fun z => !(Y.contains z || X.contains z)) ++ selAugment selv maxLag

/-- `_has_any_path(X, Y, conds, max_lag, backdoor)`, as the truthiness of
its Python return value. -/
def hasAnyPath (links : Links) (selv : List Int) (X Y conds : List VLNode)
    (maxLag : Int) (backdoor : Bool) : Bool :=
  let cs := hasAnyPathConds X Y conds selv maxLag
  let children := getChildren links
  X.any fun x =>
    Y.any fun y =>
      (hasPathPairCore ⟨links, children, cs, maxLag, backdoor, x⟩
        (bfsFuel links maxLag) x y).getD false

/-! ### Oracle facade -/

/-- The oracle: compiled links, observed variables, selection variables. -/
structure Oracle where
  links : Links
  observedVars : List Int
  selectionVars : List Int
  deriving Repr

/-- `self.N = len(links)`. -/
def Oracle.N (o : Oracle) : Int := (o.links.length : Int)

/-- Well-formedness established by `__init__`/`get_links_from_graph`: all
link sources, observed variables and selection variables are in range, so
every Python dict lookup performed by the searches succeeds. -/
def Oracle.WF (o : Oracle) : Prop :=
  (∀ l ∈ o.links, ∀ e ∈ l, 0 ≤ e.srcVar ∧ e.srcVar < o.N) ∧
    (∀ v ∈ o.observedVars, 0 ≤ v ∧ v < o.N) ∧
    (∀ v ∈ o.selectionVars, 0 ≤ v ∧ v < o.N)

/-- `_is_dsep(X, Y, Z, max_lag)`: derive the horizon when absent, then ask
for any open path. -/
def isDsep (o : Oracle) (X Y Z : List VLNode) (maxLagIn : Option Int) : Bool :=
  let ml := match maxLagIn with
    | some ml => ml
    | none => getMaxLagFromXYZ o.links o.selectionVars X Y Z
  !(hasAnyPath o.links o.selectionVars X Y Z ml false)

/-- Canonicalised query key.  Python keys the memo dict by `str((X, Y, Z))`,
which is injective on these integer-tuple values; the embedding keys by
the triple itself. -/
abbrev QueryKey := List VLNode × List VLNode × List VLNode

/-- The `self.dsepsets` memo cache. -/
abbrev DsepCache := List (QueryKey × Bool)

/-- Cache lookup. -/
def cacheLookup (c : DsepCache) (k : QueryKey) : Option Bool :=
  (c.find? (fun p => p.1 == k)).map (·.2)

/-- `run_test` body: translate through `observed_vars`, canonicalise via
`_check_XYZ`, answer from the cache or run `_is_dsep` once and store it.
The extra `Bool` reports whether the d-separation search ran (cache miss),
for the memoisation claim. -/
def runTestCore (o : Oracle) (c : DsepCache) (X Y Z : List VLNode) :
    Except String ((ℚ × ℚ) × Bool) × DsepCache :=
  match translateNodes o.observedVars X with
  | .error e => (.error e, c)
  | .ok X1 =>
    match translateNodes o.observedVars Y with
    | .error e => (.error e, c)
    | .ok Y1 =>
      match translateNodes o.observedVars Z with
      | .error e => (.error e, c)
      | .ok Z1 =>
        match checkXYZ o.N X1 Y1 Z1 with
        | .error e => (.error e, c)
        | .ok (Xc, Yc, Zc) =>
          match cacheLookup c (Xc, Yc, Zc) with
          | some b =>
            (.ok ((if b then ((0 : ℚ), (1 : ℚ)) else (1, 0)), false), c)
          | none =>
            let b := isDsep o Xc Yc Zc none
            (.ok ((if b then ((0 : ℚ), (1 : ℚ)) else (1, 0)), true),
              c ++ [((Xc, Yc, Zc), b)])

/-- `run_test(X, Y, Z, tau_max, cut_off)`: the returned `(val, pval)` pair
and the updated cache.  `tau_max` and `cut_off` are accepted and unused,
exactly as in the source. -/
def runTest (o : Oracle) (c : DsepCache) (X Y Z : List VLNode)
    (tauMax : Int) (cutOff : String) : Except String (ℚ × ℚ) × DsepCache :=
  let r := runTestCore o c X Y Z
  (r.1.map (·.1), r.2)

/-- `get_measure(X, Y, Z, tau_max)`: after translating through
`observed_vars` the source calls the unbound name `_check_XYZ`, a Python
`NameError`, before any cache access. -/
def getMeasure (o : Oracle) (c : DsepCache) (X Y Z : List VLNode)
    (tauMax : Int) : Except String ℚ × DsepCache :=
  match translateNodes o.observedVars X with
  | .error e => (.error e, c)
  | .ok _ =>
    match translateNodes o.observedVars Y with
    | .error e => (.error e, c)
    | .ok _ =>
      match translateNodes o.observedVars Z with
      | .error e => (.error e, c)
      | .ok _ => (.error "NameError: name _check_XYZ is not defined", c)

/-- Modelled from the spec: `get_measure` as intended (§4.5 "same outcome
compressed to a single scalar (0 or 1)" and §9's instruction to treat the
unbound `_check_XYZ` reference as a defect), i.e. the validated `run_test`
outcome compressed to `val`. -/
def getMeasureSpec (o : Oracle) (c : DsepCache) (X Y Z : List VLNode) :
    Except String ℚ × DsepCache :=
  let r := runTestCore o c X Y Z
  (r.1.map (fun p => p.1.1), r.2)

/-! ### Graph compilation (`get_links_from_graph`) -/

/-- Dense edge-type array, indexed `graph[i][j][tau]`; absent cells read as
the empty string (the array is rectangular in the source). -/
abbrev GraphArr := List (List (List String))

/-- `graph[i, j, t]`. -/
def gcell (g : GraphArr) (i j t : Nat) : String :=
  ((g.getD i []).getD j []).getD t ""

/-- First array dimension `N`. -/
def gN (g : GraphArr) : Nat := g.length

/-- Third array dimension `tau_max + 1`. -/
def gT (g : GraphArr) : Nat := ((g.getD 0 []).getD 0 []).length

/-- `zip(*np.where(graph))`: the nonzero cells in row-major order. -/
def nonzeroCells (g : GraphArr) : List (Nat × Nat × Nat) :=
  ((List.range (gN g)).flatMap fun i =>
    (List.range (gN g)).flatMap fun j =>
      (List.range (gT g)).map fun t => (i, j, t)).filter
    fun c => gcell g c.1 c.2.1 c.2.2 ≠ ""

/-- `_reverse_patt`: invert a 3-character link pattern.  (For a nonempty
pattern shorter than 3 characters Python would raise `IndexError`; the
embedding returns `""`, which likewise fails the consistency comparison.) -/
def reversePatt (patt : String) : String :=
  if patt = "" then ""
  else
    match patt.toList with
    | a :: b :: c :: _ =>
      let newRight := if a = '<' then '>' else a
      let newLeft := if c = '>' then '<' else c
      String.mk [newLeft, b, newRight]
    | _ => ""

/-- State of the compilation fold: the growing links table, the selection
variable list, the next free latent index, and (for instrumentation) the
cells that reached the edge-type dispatch. -/
structure GLState where
  links : List (List (Int × Int))
  selv : List Int
  latent : Nat
  processed : List (Nat × Nat × Nat)
  deriving Repr

/-- `links[j].append(e)`. -/
def setLink (ls : List (List (Int × Int))) (j : Nat) (e : Int × Int) :
    List (List (Int × Int)) :=
  ls.set j (ls.getD j [] ++ [e])

/-- One iteration of the `for i, j, tau in zip(*np.where(graph))` loop, with
`c = (i, j, tau)`. -/
def glStep (g : GraphArr) (st : GLState) (c : Nat × Nat × Nat) :
    Except String GLState :=
  if c.2.2 = 0 ∧ gcell g c.1 c.2.1 c.2.2 ≠ reversePatt (gcell g c.2.1 c.1 0) then
    .error "graph needs to have consistent lag-zero patterns"
  else if c.2.2 = 0 ∧ c.2.1 > c.1 then
    .ok st
  else if c.2.2 ≠ 0 ∧
      ¬ gcell g c.1 c.2.1 c.2.2 ∈ (["-->", "<->", "---"] : List String) then
    .error "Lagged links can only be in dir, bidir or selection types"
  else if gcell g c.1 c.2.1 c.2.2 = "-->" then
    .ok { links := setLink st.links c.2.1 (Int.ofNat c.1, -(c.2.2 : Int)),
          selv := st.selv, latent := st.latent,
          processed := st.processed ++ [c] }
  else if gcell g c.1 c.2.1 c.2.2 = "<--" then
    .ok { links := setLink st.links c.1 (Int.ofNat c.2.1, -(c.2.2 : Int)),
          selv := st.selv, latent := st.latent,
          processed := st.processed ++ [c] }
  else if gcell g c.1 c.2.1 c.2.2 = "<->" then
    .ok { links := setLink (setLink (st.links ++ [[]]) c.1
            (Int.ofNat st.latent, 0)) c.2.1 (Int.ofNat st.latent, -(c.2.2 : Int)),
          selv := st.selv, latent := st.latent + 1,
          processed := st.processed ++ [c] }
  else if gcell g c.1 c.2.1 c.2.2 = "---" then
    .ok { links := setLink (setLink (st.links ++ [[]]) st.latent
            (Int.ofNat c.1, -(c.2.2 : Int))) st.latent (Int.ofNat c.2.1, 0),
          selv := st.selv ++ [Int.ofNat st.latent], latent := st.latent + 1,
          processed := st.processed ++ [c] }
  else
    .ok { links := st.links, selv := st.selv, latent := st.latent,
          processed := st.processed ++ [c] }

/-- The compilation fold over all nonzero cells. -/
def getLinksFromGraphAux (g : GraphArr) : Except String GLState :=
  (nonzeroCells g).foldlM (glStep g)
    ⟨List.replicate (gN g) [], [], gN g, []⟩

/-- `get_links_from_graph(graph)`: links dictionary (as bare pairs),
`observed_vars = list(range(N))` and the selection variables. -/
def getLinksFromGraph (g : GraphArr) :
    Except String (Links × List Int × List Int) :=
  (getLinksFromGraphAux g).map fun st =>
    (st.links.map fun l => l.map fun p => LinkEntry.bare p.1 p.2,
      (List.range (gN g)).map Int.ofNat,
      st.selv)

/-- The cells actually processed (not skipped by `continue`) when
compilation succeeds. -/
def processedCells (g : GraphArr) : Except String (List (Nat × Nat × Nat)) :=
  (getLinksFromGraphAux g).map GLState.processed

/-- Construct an oracle from a graph array (`OracleCI(graph=...)`). -/
def mkOracleFromGraph (g : GraphArr) : Except String Oracle :=
  (getLinksFromGraph g).map fun r => ⟨r.1, r.2.1, r.2.2⟩

/-! ### Semantic notions used by the claims -/

/-- A cache is consistent when every stored verdict is the d-separation
verdict of its key; every cache reachable from a freshly constructed
oracle satisfies this (entries are only ever written by `_is_dsep`). -/
def CacheConsistent (o : Oracle) (c : DsepCache) : Prop :=
  ∀ k b, (k, b) ∈ c → b = isDsep o k.1 k.2.1 k.2.2 none

/-- The documented link invariant (spec data model): every relative lag is
non-positive.  `__init__` does not revalidate it; links violating it are
outside the documented input format. -/
def LinksLagNonpos (links : Links) : Prop :=
  ∀ l ∈ links, ∀ e ∈ l, e.parse.2.1 ≤ 0

/-- Violation of the query-key invariants on the canonicalised query, as
listed by `_check_XYZ`: a positive lag, a variable index outside
`[0, N)`, or no zero-lag node in the deduplicated `Y` (an empty `Y`
violates the last vacuously). -/
def violatesXYZ (N : Int) (X Y Z : List VLNode) : Prop :=
  (∃ n ∈ dedupKeys X ++ dedupKeys Y ++ canonZ X Y Z, n.2 > 0) ∨
    (∃ n ∈ dedupKeys X ++ dedupKeys Y ++ canonZ X Y Z, n.1 ≥ N ∨ n.1 < 0) ∨
    (∀ n ∈ dedupKeys Y, n.2 ≠ 0)

/-! ### Concrete fixtures for witnesses and counterexamples -/

/-- Links with a contemporaneous and a lagged parent for variable 0. -/
def linksC5 : Links := [[.bare 1 0, .bare 1 (-1)], []]

/-- Contemporaneous chain `0 --> 1 --> 2`. -/
def linksChain : Links := [[], [.bare 0 0], [.bare 1 0]]

/-- The oracle over `linksChain` with all variables observed. -/
def oracleChain : Oracle := ⟨linksChain, [0, 1, 2], []⟩

/-- Variable 1 is a selection variable and a lag-1 parent of variable 0. -/
def linksC6 : Links := [[.bare 1 (-1)], []]

/-- A single contemporaneous directed edge `0 --> 1` as a graph array. -/
def graphDirPair : GraphArr := [[[""], ["-->"]], [["<--"], [""]]]

/-- A single contemporaneous selection edge `0 --- 1` as a graph array. -/
def graphSelPair : GraphArr := [[[""], ["---"]], [["---"], [""]]]

/-! ### Walk semantics of the path search (used to settle symmetry)

The search's legality rules define a walk relation on marked nodes; the
bidirectional search returns `True` exactly when two half-walks meet
compatibly.  These notions let the symmetry of the verdict be stated and
proved declaratively. -/

/-- The data the walk semantics depends on: everything in `WalkCtx` except
the backdoor restriction and its distinguished `x`. -/
structure SearchCtx where
  links : Links
  children : List (List (Int × Int))
  conds : List VLNode
  maxLag : Int

/-- Forget the backdoor data of a search context. -/
def WalkCtx.toSearch (ctx : WalkCtx) : SearchCtx :=
  ⟨ctx.links, ctx.children, ctx.conds, ctx.maxLag⟩

/-- One legal step of a d-connection walk, exactly the moves `_walk_fringe`
performs (without the backdoor restriction): standing on a condition only
an incoming arrowhead (or the start) may leave, and only towards a
parent; off conditions a tail or start continues to parents or children
while an arrowhead continues only to children.  Parent targets must be
unconditioned, and all targets obey the lag horizon. -/
inductive WStep (sc : SearchCtx) : VLNode → PMark → VLNode → PMark → Prop
  | toParent {v : VLNode} {m : PMark} {w : VLNode}
      (hmove : if sc.conds.contains v then m = .arrow ∨ m = .start
               else m = .tail ∨ m = .start)
      (hpar : w ∈ getLaggedParents sc.links v false)
      (hnc : ¬ sc.conds.contains w) (hlag : w.2 ≤ 0)
      (hbound : (w.2.natAbs : Int) ≤ sc.maxLag) :
      WStep sc v m w .tail
  | toChild {v : VLNode} {m : PMark} {w : VLNode}
      (hv : ¬ sc.conds.contains v)
      (hch : w ∈ getLaggedChildren sc.children v false)
      (hlag : w.2 ≤ 0) (hbound : (w.2.natAbs : Int) ≤ sc.maxLag) :
      WStep sc v m w .arrow

/-- Walk-reachability of marked nodes from a start node `s`. -/
inductive Reach (sc : SearchCtx) (s : VLNode) : VLNode → PMark → Prop
  | init : Reach sc s s .start
  | step {v : VLNode} {m : PMark} {w : VLNode} {m' : PMark} :
      Reach sc s v m → WStep sc v m w m' → Reach sc s w m'

/-- Whether two half-walks meeting at `w` with end marks `a` and `b` compose
into one open walk: a start mark composes with any non-start mark, two
arrowheads need `w` conditioned (collider opened by conditioning), and
otherwise `w` must be unconditioned. -/
def composeOK (conds : List VLNode) (w : VLNode) : PMark → PMark → Prop
  | .start, .start => False
  | .start, _ => True
  | _, .start => True
  | a, b =>
    if conds.contains w then a = .arrow ∧ b = .arrow
    else ¬ (a = .arrow ∧ b = .arrow)

/-- `x` and `y` are d-connected within the horizon: two half-walks meet
compatibly at some node. -/
def ConnectedPair (sc : SearchCtx) (x y : VLNode) : Prop :=
  ∃ w a b, Reach sc x w a ∧ Reach sc y w b ∧ composeOK sc.conds w a b

/-- The mark `m` is present in a recorded mark set. -/
def markHolds (ms : MarkSet) : PMark → Prop
  | .start => ms.hasStart
  | .tail => ms.hasTail
  | .arrow => ms.hasArrow

/-- Number of marks in a mark set (for the loop-variant argument). -/
def msCount (ms : MarkSet) : Nat :=
  (if ms.hasStart then 1 else 0) + (if ms.hasTail then 1 else 0) +
    (if ms.hasArrow then 1 else 0)

/-- Total number of recorded marks of a visit table. -/
def pmCount (m : PathMap) : Nat := (m.map fun p => msCount p.2).sum

/-- All source variables mentioned in the links table. -/
def entrySources (links : Links) : List Int :=
  links.flatMap (List.map LinkEntry.srcVar)

/-- A finite list containing every node the pair search can ever record:
variables are drawn from `range N`, the link sources, and the two start
variables; lags from the horizon window and the two start lags. -/
def univNodes (links : Links) (maxLag : Int) (x y : VLNode) : List VLNode :=
  (((List.range links.length).map Int.ofNat) ++ entrySources links ++ [x.1, y.1]).flatMap
    fun v =>
      ((List.range (maxLag.natAbs + 1)).map fun t : Nat => (v, -(Int.ofNat t))) ++
        [(v, x.2), (v, y.2)]

/-- Invariant of the graph-compilation fold: the next free latent index is
the links-table length, at least `N`; every selection variable is a fresh
latent index; and the selection variables correspond one-to-one, in
order, to the processed `"---"` cells, each with exactly the two edge
endpoints as its parents. -/
def glInv (g : GraphArr) (st : GLState) : Prop :=
  st.latent = st.links.length ∧ gN g ≤ st.latent ∧
    (∀ s ∈ st.selv, ∃ k : Nat, s = Int.ofNat k ∧ k < st.latent) ∧
    List.Pairwise (· < ·) st.selv ∧
    List.Forall₂ (fun (s : Int) (c : Nat × Nat × Nat) =>
        ∃ k : Nat, s = Int.ofNat k ∧ gN g ≤ k ∧ k < st.links.length ∧
          st.links.getD k [] = [(Int.ofNat c.1, -(c.2.2 : Int)), (Int.ofNat c.2.1, 0)])
      st.selv (st.processed.filter fun c => gcell g c.1 c.2.1 c.2.2 == "---")

/-- All link sources lie in `0 .. N-1`, so every dict lookup of the Python
searches succeeds (the first conjunct of `Oracle.WF`). -/
def LinksSrcInRange (links : Links) : Prop :=
  ∀ l ∈ links, ∀ e ∈ l, 0 ≤ e.parse.1 ∧ e.parse.1 < (links.length : Int)

/-- The mark `m` is recorded for `v` in the visit table. -/
def pmHasMark (P : PathMap) (v : VLNode) (m : PMark) : Prop :=
  ∃ ms, pmLookup P v = some ms ∧ markHolds ms m

/-- Soundness of a visit table for the side started at `s`: a start mark
identifies the origin, tail/arrow marks are walk-reachable, and every
entry carries at least one mark. -/
def SideSound (sc : SearchCtx) (s : VLNode) (P : PathMap) : Prop :=
  ∀ v ms, pmLookup P v = some ms →
    (ms.hasStart = true → v = s) ∧
    (ms.hasTail = true → Reach sc s v .tail) ∧
    (ms.hasArrow = true → Reach sc s v .arrow) ∧
    (ms.hasStart = true ∨ ms.hasTail = true ∨ ms.hasArrow = true)

/-- Soundness of a fringe: every pending entry is walk-reachable. -/
def FringeSound (sc : SearchCtx) (s : VLNode) (F : List (VLNode × PMark)) : Prop :=
  ∀ p ∈ F, Reach sc s p.1 p.2

/-- The origin's start mark is recorded (it never disappears: updates only
add marks). -/
def StartRecorded (s : VLNode) (P : PathMap) : Prop := pmHasMark P s .start

/-- Completeness invariant of one side: every recorded mark is either still
pending in the fringe or fully expanded — all its legal steps stay away
from the other side's origin (stepping onto it fires the meet check) and
land on recorded marks (or on a node holding a start mark, the
deduplication case of the origin itself). -/
def SideClosed (sc : SearchCtx) (oOrig : VLNode) (P : PathMap)
    (F : List (VLNode × PMark)) : Prop :=
  ∀ v m, pmHasMark P v m → (v, m) ∈ F ∨
    ∀ w m', WStep sc v m w m' →
      w ≠ oOrig ∧ (pmHasMark P w m' ∨ pmHasMark P w .start)

/-- Mark containment between visit tables (marks are only ever added). -/
def pmLE (P Q : PathMap) : Prop := ∀ v m, pmHasMark P v m → pmHasMark Q v m

/-! ### Helper lemmas -/

theorem cacheLookup_mem {c : DsepCache} {k : QueryKey} {b : Bool}
    (h : cacheLookup c k = some b) : (k, b) ∈ c := by
  unfold cacheLookup at h
  cases hfind : c.find? (fun p => p.1 == k) with
  | none => rw [hfind] at h; cases h
  | some p =>
    rw [hfind] at h
    simp only [Option.map_some', Option.some.injEq] at h
    have hp : (p.1 == k) = true :=
      @List.find?_some _ (fun q : QueryKey × Bool => q.1 == k) _ _ hfind
    have hk : p.1 = k := eq_of_beq hp
    have hmem := List.mem_of_find?_eq_some hfind
    obtain ⟨a, bb⟩ := p
    simp only at hk h
    subst hk; subst h
    exact hmem

theorem cacheLookup_append_self {c : DsepCache} {k : QueryKey} {v : Bool}
    (h : cacheLookup c k = none) : cacheLookup (c ++ [(k, v)]) k = some v := by
  unfold cacheLookup at h ⊢
  induction c with
  | nil =>
    simp only [List.nil_append, List.find?]
    have : (k == k) = true := by exact beq_self_eq_true k
    simp [this]
  | cons p rest ih =>
    simp only [List.cons_append, List.find?]
    cases hb : (p.1 == k) with
    | true => simp only [List.find?, hb] at h; cases h
    | false =>
      simp only [List.find?, hb] at h
      exact ih h

theorem glStep_ok_processed {g : GraphArr} {st : GLState} {c : Nat × Nat × Nat}
    {st' : GLState} (h : glStep g st c = .ok st') :
    (¬(c.2.2 = 0 ∧ c.2.1 > c.1) ∧ st'.processed = st.processed ++ [c]) ∨
      ((c.2.2 = 0 ∧ c.2.1 > c.1) ∧ st'.processed = st.processed) := by
  unfold glStep at h
  split at h
  · cases h
  · split at h
    · rename_i hskip
      right
      refine ⟨hskip, ?_⟩
      cases h
      rfl
    · rename_i hskip
      split at h
      · cases h
      · split at h <;> [skip; split at h] <;> [skip; skip; split at h] <;>
          [skip; skip; skip; split at h] <;> (cases h; exact Or.inl ⟨hskip, rfl⟩)

theorem foldlM_glStep_processed {g : GraphArr} :
    ∀ (l : List (Nat × Nat × Nat)) (st st' : GLState),
      l.foldlM (glStep g) st = .ok st' →
      ∀ c, c ∈ st'.processed ↔
        c ∈ st.processed ∨ (c ∈ l ∧ ¬(c.2.2 = 0 ∧ c.2.1 > c.1)) := by
  intro l
  induction l with
  | nil =>
    intro st st' h c
    simp only [List.foldlM_nil] at h
    cases h
    simp
  | cons a rest ih =>
    intro st st' h c
    simp only [List.foldlM_cons] at h
    cases ha : glStep g st a with
    | error e => rw [ha] at h; cases h
    | ok st1 =>
      rw [ha] at h
      have hrest := ih st1 st' h c
      rcases glStep_ok_processed ha with ⟨hcond, hproc⟩ | ⟨hcond, hproc⟩
      · rw [hrest, hproc]
        simp only [List.mem_append, List.mem_cons, List.not_mem_nil, or_false]
        constructor
        · rintro ((hc | hc) | ⟨hc, hn⟩)
          · exact Or.inl hc
          · exact Or.inr ⟨Or.inl hc, hc ▸ hcond⟩
          · exact Or.inr ⟨Or.inr hc, hn⟩
        · rintro (hc | ⟨(hc | hc), hn⟩)
          · exact Or.inl (Or.inl hc)
          · exact Or.inl (Or.inr hc)
          · exact Or.inr ⟨hc, hn⟩
      · rw [hrest, hproc]
        simp only [List.mem_cons]
        constructor
        · rintro (hc | ⟨hc, hn⟩)
          · exact Or.inl hc
          · exact Or.inr ⟨Or.inr hc, hn⟩
        · rintro (hc | ⟨(hc | hc), hn⟩)
          · exact Or.inl hc
          · exact absurd (hc ▸ hcond) hn
          · exact Or.inr ⟨hc, hn⟩

theorem mem_nonzeroCells {g : GraphArr} {i j t : Nat} :
    (i, j, t) ∈ nonzeroCells g ↔
      i < gN g ∧ j < gN g ∧ t < gT g ∧ gcell g i j t ≠ "" := by
  unfold nonzeroCells
  rw [List.mem_filter]
  simp only [List.mem_flatMap, List.mem_map, List.mem_range, decide_eq_true_eq]
  constructor
  · rintro ⟨⟨i', hi', j', hj', t', ht', heq⟩, hne⟩
    injection heq with h1 h23
    injection h23 with h2 h3
    subst h1; subst h2; subst h3
    exact ⟨hi', hj', ht', hne⟩
  · rintro ⟨hi, hj, ht, hne⟩
    exact ⟨⟨i, hi, j, hj, t, ht, rfl⟩, hne⟩

/-! ### Theorems for the claims -/

/-- Claim C5 (code bug): `_get_lagged_parents` with `exclude_contemp=True`
tests the node lag, not the link lag: for a node at lag `-1` it keeps the
contemporaneous link (yielding `(1, -1)`), and for a node at lag `0` it
drops every link; the documented behaviour (skip links of relative lag 0)
gives `[(1, -2)]` and `[(1, -1)]` respectively.  The sibling
`_get_lagged_children` correctly tests the link lag. -/
theorem lagged_parents_contemp_exclusion_divergence :
    getLaggedParents linksC5 (0, -1) true = [(1, -1), (1, -2)] ∧
    getLaggedParents linksC5 (0, 0) true = [] ∧
    laggedParentsSpec linksC5 (0, -1) true = [(1, -2)] ∧
    laggedParentsSpec linksC5 (0, 0) true = [(1, -1)] ∧
    getLaggedChildren (getChildren linksC5) (1, -1) true = [(0, 0)] := by
  refine ⟨rfl, rfl, rfl, rfl, rfl⟩

/-- Claim C7 (code bug): `get_measure` calls the unbound name `_check_XYZ`
and raises `NameError` on every call, while `run_test` answers the same
query; the spec-modelled `get_measure` returns the verdict compressed to
a scalar. -/
theorem get_measure_name_error :
    getMeasure oracleChain [] [(0, 0)] [(2, 0)] [(1, 0)] 0 =
      (.error "NameError: name _check_XYZ is not defined", []) ∧
    (runTest oracleChain [] [(0, 0)] [(2, 0)] [(1, 0)] 0 "2xtau_max").1 =
      .ok ((0 : ℚ), (1 : ℚ)) ∧
    (getMeasureSpec oracleChain [] [(0, 0)] [(2, 0)] [(1, 0)]).1 = .ok (0 : ℚ) := by
  refine ⟨rfl, rfl, rfl⟩

/-- Claim C10: the result of `run_test` does not depend on the `tau_max` and
`cut_off` arguments, which are accepted only for interface compatibility:
both the returned pair and the updated cache coincide for any two values
of each. -/
theorem run_test_ignores_tau_max_and_cut_off (o : Oracle) (c : DsepCache)
    (X Y Z : List VLNode) (t1 t2 : Int) (s1 s2 : String) :
    runTest o c X Y Z t1 s1 = runTest o c X Y Z t2 s2 := rfl

/-- Claim C1: on an oracle with a consistent cache, a valid query (the
translation and `_check_XYZ` succeed) returns exactly `(0, 1)` when no
open path up to the resolved horizon connects the canonicalised `X` and
`Y` given `Z`, and exactly `(1, 0)` otherwise. -/
theorem run_test_verdict (o : Oracle) (c : DsepCache)
    (X Y Z X1 Y1 Z1 Xc Yc Zc : List VLNode) (t : Int) (s : String)
    (hwf : o.WF) (hcc : CacheConsistent o c)
    (hx : translateNodes o.observedVars X = .ok X1)
    (hy : translateNodes o.observedVars Y = .ok Y1)
    (hz : translateNodes o.observedVars Z = .ok Z1)
    (hchk : checkXYZ o.N X1 Y1 Z1 = .ok (Xc, Yc, Zc)) :
    (runTest o c X Y Z t s).1 =
      .ok (if hasAnyPath o.links o.selectionVars Xc Yc Zc
              (getMaxLagFromXYZ o.links o.selectionVars Xc Yc Zc) false
           then ((1 : ℚ), (0 : ℚ)) else (0, 1)) := by
  have hds : isDsep o Xc Yc Zc none =
      !(hasAnyPath o.links o.selectionVars Xc Yc Zc
          (getMaxLagFromXYZ o.links o.selectionVars Xc Yc Zc) false) := rfl
  unfold runTest runTestCore
  simp only [hx, hy, hz, hchk]
  cases hlk : cacheLookup c (Xc, Yc, Zc) with
  | none =>
    simp only [hlk, hds]
    cases hpath : hasAnyPath o.links o.selectionVars Xc Yc Zc
        (getMaxLagFromXYZ o.links o.selectionVars Xc Yc Zc) false <;>
      simp [hpath, Except.map]
  | some b =>
    have hb := hcc _ _ (cacheLookup_mem hlk)
    simp only [hds] at hb
    subst hb
    simp only [hlk]
    cases hpath : hasAnyPath o.links o.selectionVars Xc Yc Zc
        (getMaxLagFromXYZ o.links o.selectionVars Xc Yc Zc) false <;>
      simp [hpath, Except.map]

/-- Witness for C1 on the contemporaneous chain `0 --> 1 --> 2` with the
middle node conditioned: the query is valid and the verdict is `(0, 1)`. -/
theorem run_test_verdict_witness :
    (runTest oracleChain [] [(0, 0)] [(2, 0)] [(1, 0)] 0 "2xtau_max").1 =
      .ok ((0 : ℚ), (1 : ℚ)) := by
  have h := run_test_verdict oracleChain [] [(0, 0)] [(2, 0)] [(1, 0)]
    [(0, 0)] [(2, 0)] [(1, 0)] [(0, 0)] [(2, 0)] [(1, 0)] 0 "2xtau_max"
    (by refine ⟨?_, ?_, ?_⟩ <;> decide)
    (fun k b h => absurd h (List.not_mem_nil _)) rfl rfl rfl rfl
  rw [h]
  rfl

/-- Claim C8: a repeated `run_test` call with the same query on an
unmodified oracle returns the identical `(val, pval)` pair, leaves the
cache unchanged, and does not run the d-separation search again (the
instrumentation bit is `false`). -/
theorem run_test_memoized (o : Oracle) (c c1 : DsepCache) (X Y Z : List VLNode)
    (p : ℚ × ℚ) (b : Bool)
    (h : runTestCore o c X Y Z = (.ok (p, b), c1)) :
    runTestCore o c1 X Y Z = (.ok (p, false), c1) := by
  unfold runTestCore at h ⊢
  cases hx : translateNodes o.observedVars X with
  | error e => simp [hx] at h
  | ok X1 =>
  simp only [hx] at h ⊢
  cases hy : translateNodes o.observedVars Y with
  | error e => simp [hy] at h
  | ok Y1 =>
  simp only [hy] at h ⊢
  cases hz : translateNodes o.observedVars Z with
  | error e => simp [hz] at h
  | ok Z1 =>
  simp only [hz] at h ⊢
  cases hchk : checkXYZ o.N X1 Y1 Z1 with
  | error e => simp [hchk] at h
  | ok q =>
  obtain ⟨Xc, Yc, Zc⟩ := q
  simp only [hchk] at h ⊢
  cases hlk : cacheLookup c (Xc, Yc, Zc) with
  | some b0 =>
    simp only [hlk, Prod.mk.injEq, Except.ok.injEq] at h
    obtain ⟨⟨hp, _⟩, hc⟩ := h
    subst hc
    simp only [hlk]
    simp [hp]
  | none =>
    simp only [hlk, Prod.mk.injEq, Except.ok.injEq] at h
    obtain ⟨⟨hp, _⟩, hc⟩ := h
    subst hc
    simp only [cacheLookup_append_self hlk]
    simp [hp]

/-- Witness for C8: the chain query `0 vs 2 given nothing` is answered from
the cache on the second call, with the search not re-run. -/
theorem run_test_memoized_witness :
    runTestCore oracleChain [(([(0, 0)], [(2, 0)], []), false)]
      [(0, 0)] [(2, 0)] [] =
      (.ok (((1 : ℚ), (0 : ℚ)), false), [(([(0, 0)], [(2, 0)], []), false)]) := by
  exact run_test_memoized oracleChain [] _ [(0, 0)] [(2, 0)] []
    ((1 : ℚ), (0 : ℚ)) true rfl

/-- Claim C9: whenever the canonicalised query violates the query-key
invariants (a positive lag, a variable index outside `[0, N)`, or no
zero-lag node in the deduplicated `Y`; the tuple-shape invariant is
enforced by the node type itself), `run_test` raises and the cache is
left exactly as it was — no entry is populated. -/
theorem run_test_invalid_query (o : Oracle) (c : DsepCache)
    (X Y Z X1 Y1 Z1 : List VLNode) (t : Int) (s : String)
    (hx : translateNodes o.observedVars X = .ok X1)
    (hy : translateNodes o.observedVars Y = .ok Y1)
    (hz : translateNodes o.observedVars Z = .ok Z1)
    (hviol : violatesXYZ o.N X1 Y1 Z1) :
    ∃ e, runTest o c X Y Z t s = (.error e, c) := by
  cases hchk : checkXYZ o.N X1 Y1 Z1 with
  | ok r =>
    exfalso
    unfold checkXYZ at hchk
    unfold violatesXYZ at hviol
    split at hchk
    · cases hchk
    · split at hchk
      · cases hchk
      · split at hchk
        · cases hchk
        · split at hchk
          · cases hchk
          · rename_i h1 h2 h3 h4
            rcases hviol with hv | hv | hv
            · obtain ⟨n, hn, hpos⟩ := hv
              exact h1 (List.any_eq_true.mpr ⟨n, hn, decide_eq_true hpos⟩)
            · obtain ⟨n, hn, hbad⟩ := hv
              refine h2 (List.any_eq_true.mpr ⟨n, hn, Bool.or_eq_true _ _ |>.mpr ?_⟩)
              cases hbad with
              | inl hge => exact Or.inl (decide_eq_true hge)
              | inr hlt => exact Or.inr (decide_eq_true hlt)
            · exact h4 (List.all_eq_true.mpr fun n hn => decide_eq_true (hv n hn))
  | error e =>
    refine ⟨e, ?_⟩
    unfold runTest runTestCore
    simp only [hx, hy, hz, hchk]
    rfl

/-- Witness for C9: a query whose `Y` has no zero-lag node raises and
populates nothing. -/
theorem run_test_invalid_query_witness :
    ∃ e, runTest oracleChain [] [(0, 0)] [(1, -1)] [] 0 "2xtau_max" =
      (.error e, []) := by
  exact run_test_invalid_query oracleChain [] [(0, 0)] [(1, -1)] []
    [(0, 0)] [(1, -1)] [] 0 "2xtau_max" rfl rfl rfl (by unfold violatesXYZ; decide)

/-- Claim C3 counterexample: in the graph with the single contemporaneous
edge `0 --> 1`, the nonzero lag-0 cell with target index greater than the
source index, `(i, j) = (0, 1)`, is NOT the processed one; the pair is
processed at `(1, 0)` where the target index is smaller. -/
theorem contemp_processed_target_gt_source_cex :
    gcell graphDirPair 0 1 0 = "-->" ∧ (0 : Nat) < (1 : Nat) ∧
    processedCells graphDirPair = .ok [(1, 0, 0)] ∧
    ((0, 1, 0) : Nat × Nat × Nat) ∉ [((1 : Nat), (0 : Nat), (0 : Nat))] := by
  refine ⟨rfl, Nat.zero_lt_one, rfl, by decide⟩

/-- Claim C3 amended: on a successful compilation a lag-0 cell is processed
exactly when it is nonzero and its target index is at most its source
index (`j ≤ i`; the code skips `j > i`), so of the two cells of a
contemporaneous pair with distinct endpoints exactly one is processed and
no contemporaneous edge is inserted twice. -/
theorem contemp_processed_once (g : GraphArr) (st : GLState)
    (h : getLinksFromGraphAux g = .ok st) :
    (∀ i j : Nat, ((i, j, 0) ∈ st.processed ↔
        i < gN g ∧ j < gN g ∧ 0 < gT g ∧ gcell g i j 0 ≠ "" ∧ j ≤ i)) ∧
    (∀ i j : Nat, i ≠ j →
      ¬ ((i, j, 0) ∈ st.processed ∧ (j, i, 0) ∈ st.processed)) := by
  unfold getLinksFromGraphAux at h
  have hmem := foldlM_glStep_processed (nonzeroCells g) _ st h
  have hchar : ∀ i j : Nat, ((i, j, 0) ∈ st.processed ↔
      i < gN g ∧ j < gN g ∧ 0 < gT g ∧ gcell g i j 0 ≠ "" ∧ j ≤ i) := by
    intro i j
    rw [hmem (i, j, 0)]
    simp only [List.not_mem_nil, false_or]
    rw [mem_nonzeroCells]
    constructor
    · rintro ⟨⟨hi, hj, ht, hne⟩, hskip⟩
      refine ⟨hi, hj, ht, hne, ?_⟩
      simp only [not_and, gt_iff_lt] at hskip
      have := hskip trivial
      omega
    · rintro ⟨hi, hj, ht, hne, hji⟩
      refine ⟨⟨hi, hj, ht, hne⟩, ?_⟩
      simp only [not_and, gt_iff_lt]
      intro hz
      omega
  refine ⟨hchar, ?_⟩
  intro i j hne ⟨h1, h2⟩
  have g1 := (hchar i j).mp h1
  have g2 := (hchar j i).mp h2
  omega

/-- Witness for the amended C3 on the concrete one-edge graph: the cell
`(1, 0, 0)` is processed and the mirror cell `(0, 1, 0)` is not. -/
theorem contemp_processed_once_witness :
    ((1, 0, 0) : Nat × Nat × Nat) ∈ [((1 : Nat), (0 : Nat), (0 : Nat))] ∧
    ((0, 1, 0) : Nat × Nat × Nat) ∉ [((1 : Nat), (0 : Nat), (0 : Nat))] := by
  have h := contemp_processed_once graphDirPair
    ⟨[[], [(0, 0)]], [], 2, [(1, 0, 0)]⟩ rfl
  refine ⟨(h.1 1 0).mpr (by refine ⟨?_, ?_, ?_, ?_, ?_⟩ <;> decide), ?_⟩
  intro hc
  have := (h.1 0 1).mp hc
  omega

theorem setLink_length (ls : List (List (Int × Int))) (j : Nat) (e : Int × Int) :
    (setLink ls j e).length = ls.length := by
  unfold setLink; exact List.length_set ls j _

theorem setLink_getD_ne (ls : List (List (Int × Int))) {j k : Nat} (e : Int × Int)
    (h : j ≠ k) : (setLink ls j e).getD k [] = ls.getD k [] := by
  unfold setLink
  simp [List.getD_eq_getElem?_getD, List.getElem?_set_ne h]

theorem setLink_getD_self (ls : List (List (Int × Int))) {j : Nat} (e : Int × Int)
    (h : j < ls.length) : (setLink ls j e).getD j [] = ls.getD j [] ++ [e] := by
  unfold setLink
  simp [List.getD_eq_getElem?_getD, List.getElem?_set_self, h]

theorem getD_append_left_nil {l1 l2 : List (List (Int × Int))} {k : Nat}
    (h : k < l1.length) : (l1 ++ l2).getD k [] = l1.getD k [] := by
  simp [List.getD_eq_getElem?_getD, List.getElem?_append_left h]

theorem getD_append_len (l : List (List (Int × Int))) :
    (l ++ [[]]).getD l.length [] = [] := by
  simp [List.getD_eq_getElem?_getD]

theorem glInv_step {g : GraphArr} {st st' : GLState} {c : Nat × Nat × Nat}
    (hi : c.1 < gN g) (hj : c.2.1 < gN g) (hinv : glInv g st)
    (h : glStep g st c = .ok st') : glInv g st' := by
  obtain ⟨hlat, hge, hselB, hpw, hf2⟩ := hinv
  unfold glStep at h
  split at h
  · cases h
  split at h
  · cases h; exact ⟨hlat, hge, hselB, hpw, hf2⟩
  split at h
  · cases h
  split at h
  · -- "-->"
    rename_i het
    cases h
    refine ⟨by simpa [setLink_length] using hlat, hge, hselB, hpw, ?_⟩
    simp only [List.filter_append]
    have hcf : (List.filter (fun c => gcell g c.1 c.2.1 c.2.2 == "---") [c]) = [] := by
      simp [List.filter, het]
    rw [hcf, List.append_nil]
    refine hf2.imp ?_
    rintro s cc ⟨k, hk1, hk2, hk3, hk4⟩
    refine ⟨k, hk1, hk2, by rw [setLink_length]; exact hk3, ?_⟩
    rw [setLink_getD_ne _ _ (by omega)]
    exact hk4
  split at h
  · -- "<--"
    rename_i het
    cases h
    refine ⟨by simpa [setLink_length] using hlat, hge, hselB, hpw, ?_⟩
    simp only [List.filter_append]
    have hcf : (List.filter (fun c => gcell g c.1 c.2.1 c.2.2 == "---") [c]) = [] := by
      simp [List.filter, het]
    rw [hcf, List.append_nil]
    refine hf2.imp ?_
    rintro s cc ⟨k, hk1, hk2, hk3, hk4⟩
    refine ⟨k, hk1, hk2, by rw [setLink_length]; exact hk3, ?_⟩
    rw [setLink_getD_ne _ _ (by omega)]
    exact hk4
  split at h
  · -- "<->"
    rename_i het
    cases h
    have hlen : (setLink (setLink (st.links ++ [[]]) c.1 (Int.ofNat st.latent, 0))
        c.2.1 (Int.ofNat st.latent, -(c.2.2 : Int))).length = st.links.length + 1 := by
      rw [setLink_length, setLink_length, List.length_append, List.length_singleton]
    refine ⟨by (try dsimp only); rw [hlen]; omega, by (try dsimp only); omega, ?_, hpw, ?_⟩
    · intro s hs
      obtain ⟨k, hk1, hk2⟩ := hselB s hs
      exact ⟨k, hk1, by (try dsimp only); omega⟩
    · simp only [List.filter_append]
      have hcf : (List.filter (fun c => gcell g c.1 c.2.1 c.2.2 == "---") [c]) = [] := by
        simp [List.filter, het]
      rw [hcf, List.append_nil]
      refine hf2.imp ?_
      rintro s cc ⟨k, hk1, hk2, hk3, hk4⟩
      refine ⟨k, hk1, hk2, by omega, ?_⟩
      rw [setLink_getD_ne _ _ (by omega), setLink_getD_ne _ _ (by omega),
        getD_append_left_nil hk3]
      exact hk4
  split at h
  · -- "---"
    rename_i het
    cases h
    have hlen1 : (st.links ++ [[]]).length = st.links.length + 1 := by
      rw [List.length_append, List.length_singleton]
    have hlen : (setLink (setLink (st.links ++ [[]]) st.latent
        (Int.ofNat c.1, -(c.2.2 : Int))) st.latent (Int.ofNat c.2.1, 0)).length =
        st.links.length + 1 := by
      rw [setLink_length, setLink_length, hlen1]
    refine ⟨by (try dsimp only); rw [hlen]; omega, by (try dsimp only); omega, ?_, ?_, ?_⟩
    · intro s hs
      rcases List.mem_append.mp hs with hs | hs
      · obtain ⟨k, hk1, hk2⟩ := hselB s hs
        exact ⟨k, hk1, by (try dsimp only); omega⟩
      · rw [List.mem_singleton] at hs
        exact ⟨st.latent, hs, by (try dsimp only); omega⟩
    · rw [List.pairwise_append]
      refine ⟨hpw, List.pairwise_singleton _ _, ?_⟩
      intro a ha b hb
      rw [List.mem_singleton] at hb
      obtain ⟨k, hk1, hk2⟩ := hselB a ha
      subst hb; subst hk1
      exact Int.ofNat_lt.mpr hk2
    · simp only [List.filter_append]
      have hcf : (List.filter (fun c => gcell g c.1 c.2.1 c.2.2 == "---") [c]) = [c] := by
        simp [List.filter, het]
      rw [hcf]
      refine List.rel_append ?_ ?_
      · refine hf2.imp ?_
        rintro s cc ⟨k, hk1, hk2, hk3, hk4⟩
        refine ⟨k, hk1, hk2, by (try dsimp only); rw [hlen]; omega, ?_⟩
        show (setLink (setLink (st.links ++ [[]]) st.latent
          (Int.ofNat c.1, -(c.2.2 : Int))) st.latent (Int.ofNat c.2.1, 0)).getD k [] = _
        rw [setLink_getD_ne _ _ (by omega), setLink_getD_ne _ _ (by omega),
          getD_append_left_nil hk3]
        exact hk4
      · refine List.Forall₂.cons ?_ List.Forall₂.nil
        refine ⟨st.latent, rfl, hge, by (try dsimp only); rw [hlen]; omega, ?_⟩
        have h1 : (st.links ++ [[]]).getD st.latent [] = [] := by
          rw [hlat]; exact getD_append_len st.links
        rw [setLink_getD_self _ _ (by rw [setLink_length, hlen1]; omega),
          setLink_getD_self _ _ (by rw [hlen1]; omega), h1]
        rfl
  · -- other nonzero strings: processed but nothing inserted
    rename_i het
    cases h
    refine ⟨hlat, hge, hselB, hpw, ?_⟩
    simp only [List.filter_append]
    have hbe : (gcell g c.1 c.2.1 c.2.2 == "---") = false :=
      beq_eq_false_iff_ne.mpr het
    have hcf : (List.filter (fun c => gcell g c.1 c.2.1 c.2.2 == "---") [c]) = [] := by
      simp [List.filter, hbe]
    rw [hcf, List.append_nil]
    exact hf2

theorem foldlM_glInv {g : GraphArr} :
    ∀ (l : List (Nat × Nat × Nat)) (st st' : GLState),
      (∀ c ∈ l, c.1 < gN g ∧ c.2.1 < gN g) → glInv g st →
      l.foldlM (glStep g) st = .ok st' → glInv g st' := by
  intro l
  induction l with
  | nil =>
    intro st st' _ hinv h
    simp only [List.foldlM_nil] at h
    cases h
    exact hinv
  | cons a rest ih =>
    intro st st' hbd hinv h
    simp only [List.foldlM_cons] at h
    cases ha : glStep g st a with
    | error e => rw [ha] at h; cases h
    | ok st1 =>
      rw [ha] at h
      have hb := hbd a (List.mem_cons_self a rest)
      exact ih st1 st' (fun c hc => hbd c (List.mem_cons_of_mem a hc))
        (glInv_step hb.1 hb.2 hinv ha) h

/-- Claim C4 counterexample: compiling the single selection edge `0 --- 1`
yields selection variable `2` whose own parent list is exactly the two
endpoints — the endpoints' parent lists stay empty, so the selection
variable is not a parent of either endpoint. -/
theorem selection_parent_claim_cex :
    getLinksFromGraph graphSelPair =
      .ok ([[], [], [.bare 1 0, .bare 0 0]], [0, 1], [2]) ∧
    (([[], [], [LinkEntry.bare 1 0, LinkEntry.bare 0 0]] : Links).getD 0 []).all
      (fun e => e.srcVar ≠ 2) = true ∧
    (([[], [], [LinkEntry.bare 1 0, LinkEntry.bare 0 0]] : Links).getD 1 []).all
      (fun e => e.srcVar ≠ 2) = true ∧
    (([[], [], [LinkEntry.bare 1 0, LinkEntry.bare 0 0]] : Links).getD 2 []).map
      LinkEntry.srcVar = [1, 0] := by
  refine ⟨rfl, by decide, by decide, by decide⟩

/-- Claim C4 amended: on a successful compilation the selection variables
correspond one-to-one and in order to the processed `"---"` cells; each is
a fresh index (at least `N`, strictly increasing) whose parent list is
exactly the two endpoints `[(i, -tau), (j, 0)]` — i.e. both endpoints are
linked as parents OF the selection variable. -/
theorem selection_var_child_of_endpoints (g : GraphArr) (st : GLState)
    (h : getLinksFromGraphAux g = .ok st) :
    List.Forall₂ (fun (s : Int) (c : Nat × Nat × Nat) =>
        ∃ k : Nat, s = Int.ofNat k ∧ gN g ≤ k ∧
          st.links.getD k [] = [(Int.ofNat c.1, -(c.2.2 : Int)), (Int.ofNat c.2.1, 0)])
      st.selv (st.processed.filter fun c => gcell g c.1 c.2.1 c.2.2 == "---") ∧
    List.Pairwise (· < ·) st.selv := by
  unfold getLinksFromGraphAux at h
  have hinv0 : glInv g ⟨List.replicate (gN g) [], [], gN g, []⟩ := by
    refine ⟨?_, ?_, ?_, ?_, ?_⟩
    · simp
    · exact le_refl _
    · intro s hs; cases hs
    · exact List.Pairwise.nil
    · simp only [List.filter_nil]
      exact List.Forall₂.nil
  have hbd : ∀ c ∈ nonzeroCells g, c.1 < gN g ∧ c.2.1 < gN g := by
    intro c hc
    obtain ⟨i, j, t⟩ := c
    have := mem_nonzeroCells.mp hc
    exact ⟨this.1, this.2.1⟩
  have hinv := foldlM_glInv (nonzeroCells g) _ st hbd hinv0 h
  obtain ⟨_, _, _, hpw, hf2⟩ := hinv
  refine ⟨?_, hpw⟩
  refine hf2.imp ?_
  rintro s cc ⟨k, hk1, hk2, _, hk4⟩
  exact ⟨k, hk1, hk2, hk4⟩

/-- Witness for the amended C4 on the one-selection-edge graph: selection
variable `2` is fresh and its parent list holds exactly the endpoints. -/
theorem selection_var_child_of_endpoints_witness :
    ∃ k : Nat, (2 : Int) = Int.ofNat k ∧ gN graphSelPair ≤ k ∧
      ([[], [], [((1 : Int), (0 : Int)), ((0 : Int), (0 : Int))]] :
          List (List (Int × Int))).getD k [] =
        [(Int.ofNat 1, -((0 : Nat) : Int)), (Int.ofNat 0, 0)] := by
  have h := selection_var_child_of_endpoints graphSelPair
    ⟨[[], [], [(1, 0), (0, 0)]], [2], 3, [(1, 0, 0)]⟩ rfl
  have h2 := h.1
  rcases h2 with _ | ⟨hrel, _⟩
  exact hrel

theorem mem_selAugment {selv : List Int} {maxLag : Int} {s t : Int}
    (hs : s ∈ selv) (ht0 : 0 ≤ t) (htl : t ≤ maxLag) :
    (s, -t) ∈ selAugment selv maxLag := by
  unfold selAugment
  have hmem : t.toNat ∈ List.range ((maxLag + 1).toNat) :=
    List.mem_range.mpr (by omega)
  have h2 : (s, -Int.ofNat t.toNat) ∈ (List.range ((maxLag + 1).toNat)).map
      (fun tt : Nat => (s, -(Int.ofNat tt))) := List.mem_map_of_mem _ hmem
  rw [show Int.ofNat t.toNat = t from Int.toNat_of_nonneg ht0] at h2
  exact List.mem_flatMap.mpr ⟨s, hs, h2⟩

/-- Claim C6 counterexample: with selection variable `1` a lag-1 parent of
variable `0`, the horizon-deriving (non-repeating) ancestor search from
`Y = [(0, 0)]` resolves bound `1`, yet its conditioning set holds the
selection variable only at lag 0 — so the selection-variable node
`(1, -1)` is not conditioned and is admitted as an ancestor, contradicting
"augmented with every selection variable at every lag up to that search's
time bound". -/
theorem selection_conds_ancestor_cex :
    nonBlockedAncestorsNR linksC6 [1] [(0, 0)] [] = ([((0, 0), [(1, -1)])], 1) ∧
    ancCondsNR [1] [(0, 0)] [] = [(1, 0)] ∧
    ((1 : Int), (-1 : Int)) ∉ ancCondsNR [1] [(0, 0)] [] := by
  refine ⟨rfl, rfl, by decide⟩

/-- Claim C6 amended: the path search and the max-lag ancestor search do
condition on every selection variable at every lag `0 .. bound`; the
non-repeating ancestor search conditions on selection variables only at
lag 0 (its bound's value at augmentation time). -/
theorem selection_conds_augmentation :
    (∀ (X Y conds : List VLNode) (selv : List Int) (maxLag : Int) (s t : Int),
        s ∈ selv → 0 ≤ t → t ≤ maxLag →
        (s, -t) ∈ hasAnyPathConds X Y conds selv maxLag) ∧
    (∀ (Y conds : List VLNode) (selv : List Int) (ml : Int) (s t : Int),
        s ∈ selv → 0 ≤ t → t ≤ ml →
        (s, -t) ∈ ancCondsML selv Y conds ml) ∧
    (∀ (Y conds : List VLNode) (selv : List Int),
        ancCondsNR selv Y conds =
          ancCondsPre Y conds ++ selv.map fun s => (s, 0)) := by
  refine ⟨?_, ?_, ?_⟩
  · intro X Y conds selv maxLag s t hs ht0 htl
    unfold hasAnyPathConds
    exact List.mem_append_right _ (mem_selAugment hs ht0 htl)
  · intro Y conds selv ml s t hs ht0 htl
    unfold ancCondsML
    exact List.mem_append_right _ (mem_selAugment hs ht0 htl)
  · intro Y conds selv
    unfold ancCondsNR
    congr 1
    unfold selAugment
    induction selv with
    | nil => rfl
    | cons a rest ih =>
      simp only [List.flatMap_cons, List.map_cons]
      rw [ih]
      rfl

/-- Witness for the amended C6: concrete memberships in the path-search and
max-lag conditioning sets, and the lag-0-only augmentation of the
non-repeating search. -/
theorem selection_conds_augmentation_witness :
    ((1 : Int), (-1 : Int)) ∈ hasAnyPathConds [] [] [] [1] 2 ∧
    ((1 : Int), (-2 : Int)) ∈ ancCondsML [1] [] [] 2 ∧
    ancCondsNR [1] [(0, 0)] [] = [((1 : Int), (0 : Int))] := by
  refine ⟨?_, ?_, ?_⟩
  · exact selection_conds_augmentation.1 [] [] [] [1] 2 1 1
      (by decide) (by decide) (by decide)
  · exact selection_conds_augmentation.2.1 [] [] [1] 2 1 2
      (by decide) (by decide) (by decide)
  · rw [selection_conds_augmentation.2.2 [(0, 0)] [] [1]]
    rfl

theorem pmLookup_cons (q : VLNode × MarkSet) (l : PathMap) (u : VLNode) :
    pmLookup (q :: l) u = if q.1 = u then some q.2 else pmLookup l u := by
  by_cases h : q.1 = u
  · have hb : (q.1 == u) = true := beq_iff_eq.mpr h
    simp [pmLookup, List.find?, hb, h]
  · have hb : (q.1 == u) = false := beq_eq_false_iff_ne.mpr h
    simp [pmLookup, List.find?, hb, h]

theorem pmLookup_pmUpdate (P : PathMap) (v : VLNode) (f : MarkSet → MarkSet)
    (u : VLNode) :
    pmLookup (pmUpdate P v f) u =
      if u = v then some (f ((pmLookup P v).getD ⟨false, false, false⟩))
      else pmLookup P u := by
  induction P with
  | nil =>
    show pmLookup [(v, f ⟨false, false, false⟩)] u = _
    rw [pmLookup_cons]
    by_cases h : u = v
    · rw [if_pos h.symm, if_pos h]
      rfl
    · rw [if_neg (fun hh => h hh.symm), if_neg h]
  | cons p rest ih =>
    show pmLookup (if p.1 = v then (v, f p.2) :: rest else p :: pmUpdate rest v f) u = _
    by_cases hpv : p.1 = v
    · rw [if_pos hpv, pmLookup_cons]
      by_cases huv : u = v
      · rw [if_pos huv.symm, if_pos huv, pmLookup_cons, if_pos hpv]
        rfl
      · have hpu : ¬ p.1 = u := fun h => huv (by rw [← h, hpv])
        rw [if_neg (fun hh => huv hh.symm), if_neg huv, pmLookup_cons, if_neg hpu]
    · rw [if_neg hpv, pmLookup_cons]
      by_cases hpu : p.1 = u
      · have huv : ¬ u = v := fun h => hpv (hpu.trans h)
        rw [if_pos hpu, if_neg huv, pmLookup_cons, if_pos hpu]
      · rw [if_neg hpu, ih]
        by_cases huv : u = v
        · rw [if_pos huv, if_pos huv, pmLookup_cons, if_neg hpv]
        · rw [if_neg huv, if_neg huv, pmLookup_cons, if_neg hpu]

theorem pmLookup_setTail (P : PathMap) (w u : VLNode) :
    pmLookup (pmSetTail P w) u =
      if u = w then some (msAddTail ((pmLookup P w).getD ⟨false, false, false⟩))
      else pmLookup P u :=
  pmLookup_pmUpdate P w msAddTail u

theorem pmLookup_setArrow (P : PathMap) (w u : VLNode) :
    pmLookup (pmSetArrow P w) u =
      if u = w then some (msAddArrow ((pmLookup P w).getD ⟨false, false, false⟩))
      else pmLookup P u :=
  pmLookup_pmUpdate P w msAddArrow u

theorem msAddTail_start (ms : MarkSet) : (msAddTail ms).hasStart = ms.hasStart := rfl

theorem msAddArrow_start (ms : MarkSet) : (msAddArrow ms).hasStart = ms.hasStart := rfl

theorem pmLookup_setTail_mono {P : PathMap} {v : VLNode} {ms : MarkSet}
    (w : VLNode) (h : pmLookup P v = some ms) :
    ∃ ms', pmLookup (pmSetTail P w) v = some ms' ∧
      (ms.hasStart = true → ms'.hasStart = true) ∧
      (ms.hasTail = true → ms'.hasTail = true) ∧
      (ms.hasArrow = true → ms'.hasArrow = true) := by
  rw [pmLookup_setTail]
  by_cases hv : v = w
  · subst hv
    rw [h, if_pos rfl]
    refine ⟨_, rfl, ?_, ?_, ?_⟩ <;> (intro hh; simp [msAddTail, Option.getD, hh])
  · rw [if_neg hv, h]
    exact ⟨ms, rfl, fun hh => hh, fun hh => hh, fun hh => hh⟩

theorem pmLookup_setArrow_mono {P : PathMap} {v : VLNode} {ms : MarkSet}
    (w : VLNode) (h : pmLookup P v = some ms) :
    ∃ ms', pmLookup (pmSetArrow P w) v = some ms' ∧
      (ms.hasStart = true → ms'.hasStart = true) ∧
      (ms.hasTail = true → ms'.hasTail = true) ∧
      (ms.hasArrow = true → ms'.hasArrow = true) := by
  rw [pmLookup_setArrow]
  by_cases hv : v = w
  · subst hv
    rw [h, if_pos rfl]
    refine ⟨_, rfl, ?_, ?_, ?_⟩ <;> (intro hh; simp [msAddArrow, Option.getD, hh])
  · rw [if_neg hv, h]
    exact ⟨ms, rfl, fun hh => hh, fun hh => hh, fun hh => hh⟩

theorem startRecorded_setTail {s : VLNode} {P : PathMap} (w : VLNode)
    (h : StartRecorded s P) : StartRecorded s (pmSetTail P w) := by
  obtain ⟨ms, hms, hst⟩ := h
  obtain ⟨ms', hms', h1, _, _⟩ := pmLookup_setTail_mono w hms
  exact ⟨ms', hms', h1 hst⟩

theorem startRecorded_setArrow {s : VLNode} {P : PathMap} (w : VLNode)
    (h : StartRecorded s P) : StartRecorded s (pmSetArrow P w) := by
  obtain ⟨ms, hms, hst⟩ := h
  obtain ⟨ms', hms', h1, _, _⟩ := pmLookup_setArrow_mono w hms
  exact ⟨ms', hms', h1 hst⟩

theorem pmMem_iff {P : PathMap} {v : VLNode} :
    pmMem P v = true ↔ ∃ ms, pmLookup P v = some ms := by
  unfold pmMem
  rw [Option.isSome_iff_exists]

theorem composeOK_symm {conds : List VLNode} {w : VLNode} {a b : PMark}
    (h : composeOK conds w a b) : composeOK conds w b a := by
  cases a <;> cases b <;>
    simp only [composeOK] at h ⊢ <;>
    first
      | exact h
      | exact trivial
      | (split at h <;> split <;> simp_all <;> tauto)

theorem connectedPair_symm {sc : SearchCtx} {x y : VLNode}
    (h : ConnectedPair sc x y) : ConnectedPair sc y x := by
  obtain ⟨w, a, b, hx, hy, hok⟩ := h
  exact ⟨w, b, a, hy, hx, composeOK_symm hok⟩

theorem walkToParentsGo_sound {ctx : WalkCtx} {s o : VLNode} {otherP : PathMap}
    (hOther : SideSound ctx.toSearch o otherP)
    {v : VLNode} {m : PMark}
    (hv : Reach ctx.toSearch s v m)
    (hmove : if ctx.conds.contains v then m = .arrow ∨ m = .start
             else m = .tail ∨ m = .start) :
    ∀ (ps : List VLNode) (fringe : List (VLNode × PMark)) (P : PathMap),
      (∀ w ∈ ps, w ∈ getLaggedParents ctx.links v false) →
      SideSound ctx.toSearch s P → FringeSound ctx.toSearch s fringe →
      StartRecorded s P →
      (SideSound ctx.toSearch s (walkToParentsGo ctx otherP ps fringe P).2.2 ∧
        FringeSound ctx.toSearch s (walkToParentsGo ctx otherP ps fringe P).2.1 ∧
        StartRecorded s (walkToParentsGo ctx otherP ps fringe P).2.2) ∧
      ((walkToParentsGo ctx otherP ps fringe P).1 = true →
        ConnectedPair ctx.toSearch s o) := by
  intro ps
  induction ps with
  | nil =>
    intro fringe P _ hS hF hR
    exact ⟨⟨hS, hF, hR⟩, by intro h; cases h⟩
  | cons w rest ih =>
    intro fringe P hsub hS hF hR
    have hwpar : w ∈ getLaggedParents ctx.links v false :=
      hsub w (List.mem_cons_self _ _)
    have hrest : ∀ u ∈ rest, u ∈ getLaggedParents ctx.links v false :=
      fun u hu => hsub u (List.mem_cons_of_mem _ hu)
    unfold walkToParentsGo
    split
    · exact ih fringe P hrest hS hF hR
    split
    · rename_i hskip hfilt
      obtain ⟨hnc, hlag, hbound⟩ := hfilt
      have hstep : WStep ctx.toSearch v m w .tail :=
        WStep.toParent hmove hwpar hnc hlag hbound
      have hreach : Reach ctx.toSearch s w .tail := Reach.step hv hstep
      have hconn : pmMem otherP w = true → ConnectedPair ctx.toSearch s o := by
        intro hmem
        rw [pmMem_iff] at hmem
        obtain ⟨msO, hmsO⟩ := hmem
        obtain ⟨hst, htl, har, hne⟩ := hOther _ _ hmsO
        rcases hne with hb | hb | hb
        · exact ⟨w, .tail, .start, hreach, by rw [hst hb]; exact Reach.init, trivial⟩
        · refine ⟨w, .tail, .tail, hreach, htl hb, ?_⟩
          show composeOK ctx.conds w .tail .tail
          simp only [composeOK]
          rw [if_neg hnc]
          simp
        · refine ⟨w, .tail, .arrow, hreach, har hb, ?_⟩
          show composeOK ctx.conds w .tail .arrow
          simp only [composeOK]
          rw [if_neg hnc]
          simp
      split
      · -- recorded: tail mark and fringe entry added
        have hS' : SideSound ctx.toSearch s (pmSetTail P w) := by
          intro u ms hms
          rw [pmLookup_setTail] at hms
          by_cases hu : u = w
          · rw [if_pos hu] at hms
            cases hms
            rw [hu]
            cases hold : pmLookup P w with
            | none =>
              refine ⟨?_, ?_, ?_, ?_⟩ <;> simp [hold, msAddTail, hreach]
            | some msOld =>
              have hOld := hS _ _ hold
              refine ⟨?_, ?_, ?_, ?_⟩ <;>
                simp only [hold, msAddTail, Option.getD] <;>
                first
                  | (intro hh; exact hOld.1 hh)
                  | (intro _; exact hreach)
                  | (intro hh; exact hOld.2.2.1 hh)
                  | simp
          · rw [if_neg hu] at hms
            exact hS u ms hms
        have hF' : FringeSound ctx.toSearch s (fringe ++ [(w, PMark.tail)]) := by
          intro p hp
          rcases List.mem_append.mp hp with hp | hp
          · exact hF p hp
          · rw [List.mem_singleton] at hp
            subst hp
            exact hreach
        have hR' : StartRecorded s (pmSetTail P w) := startRecorded_setTail w hR
        split
        · rename_i hmem
          exact ⟨⟨hS', hF', hR'⟩, fun _ => hconn hmem⟩
        · exact ih _ _ hrest hS' hF' hR'
      · split
        · rename_i hmem
          exact ⟨⟨hS, hF, hR⟩, fun _ => hconn hmem⟩
        · exact ih fringe P hrest hS hF hR
    · exact ih fringe P hrest hS hF hR

/-- Soundness of `_walk_to_children`: the updated path map and fringe stay
sound, and a reported meet yields a composed d-connection. -/
theorem walkToChildrenGo_sound {ctx : WalkCtx} {s o : VLNode} {otherP : PathMap}
    (hOther : SideSound ctx.toSearch o otherP)
    {v : VLNode} {m : PMark}
    (hv : Reach ctx.toSearch s v m)
    (hvnc : ¬ ctx.conds.contains v = true) :
    ∀ (cs : List VLNode) (fringe : List (VLNode × PMark)) (P : PathMap),
      (∀ w ∈ cs, w ∈ getLaggedChildren ctx.children v false) →
      SideSound ctx.toSearch s P → FringeSound ctx.toSearch s fringe →
      StartRecorded s P →
      (SideSound ctx.toSearch s (walkToChildrenGo ctx otherP cs fringe P).2.2 ∧
        FringeSound ctx.toSearch s (walkToChildrenGo ctx otherP cs fringe P).2.1 ∧
        StartRecorded s (walkToChildrenGo ctx otherP cs fringe P).2.2) ∧
      ((walkToChildrenGo ctx otherP cs fringe P).1 = true →
        ConnectedPair ctx.toSearch s o) := by
  intro cs
  induction cs with
  | nil =>
    intro fringe P _ hS hF hR
    exact ⟨⟨hS, hF, hR⟩, by intro h; cases h⟩
  | cons w rest ih =>
    intro fringe P hsub hS hF hR
    have hwch : w ∈ getLaggedChildren ctx.children v false :=
      hsub w (List.mem_cons_self _ _)
    have hrest : ∀ u ∈ rest, u ∈ getLaggedChildren ctx.children v false :=
      fun u hu => hsub u (List.mem_cons_of_mem _ hu)
    unfold walkToChildrenGo
    split
    · rename_i hfilt
      obtain ⟨hlag, hbound⟩ := hfilt
      have hstep : WStep ctx.toSearch v m w .arrow :=
        WStep.toChild hvnc hwch hlag hbound
      have hreach : Reach ctx.toSearch s w .arrow := Reach.step hv hstep
      have hconn : childMeet otherP ctx.conds w = true →
          ConnectedPair ctx.toSearch s o := by
        intro hmem
        unfold childMeet at hmem
        cases hmsO : pmLookup otherP w with
        | none => rw [hmsO] at hmem; cases hmem
        | some msO =>
          rw [hmsO] at hmem
          have hmem' : ((msO.hasTail && !(ctx.conds.contains w)) ||
              (msO.hasArrow && ctx.conds.contains w) || msO.hasStart) = true := hmem
          obtain ⟨hst, htl, har, hne⟩ := hOther _ _ hmsO
          simp only [Bool.or_eq_true, Bool.and_eq_true, Bool.not_eq_true'] at hmem'
          rcases hmem' with (⟨htlb, hcnd⟩ | ⟨harb, hcnd⟩) | hstb
          · refine ⟨w, .arrow, .tail, hreach, htl htlb, ?_⟩
            show composeOK ctx.conds w .arrow .tail
            simp only [composeOK]
            rw [if_neg (by rw [hcnd]; simp)]
            simp
          · refine ⟨w, .arrow, .arrow, hreach, har harb, ?_⟩
            show composeOK ctx.conds w .arrow .arrow
            simp only [composeOK]
            rw [if_pos hcnd]
            exact ⟨trivial, trivial⟩
          · exact ⟨w, .arrow, .start, hreach, by rw [hst hstb]; exact Reach.init,
              trivial⟩
      split
      · -- recorded: arrowhead mark and fringe entry added
        have hS' : SideSound ctx.toSearch s (pmSetArrow P w) := by
          intro u ms hms
          rw [pmLookup_setArrow] at hms
          by_cases hu : u = w
          · rw [if_pos hu] at hms
            cases hms
            rw [hu]
            cases hold : pmLookup P w with
            | none =>
              refine ⟨?_, ?_, ?_, ?_⟩ <;> simp [hold, msAddArrow, hreach]
            | some msOld =>
              have hOld := hS _ _ hold
              refine ⟨?_, ?_, ?_, ?_⟩ <;>
                simp only [hold, msAddArrow, Option.getD] <;>
                first
                  | (intro hh; exact hOld.1 hh)
                  | (intro hh; exact hOld.2.1 hh)
                  | (intro _; exact hreach)
                  | simp
          · rw [if_neg hu] at hms
            exact hS u ms hms
        have hF' : FringeSound ctx.toSearch s (fringe ++ [(w, PMark.arrow)]) := by
          intro p hp
          rcases List.mem_append.mp hp with hp | hp
          · exact hF p hp
          · rw [List.mem_singleton] at hp
            subst hp
            exact hreach
        have hR' : StartRecorded s (pmSetArrow P w) := startRecorded_setArrow w hR
        split
        · rename_i hmem
          exact ⟨⟨hS', hF', hR'⟩, fun _ => hconn hmem⟩
        · exact ih _ _ hrest hS' hF' hR'
      · split
        · rename_i hmem
          exact ⟨⟨hS, hF, hR⟩, fun _ => hconn hmem⟩
        · exact ih fringe P hrest hS hF hR
    · exact ih fringe P hrest hS hF hR

/-- Zeta-expanded unfolding of one `_walk_fringe` dispatch step. -/
theorem walkFringeGo_cons (ctx : WalkCtx) (otherP : PathMap) (v : VLNode)
    (mark : PMark) (rest fringe : List (VLNode × PMark)) (P : PathMap) :
    walkFringeGo ctx otherP ((v, mark) :: rest) fringe P =
      if ctx.conds.contains v then
        if mark = PMark.arrow ∨ mark = PMark.start then
          if (walkToParents ctx v fringe P otherP).1 then
            walkToParents ctx v fringe P otherP
          else walkFringeGo ctx otherP rest
            (walkToParents ctx v fringe P otherP).2.1
            (walkToParents ctx v fringe P otherP).2.2
        else walkFringeGo ctx otherP rest fringe P
      else
        if mark = PMark.tail ∨ mark = PMark.start then
          if (walkToParents ctx v fringe P otherP).1 then
            walkToParents ctx v fringe P otherP
          else
            if (walkToChildren ctx v (walkToParents ctx v fringe P otherP).2.1
                (walkToParents ctx v fringe P otherP).2.2 otherP).1 then
              walkToChildren ctx v (walkToParents ctx v fringe P otherP).2.1
                (walkToParents ctx v fringe P otherP).2.2 otherP
            else walkFringeGo ctx otherP rest
              (walkToChildren ctx v (walkToParents ctx v fringe P otherP).2.1
                (walkToParents ctx v fringe P otherP).2.2 otherP).2.1
              (walkToChildren ctx v (walkToParents ctx v fringe P otherP).2.1
                (walkToParents ctx v fringe P otherP).2.2 otherP).2.2
        else
          if (walkToChildren ctx v fringe P otherP).1 then
            walkToChildren ctx v fringe P otherP
          else walkFringeGo ctx otherP rest
            (walkToChildren ctx v fringe P otherP).2.1
            (walkToChildren ctx v fringe P otherP).2.2 := rfl

/-- Soundness of one `_walk_fringe` pass over a sound fringe level: the
resulting fringe and path map stay sound, and a reported meet is a
d-connection. -/
theorem walkFringeGo_sound {ctx : WalkCtx} {s o : VLNode} {otherP : PathMap}
    (hOther : SideSound ctx.toSearch o otherP) :
    ∀ (level : List (VLNode × PMark)) (fringe : List (VLNode × PMark))
      (P : PathMap),
      FringeSound ctx.toSearch s level →
      SideSound ctx.toSearch s P → FringeSound ctx.toSearch s fringe →
      StartRecorded s P →
      (SideSound ctx.toSearch s (walkFringeGo ctx otherP level fringe P).2.2 ∧
        FringeSound ctx.toSearch s (walkFringeGo ctx otherP level fringe P).2.1 ∧
        StartRecorded s (walkFringeGo ctx otherP level fringe P).2.2) ∧
      ((walkFringeGo ctx otherP level fringe P).1 = true →
        ConnectedPair ctx.toSearch s o) := by
  intro level
  induction level with
  | nil =>
    intro fringe P _ hS hF hR
    exact ⟨⟨hS, hF, hR⟩, by intro h; cases h⟩
  | cons p rest ih =>
    obtain ⟨v, mark⟩ := p
    intro fringe P hLev hS hF hR
    have hv : Reach ctx.toSearch s v mark := hLev _ (List.mem_cons_self _ _)
    have hLev' : FringeSound ctx.toSearch s rest :=
      fun q hq => hLev q (List.mem_cons_of_mem _ hq)
    rw [walkFringeGo_cons]
    unfold walkToParents walkToChildren
    split
    · rename_i hcv
      split
      · rename_i hmk
        have hmove : if ctx.conds.contains v then
            mark = PMark.arrow ∨ mark = PMark.start
            else mark = PMark.tail ∨ mark = PMark.start := by
          rw [if_pos hcv]; exact hmk
        obtain ⟨⟨hS1, hF1, hR1⟩, hc1⟩ :=
          walkToParentsGo_sound hOther hv hmove
            (getLaggedParents ctx.links v false) fringe P (fun _ h => h) hS hF hR
        split
        · rename_i hfound
          exact ⟨⟨hS1, hF1, hR1⟩, fun _ => hc1 hfound⟩
        · exact ih _ _ hLev' hS1 hF1 hR1
      · exact ih fringe P hLev' hS hF hR
    · rename_i hcv
      split
      · rename_i hmk
        have hmove : if ctx.conds.contains v then
            mark = PMark.arrow ∨ mark = PMark.start
            else mark = PMark.tail ∨ mark = PMark.start := by
          rw [if_neg hcv]; exact hmk
        obtain ⟨⟨hS1, hF1, hR1⟩, hc1⟩ :=
          walkToParentsGo_sound hOther hv hmove
            (getLaggedParents ctx.links v false) fringe P (fun _ h => h) hS hF hR
        split
        · rename_i hfound
          exact ⟨⟨hS1, hF1, hR1⟩, fun _ => hc1 hfound⟩
        · obtain ⟨⟨hS2, hF2, hR2⟩, hc2⟩ :=
            walkToChildrenGo_sound hOther hv hcv
              (getLaggedChildren ctx.children v false) _ _ (fun _ h => h)
              hS1 hF1 hR1
          split
          · rename_i hfound2
            exact ⟨⟨hS2, hF2, hR2⟩, fun _ => hc2 hfound2⟩
          · exact ih _ _ hLev' hS2 hF2 hR2
      · obtain ⟨⟨hS2, hF2, hR2⟩, hc2⟩ :=
          walkToChildrenGo_sound hOther hv hcv
            (getLaggedChildren ctx.children v false) fringe P (fun _ h => h)
            hS hF hR
        split
        · rename_i hfound2
          exact ⟨⟨hS2, hF2, hR2⟩, fun _ => hc2 hfound2⟩
        · exact ih _ _ hLev' hS2 hF2 hR2

/-- Soundness of a full `_walk_fringe` call, backdoor case included. -/
theorem walkFringe_sound {ctx : WalkCtx} {s o : VLNode} {otherP : PathMap}
    (hOther : SideSound ctx.toSearch o otherP)
    (level fringe : List (VLNode × PMark)) (P : PathMap)
    (hLev : FringeSound ctx.toSearch s level)
    (hS : SideSound ctx.toSearch s P) (hF : FringeSound ctx.toSearch s fringe)
    (hR : StartRecorded s P) :
    (SideSound ctx.toSearch s (walkFringe ctx level fringe P otherP).2.2 ∧
      FringeSound ctx.toSearch s (walkFringe ctx level fringe P otherP).2.1 ∧
      StartRecorded s (walkFringe ctx level fringe P otherP).2.2) ∧
    ((walkFringe ctx level fringe P otherP).1 = true →
      ConnectedPair ctx.toSearch s o) := by
  unfold walkFringe walkToParents
  split
  · rename_i hbd
    obtain ⟨hb, hlev⟩ := hbd
    have hvx : Reach ctx.toSearch s ctx.xstart .start := by
      have hmem : (ctx.xstart, PMark.start) ∈ level := by
        rw [hlev]; exact List.mem_singleton.mpr rfl
      exact hLev _ hmem
    have hmove : if ctx.conds.contains ctx.xstart then
        PMark.start = PMark.arrow ∨ PMark.start = PMark.start
        else PMark.start = PMark.tail ∨ PMark.start = PMark.start := by
      split
      · exact Or.inr rfl
      · exact Or.inr rfl
    exact walkToParentsGo_sound hOther hvx hmove
      (getLaggedParents ctx.links ctx.xstart false) fringe P (fun _ h => h)
      hS hF hR
  · exact walkFringeGo_sound hOther level fringe P hLev hS hF hR

/-- Zeta-expanded unfolding of one bidirectional-search round. -/
theorem bfsLoop_succ (ctx : WalkCtx) (fuel : Nat) (pred succ : PathMap)
    (ff rf : List (VLNode × PMark)) :
    bfsLoop ctx (fuel + 1) pred succ ff rf =
      if ff.isEmpty ∨ rf.isEmpty then some false
      else if ff.length ≤ rf.length then
        if (walkFringe ctx ff [] pred succ).1 then some true
        else bfsLoop ctx fuel (walkFringe ctx ff [] pred succ).2.2 succ
          (walkFringe ctx ff [] pred succ).2.1 rf
      else
        if (walkFringe ctx rf [] succ pred).1 then some true
        else bfsLoop ctx fuel pred (walkFringe ctx rf [] succ pred).2.2 ff
          (walkFringe ctx rf [] succ pred).2.1 := rfl

/-- Soundness of the bidirectional search loop: a `True` verdict under sound
side invariants exhibits a d-connection between the two origins. -/
theorem bfsLoop_sound {ctx : WalkCtx} {x y : VLNode} :
    ∀ (fuel : Nat) (pred succ : PathMap) (ff rf : List (VLNode × PMark)),
      SideSound ctx.toSearch x pred → FringeSound ctx.toSearch x ff →
      StartRecorded x pred →
      SideSound ctx.toSearch y succ → FringeSound ctx.toSearch y rf →
      StartRecorded y succ →
      bfsLoop ctx fuel pred succ ff rf = some true →
      ConnectedPair ctx.toSearch x y := by
  intro fuel
  induction fuel with
  | zero => intro pred succ ff rf _ _ _ _ _ _ h; cases h
  | succ fuel ih =>
    intro pred succ ff rf hSx hFx hRx hSy hFy hRy h
    rw [bfsLoop_succ] at h
    split at h
    · exact absurd (Option.some.inj h) (by simp)
    · split at h
      · obtain ⟨⟨hS1, hF1, hR1⟩, hc⟩ :=
          walkFringe_sound hSy ff [] pred hFx hSx
            (fun p hp => absurd hp (List.not_mem_nil p)) hRx
        split at h
        · rename_i hfound
          exact hc hfound
        · exact ih _ _ _ _ hS1 hF1 hR1 hSy hFy hRy h
      · obtain ⟨⟨hS1, hF1, hR1⟩, hc⟩ :=
          walkFringe_sound hSx rf [] succ hFy hSy
            (fun p hp => absurd hp (List.not_mem_nil p)) hRy
        split at h
        · rename_i hfound
          exact connectedPair_symm (hc hfound)
        · exact ih _ _ _ _ hSx hFx hRx hS1 hF1 hR1 h

/-- The initial visit table of one side is sound for its origin. -/
theorem sideSound_init (sc : SearchCtx) (s : VLNode) :
    SideSound sc s [(s, MarkSet.startOnly)] := by
  intro v ms hms
  rw [pmLookup_cons] at hms
  dsimp only at hms
  by_cases h : s = v
  · rw [if_pos h] at hms
    cases hms
    exact ⟨fun _ => h.symm, (by intro hh; cases hh), (by intro hh; cases hh),
      Or.inl rfl⟩
  · rw [if_neg h] at hms
    simp [pmLookup] at hms

/-- The initial fringe of one side is sound for its origin. -/
theorem fringeSound_init (sc : SearchCtx) (s : VLNode) :
    FringeSound sc s [(s, PMark.start)] := by
  intro p hp
  rw [List.mem_singleton] at hp
  subst hp
  exact Reach.init

/-- The initial visit table records the origin's start mark. -/
theorem startRecorded_init (s : VLNode) :
    StartRecorded s [(s, MarkSet.startOnly)] :=
  ⟨MarkSet.startOnly, by rw [pmLookup_cons]; rw [if_pos rfl], rfl⟩

/-- Soundness of the pairwise search entry point. -/
theorem hasPathPairCore_sound {ctx : WalkCtx} {fuel : Nat} {x y : VLNode}
    (h : hasPathPairCore ctx fuel x y = some true) :
    ConnectedPair ctx.toSearch x y :=
  bfsLoop_sound fuel _ _ _ _ (sideSound_init _ x) (fringeSound_init _ x)
    (startRecorded_init x) (sideSound_init _ y) (fringeSound_init _ y)
    (startRecorded_init y) h

/-- `childList` in `getD` form. -/
theorem childList_eq (children : List (List (Int × Int))) (v : Int) :
    childList children v = if 0 ≤ v then children.getD v.toNat [] else [] := by
  unfold childList
  by_cases h0 : 0 ≤ v
  · rw [if_pos h0]
    by_cases hlt : v.toNat < children.length
    · rw [dif_pos ⟨h0, hlt⟩]
      exact (List.getD_eq_getElem children [] hlt).symm
    · rw [dif_neg (by tauto)]
      rw [List.getD_eq_default]
      omega
  · rw [if_neg h0, dif_neg (by tauto)]

/-- `linkList` in `getD` form. -/
theorem linkList_eq (links : Links) (u : Int) :
    linkList links u = if 0 ≤ u then links.getD u.toNat [] else [] := by
  unfold linkList
  by_cases h0 : 0 ≤ u
  · rw [if_pos h0]
    by_cases hlt : u.toNat < links.length
    · rw [dif_pos ⟨h0, hlt⟩]
      exact (List.getD_eq_getElem links [] hlt).symm
    · rw [dif_neg (by tauto)]
      rw [List.getD_eq_default]
      omega
  · rw [if_neg h0, dif_neg (by tauto)]

theorem mem_linkList_bounds {links : Links} {u : Int} {e : LinkEntry}
    (h : e ∈ linkList links u) : 0 ≤ u ∧ u.toNat < links.length := by
  unfold linkList at h
  split at h
  · rename_i hc
    exact hc
  · exact absurd h (List.not_mem_nil e)

theorem linkList_mem_links {links : Links} {u : Int} {e : LinkEntry}
    (h : e ∈ linkList links u) : ∃ l ∈ links, e ∈ l := by
  unfold linkList at h
  split at h
  · exact ⟨_, List.getElem_mem _, h⟩
  · exact absurd h (List.not_mem_nil e)

/-- `appendAt` on child tables is a guarded `setLink`. -/
theorem appendAt_eq_setLink (l : List (List (Int × Int))) (i : Int)
    (x : Int × Int) :
    appendAt l i x =
      if 0 ≤ i ∧ i.toNat < l.length then setLink l i.toNat x else l := by
  unfold appendAt setLink
  by_cases h : 0 ≤ i ∧ i.toNat < l.length
  · rw [dif_pos h, if_pos h]
    rw [List.getD_eq_getElem l [] h.2]
  · rw [dif_neg h, if_neg h]

theorem appendAt_length (l : List (List (Int × Int))) (i : Int)
    (x : Int × Int) : (appendAt l i x).length = l.length := by
  rw [appendAt_eq_setLink]
  split
  · exact setLink_length l i.toNat x
  · rfl

theorem childList_appendAt (l : List (List (Int × Int))) (i : Int)
    (x : Int × Int) (v : Int) :
    childList (appendAt l i x) v =
      if v = i ∧ 0 ≤ i ∧ i.toNat < l.length then childList l v ++ [x]
      else childList l v := by
  rw [appendAt_eq_setLink]
  by_cases hir : 0 ≤ i ∧ i.toNat < l.length
  · rw [if_pos hir]
    by_cases hv : v = i
    · subst hv
      rw [if_pos ⟨rfl, hir⟩, childList_eq, childList_eq, if_pos hir.1,
        if_pos hir.1, setLink_getD_self _ _ hir.2]
    · rw [if_neg (by tauto), childList_eq, childList_eq]
      by_cases h0 : 0 ≤ v
      · rw [if_pos h0, if_pos h0, setLink_getD_ne _ _ (by omega)]
      · rw [if_neg h0, if_neg h0]
  · rw [if_neg hir, if_neg (by tauto)]

theorem addChildEntry_length (j : Nat) (ch : List (List (Int × Int)))
    (e : LinkEntry) : (addChildEntry j ch e).length = ch.length := by
  unfold addChildEntry
  split
  · exact appendAt_length ch e.parse.1 _
  · rfl

theorem childList_addChildEntry (j : Nat) (ch : List (List (Int × Int)))
    (e : LinkEntry) (v : Int) :
    childList (addChildEntry j ch e) v =
      if e.parse.2.2 ≠ 0 ∧ e.parse.1 = v ∧ 0 ≤ v ∧ v.toNat < ch.length
      then childList ch v ++ [(Int.ofNat j, (e.parse.2.1.natAbs : Int))]
      else childList ch v := by
  unfold addChildEntry
  by_cases hc : e.parse.2.2 ≠ 0
  · rw [if_pos hc, childList_appendAt]
    by_cases hv : e.parse.1 = v
    · subst hv
      by_cases hr : 0 ≤ e.parse.1 ∧ e.parse.1.toNat < ch.length
      · rw [if_pos ⟨rfl, hr⟩, if_pos ⟨hc, rfl, hr⟩]
      · rw [if_neg (by tauto), if_neg (by tauto)]
    · rw [if_neg (fun h => hv h.1.symm), if_neg (fun h => hv h.2.1)]
  · rw [if_neg hc, if_neg (by tauto)]

theorem foldl_addChildEntry_length (j : Nat) :
    ∀ (es : List LinkEntry) (ch : List (List (Int × Int))),
      (es.foldl (addChildEntry j) ch).length = ch.length := by
  intro es
  induction es with
  | nil => intro ch; rfl
  | cons e rest ih =>
    intro ch
    rw [List.foldl_cons, ih, addChildEntry_length]

theorem childList_foldl_add (j : Nat) :
    ∀ (es : List LinkEntry) (ch : List (List (Int × Int))) (v : Int)
      (c : Int × Int),
      (c ∈ childList (es.foldl (addChildEntry j) ch) v ↔
        c ∈ childList ch v ∨ ∃ e ∈ es, e.parse.2.2 ≠ 0 ∧ e.parse.1 = v ∧
          0 ≤ v ∧ v.toNat < ch.length ∧
          c = (Int.ofNat j, (e.parse.2.1.natAbs : Int))) := by
  intro es
  induction es with
  | nil => simp
  | cons e rest ih =>
    intro ch v c
    rw [List.foldl_cons, ih, List.exists_mem_cons_iff, childList_addChildEntry]
    simp only [addChildEntry_length]
    by_cases hA : e.parse.2.2 ≠ 0 ∧ e.parse.1 = v ∧ 0 ≤ v ∧ v.toNat < ch.length
    · rw [if_pos hA]
      rw [List.mem_append, List.mem_singleton]
      constructor
      · rintro ((h | h) | h)
        · exact Or.inl h
        · exact Or.inr (Or.inl ⟨hA.1, hA.2.1, hA.2.2.1, hA.2.2.2, h⟩)
        · exact Or.inr (Or.inr h)
      · rintro (h | ⟨h1, h2, h3, h4, h5⟩ | h)
        · exact Or.inl (Or.inl h)
        · exact Or.inl (Or.inr h5)
        · exact Or.inr h
    · rw [if_neg hA]
      constructor
      · rintro (h | h)
        · exact Or.inl h
        · exact Or.inr (Or.inr h)
      · rintro (h | ⟨h1, h2, h3, h4, h5⟩ | h)
        · exact Or.inl h
        · exact absurd ⟨h1, h2, h3, h4⟩ hA
        · exact Or.inr h

theorem childList_foldl_outer (links : Links) :
    ∀ (js : List Nat) (ch : List (List (Int × Int))) (v : Int) (c : Int × Int),
      (c ∈ childList (js.foldl (fun children j =>
          (linkList links (Int.ofNat j)).foldl (addChildEntry j) children) ch) v ↔
        c ∈ childList ch v ∨ ∃ j ∈ js, ∃ e ∈ linkList links (Int.ofNat j),
          e.parse.2.2 ≠ 0 ∧ e.parse.1 = v ∧ 0 ≤ v ∧ v.toNat < ch.length ∧
          c = (Int.ofNat j, (e.parse.2.1.natAbs : Int))) := by
  intro js
  induction js with
  | nil => simp
  | cons j rest ih =>
    intro ch v c
    rw [List.foldl_cons, ih, List.exists_mem_cons_iff, childList_foldl_add]
    simp only [foldl_addChildEntry_length]
    constructor
    · rintro ((h | ⟨e, he, h1, h2, h3, h4, h5⟩) |
        ⟨j2, hj2, e, he, h1, h2, h3, h4, h5⟩)
      · exact Or.inl h
      · exact Or.inr (Or.inl ⟨e, he, h1, h2, h3, h4, h5⟩)
      · exact Or.inr (Or.inr ⟨j2, hj2, e, he, h1, h2, h3, h4, h5⟩)
    · rintro (h | ⟨e, he, h1, h2, h3, h4, h5⟩ |
        ⟨j2, hj2, e, he, h1, h2, h3, h4, h5⟩)
      · exact Or.inl (Or.inl h)
      · exact Or.inl (Or.inr ⟨e, he, h1, h2, h3, h4, h5⟩)
      · exact Or.inr ⟨j2, hj2, e, he, h1, h2, h3, h4, h5⟩

theorem foldl_outer_length (links : Links) :
    ∀ (js : List Nat) (ch : List (List (Int × Int))),
      ((js.foldl (fun children j =>
        (linkList links (Int.ofNat j)).foldl (addChildEntry j) children) ch)).length =
        ch.length := by
  intro js
  induction js with
  | nil => intro ch; rfl
  | cons j rest ih =>
    intro ch
    rw [List.foldl_cons, ih, foldl_addChildEntry_length]

theorem getChildren_length (links : Links) :
    (getChildren links).length = links.length := by
  unfold getChildren
  rw [foldl_outer_length]
  exact List.length_replicate _ _

theorem childList_replicate (n : Nat) (v : Int) {c : Int × Int} :
    c ∈ childList (List.replicate n ([] : List (Int × Int))) v ↔ False := by
  rw [childList_eq]
  constructor
  · intro h
    split at h
    · by_cases hlt : v.toNat < n
      · rw [List.getD_eq_getElem _ _ (by simpa using hlt)] at h
        rw [List.getElem_replicate] at h
        exact absurd h (List.not_mem_nil c)
      · rw [List.getD_eq_default] at h
        · exact absurd h (List.not_mem_nil c)
        · simpa using hlt
    · exact absurd h (List.not_mem_nil c)
  · intro h
    exact h.elim

/-- Membership in the compiled child table: `c = (j, |tau|)` is a child
record of `v` exactly when variable `j` has a nonzero link from parent
`v` at relative lag `tau`. -/
theorem mem_childList_getChildren {links : Links} {v : Int} {c : Int × Int} :
    c ∈ childList (getChildren links) v ↔
      ∃ j ∈ List.range links.length, ∃ e ∈ linkList links (Int.ofNat j),
        e.parse.2.2 ≠ 0 ∧ e.parse.1 = v ∧ 0 ≤ v ∧ v.toNat < links.length ∧
        c = (Int.ofNat j, (e.parse.2.1.natAbs : Int)) := by
  unfold getChildren
  rw [childList_foldl_outer]
  rw [childList_replicate]
  simp only [List.length_replicate]
  rw [false_or]

/-- Membership characterisation of `_get_lagged_parents` without
contemporaneous exclusion. -/
theorem mem_getLaggedParents {links : Links} {v w : VLNode} :
    w ∈ getLaggedParents links v false ↔
      ∃ e ∈ linkList links v.1, e.parse.2.2 ≠ 0 ∧
        w = (e.parse.1, v.2 + e.parse.2.1) := by
  unfold getLaggedParents
  rw [List.mem_filterMap]
  constructor
  · rintro ⟨e, he, hsome⟩
    refine ⟨e, he, ?_⟩
    dsimp only at hsome
    by_cases hc : e.parse.2.2 ≠ 0
    · rw [if_pos hc, if_pos (by simp)] at hsome
      cases hsome
      exact ⟨hc, rfl⟩
    · rw [if_neg hc] at hsome
      cases hsome
  · rintro ⟨e, he, hc, hw⟩
    refine ⟨e, he, ?_⟩
    dsimp only
    rw [if_pos hc, if_pos (by simp), hw]

/-- Membership characterisation of `_get_lagged_children` without
contemporaneous exclusion. -/
theorem mem_getLaggedChildren {children : List (List (Int × Int))}
    {v w : VLNode} :
    w ∈ getLaggedChildren children v false ↔
      ∃ c ∈ childList children v.1, w = (c.1, v.2 + c.2) := by
  unfold getLaggedChildren
  rw [List.mem_filterMap]
  constructor
  · rintro ⟨c, hc, hsome⟩
    rw [if_pos (by simp)] at hsome
    cases hsome
    exact ⟨c, hc, rfl⟩
  · rintro ⟨c, hc, hw⟩
    refine ⟨c, hc, ?_⟩
    rw [if_pos (by simp), hw]

/-- For lag-nonpositive in-range links, the compiled child relation is the
exact inverse of the parent relation. -/
theorem mem_children_iff_parent {links : Links}
    (hsrc : LinksSrcInRange links) (hlag : LinksLagNonpos links)
    {v w : VLNode} :
    w ∈ getLaggedChildren (getChildren links) v false ↔
      v ∈ getLaggedParents links w false := by
  rw [mem_getLaggedChildren, mem_getLaggedParents]
  constructor
  · rintro ⟨c, hc, hw⟩
    rw [mem_childList_getChildren] at hc
    obtain ⟨j, hj, e, he, hcz, hsev, hv0, hvlt, hceq⟩ := hc
    subst hceq
    obtain ⟨l, hl, hel⟩ := linkList_mem_links he
    have htau : e.parse.2.1 ≤ 0 := hlag l hl e hel
    refine ⟨e, ?_, hcz, ?_⟩
    · rw [hw]
      exact he
    · rw [hw]
      have h1 : v.1 = e.parse.1 := hsev.symm
      have h2 : ((e.parse.2.1.natAbs : Int)) = -e.parse.2.1 := by omega
      refine Prod.ext h1 ?_
      show v.2 = v.2 + (e.parse.2.1.natAbs : Int) + e.parse.2.1
      omega
  · rintro ⟨e, he, hcz, hveq⟩
    obtain ⟨hw0, hwlt⟩ := mem_linkList_bounds he
    obtain ⟨l, hl, hel⟩ := linkList_mem_links he
    have htau : e.parse.2.1 ≤ 0 := hlag l hl e hel
    obtain ⟨hs0, hslt⟩ := hsrc l hl e hel
    refine ⟨(w.1, (e.parse.2.1.natAbs : Int)), ?_, ?_⟩
    · rw [mem_childList_getChildren]
      refine ⟨w.1.toNat, List.mem_range.mpr hwlt, e, ?_, hcz, ?_, ?_, ?_, ?_⟩
      · rw [show (Int.ofNat w.1.toNat) = w.1 from Int.toNat_of_nonneg hw0]
        exact he
      · rw [hveq]
      · rw [hveq]
        exact hs0
      · rw [hveq]
        show e.parse.1.toNat < links.length
        omega
      · rw [show (Int.ofNat w.1.toNat) = w.1 from Int.toNat_of_nonneg hw0]
    · have h2 : ((e.parse.2.1.natAbs : Int)) = -e.parse.2.1 := by omega
      have hv2 : v.2 = w.2 + e.parse.2.1 := by rw [hveq]
      refine Prod.ext rfl ?_
      show w.2 = v.2 + (e.parse.2.1.natAbs : Int)
      omega

/-- Steps only ever produce `'tail'` or `'arrowhead'` marks, so a
start-marked reachable node is the origin itself. -/
theorem reach_start_eq {sc : SearchCtx} {s v : VLNode}
    (h : Reach sc s v .start) : v = s := by
  cases h with
  | init => rfl
  | step hr hs => cases hs

/-- Every non-origin reachable node respects the lag horizon. -/
theorem reach_bounds {sc : SearchCtx} {s v : VLNode} {m : PMark}
    (h : Reach sc s v m) (hm : m ≠ .start) :
    v.2 ≤ 0 ∧ (v.2.natAbs : Int) ≤ sc.maxLag := by
  cases h with
  | init => exact absurd rfl hm
  | step hr hs =>
    cases hs with
    | toParent hmove hpar hnc hlag hbound => exact ⟨hlag, hbound⟩
    | toChild hv hch hlag hbound => exact ⟨hlag, hbound⟩

/-- A start mark satisfies every departure rule, so any step is also legal
from the start mark. -/
theorem wstep_start {sc : SearchCtx} {v w : VLNode} {m m' : PMark}
    (h : WStep sc v m w m') : WStep sc v .start w m' := by
  cases h with
  | toParent hmove hpar hnc hlag hbound =>
    refine WStep.toParent ?_ hpar hnc hlag hbound
    split
    · exact Or.inr rfl
    · exact Or.inr rfl
  | toChild hv hch hlag hbound => exact WStep.toChild hv hch hlag hbound

/-- Reversal-and-glue: a walk from `y` to a meet node `w`, composing there
with a walk from `x`, reverses into a continuation of the `x`-walk all the
way to `y`.  Requires the compiled child table and lag-nonpositive links,
so every traversed step can be inverted. -/
theorem reach_glue {sc : SearchCtx}
    (hsrc : LinksSrcInRange sc.links) (hlag : LinksLagNonpos sc.links)
    (hch : sc.children = getChildren sc.links)
    {x y : VLNode} (hy : y.2 ≤ 0 ∧ (y.2.natAbs : Int) ≤ sc.maxLag) :
    ∀ {w : VLNode} {b : PMark}, Reach sc y w b →
      ∀ a, Reach sc x w a → composeOK sc.conds w a b →
        ∃ m', Reach sc x y m' ∧ (b = .start → w = y ∧ m' = a) ∧
          (b ≠ .start → m' ≠ .start) := by
  intro w b hyw
  induction hyw with
  | init =>
    intro a hxw hok
    exact ⟨a, hxw, fun _ => ⟨rfl, rfl⟩, fun hb => absurd rfl hb⟩
  | step hr hs ih =>
    rename_i v m w' b'
    intro a hxw hok
    -- bounds at the intermediate node v
    have hvb : v.2 ≤ 0 ∧ (v.2.natAbs : Int) ≤ sc.maxLag := by
      by_cases hm : m = .start
      · subst hm
        rw [reach_start_eq hr]
        exact hy
      · exact reach_bounds hr hm
    cases hs with
    | toParent hmove hpar hnc hlagw hboundw =>
      -- reversed: a child step from w' back to v
      have hvch : v ∈ getLaggedChildren sc.children w' false := by
        rw [hch]
        exact (mem_children_iff_parent hsrc hlag).mpr hpar
      have hstep : WStep sc w' .arrow v .arrow :=
        WStep.toChild hnc hvch hvb.1 hvb.2
      have hxv : Reach sc x v .arrow := Reach.step hxw (by
        exact WStep.toChild hnc hvch hvb.1 hvb.2)
      have hok2 : composeOK sc.conds v .arrow m := by
        by_cases hcv : sc.conds.contains v
        · rw [if_pos hcv] at hmove
          rcases hmove with hm | hm
          · subst hm
            simp only [composeOK]
            rw [if_pos hcv]
            exact ⟨trivial, trivial⟩
          · subst hm
            exact trivial
        · rw [if_neg hcv] at hmove
          rcases hmove with hm | hm
          · subst hm
            simp only [composeOK]
            rw [if_neg hcv]
            simp
          · subst hm
            exact trivial
      obtain ⟨m2, hm2, hst, hnst⟩ := ih .arrow hxv hok2
      refine ⟨m2, hm2, ?_, ?_⟩
      · intro hb
        cases hb
      · intro _
        by_cases hm : m = .start
        · obtain ⟨hveq, hmeq⟩ := hst hm
          rw [hmeq]
          intro hc
          cases hc
        · exact hnst hm
    | toChild hv hchm hlagw hboundw =>
      -- reversed: a parent step from w' back to v
      have hvpar : v ∈ getLaggedParents sc.links w' false := by
        rw [hch] at hchm
        exact (mem_children_iff_parent hsrc hlag).mp hchm
      have hmove2 : if sc.conds.contains w' then a = .arrow ∨ a = .start
          else a = .tail ∨ a = .start := by
        by_cases hcw : sc.conds.contains w'
        · rw [if_pos hcw]
          cases a with
          | start => exact Or.inr rfl
          | tail =>
            exfalso
            simp only [composeOK] at hok
            rw [if_pos hcw] at hok
            exact absurd hok.1 (by intro hc; cases hc)
          | arrow => exact Or.inl rfl
        · rw [if_neg hcw]
          cases a with
          | start => exact Or.inr rfl
          | tail => exact Or.inl rfl
          | arrow =>
            exfalso
            simp only [composeOK] at hok
            rw [if_neg hcw] at hok
            exact hok ⟨trivial, trivial⟩
      have hxv : Reach sc x v .tail :=
        Reach.step hxw (WStep.toParent hmove2 hvpar hv hvb.1 hvb.2)
      have hok2 : composeOK sc.conds v .tail m := by
        cases m with
        | start => exact trivial
        | tail =>
          simp only [composeOK]
          rw [if_neg hv]
          simp
        | arrow =>
          simp only [composeOK]
          rw [if_neg hv]
          simp
      obtain ⟨m2, hm2, hst, hnst⟩ := ih .tail hxv hok2
      refine ⟨m2, hm2, ?_, ?_⟩
      · intro hb
        cases hb
      · intro _
        by_cases hm : m = .start
        · obtain ⟨hveq, hmeq⟩ := hst hm
          rw [hmeq]
          intro hc
          cases hc
        · exact hnst hm

theorem pmLE_refl (P : PathMap) : pmLE P P := fun _ _ h => h

theorem pmLE_trans {P Q R : PathMap} (h1 : pmLE P Q) (h2 : pmLE Q R) :
    pmLE P R := fun v m h => h2 v m (h1 v m h)

/-- Marks after a `'tail'` record: the old marks plus `'tail'` at `w`. -/
theorem pmHasMark_setTail_iff {P : PathMap} {w v : VLNode} {m : PMark} :
    pmHasMark (pmSetTail P w) v m ↔
      pmHasMark P v m ∨ (v = w ∧ m = .tail) := by
  constructor
  · rintro ⟨ms, hms, hm⟩
    rw [pmLookup_setTail] at hms
    by_cases hv : v = w
    · rw [if_pos hv] at hms
      cases hms
      cases hold : pmLookup P w with
      | none =>
        rw [hold] at hm
        cases m with
        | tail => exact Or.inr ⟨hv, rfl⟩
        | start =>
          exfalso
          simpa [msAddTail, markHolds, Option.getD] using hm
        | arrow =>
          exfalso
          simpa [msAddTail, markHolds, Option.getD] using hm
      | some msOld =>
        rw [hold] at hm
        cases m with
        | tail => exact Or.inr ⟨hv, rfl⟩
        | start =>
          refine Or.inl ⟨msOld, hv ▸ hold, ?_⟩
          simpa [msAddTail, markHolds, Option.getD] using hm
        | arrow =>
          refine Or.inl ⟨msOld, hv ▸ hold, ?_⟩
          simpa [msAddTail, markHolds, Option.getD] using hm
    · rw [if_neg hv] at hms
      exact Or.inl ⟨ms, hms, hm⟩
  · rintro (⟨ms, hms, hm⟩ | ⟨hv, hm⟩)
    · obtain ⟨ms', hms', h1, h2, h3⟩ := pmLookup_setTail_mono w hms
      refine ⟨ms', hms', ?_⟩
      cases m with
      | start => exact h1 hm
      | tail => exact h2 hm
      | arrow => exact h3 hm
    · subst hv
      subst hm
      refine ⟨msAddTail ((pmLookup P v).getD ⟨false, false, false⟩), ?_, ?_⟩
      · rw [pmLookup_setTail, if_pos rfl]
      · show (msAddTail ((pmLookup P v).getD ⟨false, false, false⟩)).hasTail = true
        simp [msAddTail]

/-- Marks after an `'arrowhead'` record: the old marks plus `'arrowhead'`
at `w`. -/
theorem pmHasMark_setArrow_iff {P : PathMap} {w v : VLNode} {m : PMark} :
    pmHasMark (pmSetArrow P w) v m ↔
      pmHasMark P v m ∨ (v = w ∧ m = .arrow) := by
  constructor
  · rintro ⟨ms, hms, hm⟩
    rw [pmLookup_setArrow] at hms
    by_cases hv : v = w
    · rw [if_pos hv] at hms
      cases hms
      cases hold : pmLookup P w with
      | none =>
        rw [hold] at hm
        cases m with
        | arrow => exact Or.inr ⟨hv, rfl⟩
        | start =>
          exfalso
          simpa [msAddArrow, markHolds, Option.getD] using hm
        | tail =>
          exfalso
          simpa [msAddArrow, markHolds, Option.getD] using hm
      | some msOld =>
        rw [hold] at hm
        cases m with
        | arrow => exact Or.inr ⟨hv, rfl⟩
        | start =>
          refine Or.inl ⟨msOld, hv ▸ hold, ?_⟩
          simpa [msAddArrow, markHolds, Option.getD] using hm
        | tail =>
          refine Or.inl ⟨msOld, hv ▸ hold, ?_⟩
          simpa [msAddArrow, markHolds, Option.getD] using hm
    · rw [if_neg hv] at hms
      exact Or.inl ⟨ms, hms, hm⟩
  · rintro (⟨ms, hms, hm⟩ | ⟨hv, hm⟩)
    · obtain ⟨ms', hms', h1, h2, h3⟩ := pmLookup_setArrow_mono w hms
      refine ⟨ms', hms', ?_⟩
      cases m with
      | start => exact h1 hm
      | tail => exact h2 hm
      | arrow => exact h3 hm
    · subst hv
      subst hm
      refine ⟨msAddArrow ((pmLookup P v).getD ⟨false, false, false⟩), ?_, ?_⟩
      · rw [pmLookup_setArrow, if_pos rfl]
      · show (msAddArrow ((pmLookup P v).getD ⟨false, false, false⟩)).hasArrow = true
        simp [msAddArrow]

theorem pmLE_setTail (P : PathMap) (w : VLNode) : pmLE P (pmSetTail P w) :=
  fun _ _ h => pmHasMark_setTail_iff.mpr (Or.inl h)

theorem pmLE_setArrow (P : PathMap) (w : VLNode) : pmLE P (pmSetArrow P w) :=
  fun _ _ h => pmHasMark_setArrow_iff.mpr (Or.inl h)

/-- Closure facts of one parents pass with no meet: marks only grow, the
fringe only grows, every new mark is fringed, and every filtered-in parent
ends up recorded (tail or start) and distinct from the other origin. -/
theorem walkToParentsGo_closed {ctx : WalkCtx} {oOrig : VLNode}
    {otherP : PathMap} (hbd : ctx.backdoor = false)
    (hOstart : StartRecorded oOrig otherP) :
    ∀ (ps : List VLNode) (fringe : List (VLNode × PMark)) (P : PathMap)
      (r : Bool × List (VLNode × PMark) × PathMap),
      walkToParentsGo ctx otherP ps fringe P = r → r.1 = false →
      pmLE P r.2.2 ∧
      (∀ p ∈ fringe, p ∈ r.2.1) ∧
      (∀ v m, pmHasMark r.2.2 v m → pmHasMark P v m ∨ (v, m) ∈ r.2.1) ∧
      (∀ w ∈ ps, ¬ ctx.conds.contains w = true → w.2 ≤ 0 →
        (w.2.natAbs : Int) ≤ ctx.maxLag →
        w ≠ oOrig ∧ (pmHasMark r.2.2 w .tail ∨ pmHasMark r.2.2 w .start)) := by
  intro ps
  induction ps with
  | nil =>
    intro fringe P r heq hfalse
    subst heq
    exact ⟨pmLE_refl P, fun p hp => hp, fun v m h => Or.inl h,
      fun w hw => absurd hw (List.not_mem_nil w)⟩
  | cons w rest ih =>
    intro fringe P r heq hfalse
    unfold walkToParentsGo at heq
    split at heq
    · rename_i h
      exact absurd h.1 (by simp [hbd])
    split at heq
    · rename_i hskip hfilt
      obtain ⟨hnc, hlagw, hboundw⟩ := hfilt
      split at heq
      · split at heq
        · subst heq
          simp at hfalse
        · rename_i hrec hmem
          obtain ⟨hle, hfr, hnew, hcov⟩ :=
            ih (fringe ++ [(w, PMark.tail)]) (pmSetTail P w) r heq hfalse
          refine ⟨pmLE_trans (pmLE_setTail P w) hle, ?_, ?_, ?_⟩
          · intro p hp
            exact hfr p (List.mem_append.mpr (Or.inl hp))
          · intro v m hm
            rcases hnew v m hm with hold | hfr2
            · rcases pmHasMark_setTail_iff.mp hold with hold2 | ⟨hv, hm2⟩
              · exact Or.inl hold2
              · subst hv
                subst hm2
                exact Or.inr (hfr _
                  (List.mem_append.mpr (Or.inr (List.mem_singleton.mpr rfl))))
            · exact Or.inr hfr2
          · intro u hu hu1 hu2 hu3
            rcases List.mem_cons.mp hu with hu | hu
            · subst hu
              refine ⟨?_, ?_⟩
              · intro huo
                apply hmem
                rw [pmMem_iff, huo]
                obtain ⟨ms, hms, _⟩ := hOstart
                exact ⟨ms, hms⟩
              · exact Or.inl (hle u .tail
                  (pmHasMark_setTail_iff.mpr (Or.inr ⟨rfl, rfl⟩)))
            · exact hcov u hu hu1 hu2 hu3
      · split at heq
        · subst heq
          simp at hfalse
        · rename_i hrec hmem
          obtain ⟨hle, hfr, hnew, hcov⟩ := ih fringe P r heq hfalse
          refine ⟨hle, hfr, hnew, ?_⟩
          intro u hu hu1 hu2 hu3
          rcases List.mem_cons.mp hu with hu | hu
          · subst hu
            refine ⟨?_, ?_⟩
            · intro huo
              apply hmem
              rw [pmMem_iff, huo]
              obtain ⟨ms, hms, _⟩ := hOstart
              exact ⟨ms, hms⟩
            · have hts : pmHasMark P u .tail ∨ pmHasMark P u .start := by
                cases hl : pmLookup P u with
                | none =>
                  exfalso
                  apply hrec
                  unfold pmRecTail
                  rw [hl]
                | some ms =>
                  have hrec2 : ¬ ((!ms.hasTail && !ms.hasStart) = true) := by
                    intro hh
                    exact hrec (by unfold pmRecTail; rw [hl]; exact hh)
                  cases ht : ms.hasTail with
                  | true => exact Or.inl ⟨ms, hl, ht⟩
                  | false =>
                    cases hs : ms.hasStart with
                    | true => exact Or.inr ⟨ms, hl, hs⟩
                    | false =>
                      exfalso
                      apply hrec2
                      rw [ht, hs]
                      rfl
              rcases hts with h | h
              · exact Or.inl (hle u .tail h)
              · exact Or.inr (hle u .start h)
          · exact hcov u hu hu1 hu2 hu3
    · rename_i hskip hfilt
      obtain ⟨hle, hfr, hnew, hcov⟩ := ih fringe P r heq hfalse
      refine ⟨hle, hfr, hnew, ?_⟩
      intro u hu hu1 hu2 hu3
      rcases List.mem_cons.mp hu with hu | hu
      · subst hu
        exact absurd ⟨hu1, hu2, hu3⟩ hfilt
      · exact hcov u hu hu1 hu2 hu3

/-- Closure facts of one children pass with no meet. -/
theorem walkToChildrenGo_closed {ctx : WalkCtx} {oOrig : VLNode}
    {otherP : PathMap} (hOstart : StartRecorded oOrig otherP) :
    ∀ (cs : List VLNode) (fringe : List (VLNode × PMark)) (P : PathMap)
      (r : Bool × List (VLNode × PMark) × PathMap),
      walkToChildrenGo ctx otherP cs fringe P = r → r.1 = false →
      pmLE P r.2.2 ∧
      (∀ p ∈ fringe, p ∈ r.2.1) ∧
      (∀ v m, pmHasMark r.2.2 v m → pmHasMark P v m ∨ (v, m) ∈ r.2.1) ∧
      (∀ w ∈ cs, w.2 ≤ 0 → (w.2.natAbs : Int) ≤ ctx.maxLag →
        w ≠ oOrig ∧ (pmHasMark r.2.2 w .arrow ∨ pmHasMark r.2.2 w .start)) := by
  intro cs
  induction cs with
  | nil =>
    intro fringe P r heq hfalse
    subst heq
    exact ⟨pmLE_refl P, fun p hp => hp, fun v m h => Or.inl h,
      fun w hw => absurd hw (List.not_mem_nil w)⟩
  | cons w rest ih =>
    intro fringe P r heq hfalse
    unfold walkToChildrenGo at heq
    split at heq
    · rename_i hfilt
      obtain ⟨hlagw, hboundw⟩ := hfilt
      split at heq
      · split at heq
        · subst heq
          simp at hfalse
        · rename_i hrec hmem
          obtain ⟨hle, hfr, hnew, hcov⟩ :=
            ih (fringe ++ [(w, PMark.arrow)]) (pmSetArrow P w) r heq hfalse
          refine ⟨pmLE_trans (pmLE_setArrow P w) hle, ?_, ?_, ?_⟩
          · intro p hp
            exact hfr p (List.mem_append.mpr (Or.inl hp))
          · intro v m hm
            rcases hnew v m hm with hold | hfr2
            · rcases pmHasMark_setArrow_iff.mp hold with hold2 | ⟨hv, hm2⟩
              · exact Or.inl hold2
              · subst hv
                subst hm2
                exact Or.inr (hfr _
                  (List.mem_append.mpr (Or.inr (List.mem_singleton.mpr rfl))))
            · exact Or.inr hfr2
          · intro u hu hu2 hu3
            rcases List.mem_cons.mp hu with hu | hu
            · subst hu
              refine ⟨?_, ?_⟩
              · intro huo
                apply hmem
                obtain ⟨ms, hms, hst⟩ := hOstart
                have hlu : pmLookup otherP u = some ms := by
                  rw [huo]
                  exact hms
                unfold childMeet
                rw [hlu]
                show ((ms.hasTail && !(ctx.conds.contains u)) ||
                  (ms.hasArrow && ctx.conds.contains u) || ms.hasStart) = true
                have hst2 : ms.hasStart = true := hst
                rw [hst2]
                simp
              · exact Or.inl (hle u .arrow
                  (pmHasMark_setArrow_iff.mpr (Or.inr ⟨rfl, rfl⟩)))
            · exact hcov u hu hu2 hu3
      · split at heq
        · subst heq
          simp at hfalse
        · rename_i hrec hmem
          obtain ⟨hle, hfr, hnew, hcov⟩ := ih fringe P r heq hfalse
          refine ⟨hle, hfr, hnew, ?_⟩
          intro u hu hu2 hu3
          rcases List.mem_cons.mp hu with hu | hu
          · subst hu
            refine ⟨?_, ?_⟩
            · intro huo
              apply hmem
              obtain ⟨ms, hms, hst⟩ := hOstart
              have hlu : pmLookup otherP u = some ms := by
                rw [huo]
                exact hms
              unfold childMeet
              rw [hlu]
              show ((ms.hasTail && !(ctx.conds.contains u)) ||
                (ms.hasArrow && ctx.conds.contains u) || ms.hasStart) = true
              have hst2 : ms.hasStart = true := hst
              rw [hst2]
              simp
            · have hts : pmHasMark P u .arrow ∨ pmHasMark P u .start := by
                cases hl : pmLookup P u with
                | none =>
                  exfalso
                  apply hrec
                  unfold pmRecArrow
                  rw [hl]
                | some ms =>
                  have hrec2 : ¬ ((!ms.hasArrow && !ms.hasStart) = true) := by
                    intro hh
                    exact hrec (by unfold pmRecArrow; rw [hl]; exact hh)
                  cases ht : ms.hasArrow with
                  | true => exact Or.inl ⟨ms, hl, ht⟩
                  | false =>
                    cases hs : ms.hasStart with
                    | true => exact Or.inr ⟨ms, hl, hs⟩
                    | false =>
                      exfalso
                      apply hrec2
                      rw [ht, hs]
                      rfl
              rcases hts with h | h
              · exact Or.inl (hle u .arrow h)
              · exact Or.inr (hle u .start h)
          · exact hcov u hu hu2 hu3
    · rename_i hfilt
      obtain ⟨hle, hfr, hnew, hcov⟩ := ih fringe P r heq hfalse
      refine ⟨hle, hfr, hnew, ?_⟩
      intro u hu hu2 hu3
      rcases List.mem_cons.mp hu with hu | hu
      · subst hu
        exact absurd ⟨hu2, hu3⟩ hfilt
      · exact hcov u hu hu2 hu3

/-- Closure facts of one full `_walk_fringe` pass (no backdoor, no meet):
every level entry is fully expanded — all its legal steps avoid the other
origin and land on recorded marks — and every new mark is fringed. -/
theorem walkFringeGo_closed {ctx : WalkCtx} {oOrig : VLNode}
    {otherP : PathMap} (hbd : ctx.backdoor = false)
    (hOstart : StartRecorded oOrig otherP) :
    ∀ (level fringe : List (VLNode × PMark)) (P : PathMap)
      (r : Bool × List (VLNode × PMark) × PathMap),
      walkFringeGo ctx otherP level fringe P = r → r.1 = false →
      pmLE P r.2.2 ∧
      (∀ p ∈ fringe, p ∈ r.2.1) ∧
      (∀ v m, pmHasMark r.2.2 v m → pmHasMark P v m ∨ (v, m) ∈ r.2.1) ∧
      (∀ p ∈ level, ∀ w m', WStep ctx.toSearch p.1 p.2 w m' →
        w ≠ oOrig ∧ (pmHasMark r.2.2 w m' ∨ pmHasMark r.2.2 w .start)) := by
  intro level
  induction level with
  | nil =>
    intro fringe P r heq hfalse
    subst heq
    exact ⟨pmLE_refl P, fun p hp => hp, fun v m h => Or.inl h,
      fun p hp => absurd hp (List.not_mem_nil p)⟩
  | cons q rest ih =>
    obtain ⟨v, mark⟩ := q
    intro fringe P r heq hfalse
    rw [walkFringeGo_cons] at heq
    unfold walkToParents walkToChildren at heq
    split at heq
    · rename_i hcv
      split at heq
      · rename_i hmk
        split at heq
        · rename_i hf
          subst heq
          rw [hfalse] at hf
          cases hf
        · rename_i hf
          have hf1 : (walkToParentsGo ctx otherP
              (getLaggedParents ctx.links v false) fringe P).1 = false :=
            Bool.eq_false_iff.mpr hf
          obtain ⟨hle1, hfr1, hnew1, hcov1⟩ :=
            walkToParentsGo_closed hbd hOstart _ fringe P _ rfl hf1
          obtain ⟨hle2, hfr2, hnew2, hcov2⟩ := ih _ _ r heq hfalse
          refine ⟨pmLE_trans hle1 hle2, ?_, ?_, ?_⟩
          · intro p hp
            exact hfr2 p (hfr1 p hp)
          · intro u m hm
            rcases hnew2 u m hm with h1 | h1
            · rcases hnew1 u m h1 with h2 | h2
              · exact Or.inl h2
              · exact Or.inr (hfr2 _ h2)
            · exact Or.inr h1
          · intro p hp w m' hst
            rcases List.mem_cons.mp hp with hp | hp
            · subst hp
              cases hst with
              | toParent hmove hpar hnc hlagw hboundw =>
                obtain ⟨hno, hrec⟩ := hcov1 w hpar hnc hlagw hboundw
                refine ⟨hno, ?_⟩
                rcases hrec with h | h
                · exact Or.inl (hle2 w .tail h)
                · exact Or.inr (hle2 w .start h)
              | toChild hv hch hlagw hboundw => exact absurd hcv hv
            · exact hcov2 p hp w m' hst
      · rename_i hmk
        obtain ⟨hle2, hfr2, hnew2, hcov2⟩ := ih fringe P r heq hfalse
        refine ⟨hle2, hfr2, hnew2, ?_⟩
        intro p hp w m' hst
        rcases List.mem_cons.mp hp with hp | hp
        · subst hp
          cases hst with
          | toParent hmove hpar hnc hlagw hboundw =>
            have hc2 : ctx.toSearch.conds.contains (v, mark).1 = true := hcv
            rw [if_pos hc2] at hmove
            exact absurd hmove hmk
          | toChild hv hch hlagw hboundw => exact absurd hcv hv
        · exact hcov2 p hp w m' hst
    · rename_i hcv
      split at heq
      · rename_i hmk
        split at heq
        · rename_i hf
          subst heq
          rw [hfalse] at hf
          cases hf
        · rename_i hf
          have hf1 : (walkToParentsGo ctx otherP
              (getLaggedParents ctx.links v false) fringe P).1 = false :=
            Bool.eq_false_iff.mpr hf
          obtain ⟨hle1, hfr1, hnew1, hcov1⟩ :=
            walkToParentsGo_closed hbd hOstart _ fringe P _ rfl hf1
          split at heq
          · rename_i hf2
            subst heq
            rw [hfalse] at hf2
            cases hf2
          · rename_i hf2
            have hf2' : (walkToChildrenGo ctx otherP
                (getLaggedChildren ctx.children v false)
                (walkToParentsGo ctx otherP
                  (getLaggedParents ctx.links v false) fringe P).2.1
                (walkToParentsGo ctx otherP
                  (getLaggedParents ctx.links v false) fringe P).2.2).1 =
                false := Bool.eq_false_iff.mpr hf2
            obtain ⟨hle2, hfr2, hnew2, hcov2⟩ :=
              walkToChildrenGo_closed hOstart _ _ _ _ rfl hf2'
            obtain ⟨hle3, hfr3, hnew3, hcov3⟩ := ih _ _ r heq hfalse
            refine ⟨pmLE_trans hle1 (pmLE_trans hle2 hle3), ?_, ?_, ?_⟩
            · intro p hp
              exact hfr3 p (hfr2 p (hfr1 p hp))
            · intro u m hm
              rcases hnew3 u m hm with h1 | h1
              · rcases hnew2 u m h1 with h2 | h2
                · rcases hnew1 u m h2 with h3 | h3
                  · exact Or.inl h3
                  · exact Or.inr (hfr3 _ (hfr2 _ h3))
                · exact Or.inr (hfr3 _ h2)
              · exact Or.inr h1
            · intro p hp w m' hst
              rcases List.mem_cons.mp hp with hp | hp
              · subst hp
                cases hst with
                | toParent hmove hpar hnc hlagw hboundw =>
                  obtain ⟨hno, hrec⟩ := hcov1 w hpar hnc hlagw hboundw
                  refine ⟨hno, ?_⟩
                  rcases hrec with h | h
                  · exact Or.inl (hle3 w .tail (hle2 w .tail h))
                  · exact Or.inr (hle3 w .start (hle2 w .start h))
                | toChild hv hch hlagw hboundw =>
                  obtain ⟨hno, hrec⟩ := hcov2 w hch hlagw hboundw
                  refine ⟨hno, ?_⟩
                  rcases hrec with h | h
                  · exact Or.inl (hle3 w .arrow h)
                  · exact Or.inr (hle3 w .start h)
              · exact hcov3 p hp w m' hst
      · rename_i hmk
        split at heq
        · rename_i hf2
          subst heq
          rw [hfalse] at hf2
          cases hf2
        · rename_i hf2
          have hf2' : (walkToChildrenGo ctx otherP
              (getLaggedChildren ctx.children v false) fringe P).1 = false :=
            Bool.eq_false_iff.mpr hf2
          obtain ⟨hle2, hfr2, hnew2, hcov2⟩ :=
            walkToChildrenGo_closed hOstart _ _ _ _ rfl hf2'
          obtain ⟨hle3, hfr3, hnew3, hcov3⟩ := ih _ _ r heq hfalse
          refine ⟨pmLE_trans hle2 hle3, ?_, ?_, ?_⟩
          · intro p hp
            exact hfr3 p (hfr2 p hp)
          · intro u m hm
            rcases hnew3 u m hm with h1 | h1
            · rcases hnew2 u m h1 with h2 | h2
              · exact Or.inl h2
              · exact Or.inr (hfr3 _ h2)
            · exact Or.inr h1
          · intro p hp w m' hst
            rcases List.mem_cons.mp hp with hp | hp
            · subst hp
              cases hst with
              | toParent hmove hpar hnc hlagw hboundw =>
                have hc2 : ¬ ctx.toSearch.conds.contains (v, mark).1 = true := hcv
                rw [if_neg hc2] at hmove
                exact absurd hmove hmk
              | toChild hv hch hlagw hboundw =>
                obtain ⟨hno, hrec⟩ := hcov2 w hch hlagw hboundw
                refine ⟨hno, ?_⟩
                rcases hrec with h | h
                · exact Or.inl (hle3 w .arrow h)
                · exact Or.inr (hle3 w .start h)
            · exact hcov3 p hp w m' hst

/-- `walkFringe` without backdoor is the plain dispatch. -/
theorem walkFringe_no_backdoor {ctx : WalkCtx} (hbd : ctx.backdoor = false)
    (level fringe : List (VLNode × PMark)) (P otherP : PathMap) :
    walkFringe ctx level fringe P otherP =
      walkFringeGo ctx otherP level fringe P := by
  unfold walkFringe
  rw [if_neg (by simp [hbd])]

/-- After a meet-free round over the whole fringe, the expanded side is
closed again relative to its new fringe. -/
theorem sideClosed_round {ctx : WalkCtx} {oOrig : VLNode} {otherP : PathMap}
    (hbd : ctx.backdoor = false) (hOstart : StartRecorded oOrig otherP)
    {F : List (VLNode × PMark)} {P : PathMap}
    {r : Bool × List (VLNode × PMark) × PathMap}
    (heq : walkFringe ctx F [] P otherP = r) (hfalse : r.1 = false)
    (hclosed : SideClosed ctx.toSearch oOrig P F) :
    SideClosed ctx.toSearch oOrig r.2.2 r.2.1 := by
  rw [walkFringe_no_backdoor hbd] at heq
  obtain ⟨hle, hfr, hnew, hcov⟩ :=
    walkFringeGo_closed hbd hOstart F [] P r heq hfalse
  intro v m hm
  rcases hnew v m hm with hold | hfr2
  · rcases hclosed v m hold with hin | hcl
    · exact Or.inr (fun w m' hst => hcov (v, m) hin w m' hst)
    · refine Or.inr (fun w m' hst => ?_)
      obtain ⟨hno, hrec⟩ := hcl w m' hst
      refine ⟨hno, ?_⟩
      rcases hrec with h | h
      · exact Or.inl (hle w m' h)
      · exact Or.inr (hle w .start h)
  · exact Or.inl hfr2

/-- With an empty fringe, every walk-reachable node is recorded and every
stepped-to node avoids the other origin. -/
theorem reach_steps_closed {sc : SearchCtx} {s o : VLNode} {P : PathMap}
    (hclosed : SideClosed sc o P []) (hR : StartRecorded s P) :
    ∀ {v : VLNode} {m : PMark}, Reach sc s v m →
      (pmHasMark P v m ∨ pmHasMark P v .start) ∧ (m ≠ .start → v ≠ o) := by
  intro v m h
  induction h with
  | init => exact ⟨Or.inr hR, fun hm => absurd rfl hm⟩
  | step hr hst ih =>
    obtain ⟨hrec, _⟩ := ih
    rcases hrec with hv | hv
    · rcases hclosed _ _ hv with hin | hcl
      · exact absurd hin (List.not_mem_nil _)
      · obtain ⟨hno, hrec2⟩ := hcl _ _ hst
        exact ⟨hrec2, fun _ => hno⟩
    · rcases hclosed _ .start hv with hin | hcl
      · exact absurd hin (List.not_mem_nil _)
      · obtain ⟨hno, hrec2⟩ := hcl _ _ (wstep_start hst)
        exact ⟨hrec2, fun _ => hno⟩

/-- Completeness of the loop: a `False` verdict under the soundness and
closure invariants excludes any d-connection of the two origins. -/
theorem bfsLoop_complete {ctx : WalkCtx} {x y : VLNode}
    (hbd : ctx.backdoor = false)
    (hsrc : LinksSrcInRange ctx.links) (hlag : LinksLagNonpos ctx.links)
    (hch : ctx.children = getChildren ctx.links)
    (hx : x.2 ≤ 0 ∧ (x.2.natAbs : Int) ≤ ctx.maxLag)
    (hy : y.2 ≤ 0 ∧ (y.2.natAbs : Int) ≤ ctx.maxLag) :
    ∀ (fuel : Nat) (pred succ : PathMap) (ff rf : List (VLNode × PMark)),
      SideSound ctx.toSearch x pred → FringeSound ctx.toSearch x ff →
      StartRecorded x pred → SideClosed ctx.toSearch y pred ff →
      SideSound ctx.toSearch y succ → FringeSound ctx.toSearch y rf →
      StartRecorded y succ → SideClosed ctx.toSearch x succ rf →
      bfsLoop ctx fuel pred succ ff rf = some false →
      ¬ ConnectedPair ctx.toSearch x y := by
  intro fuel
  induction fuel with
  | zero =>
    intro pred succ ff rf _ _ _ _ _ _ _ _ h
    cases h
  | succ fuel ih =>
    intro pred succ ff rf hSx hFx hRx hCx hSy hFy hRy hCy h
    rw [bfsLoop_succ] at h
    split at h
    · rename_i hemp
      intro hconn
      obtain ⟨w, a, b, hxw, hyw, hok⟩ := hconn
      rcases hemp with hff | hrf
      · have hffe : ff = [] := List.isEmpty_iff.mp hff
        subst hffe
        obtain ⟨m', hm', hbst, hbnst⟩ :=
          reach_glue hsrc hlag hch hy hyw a hxw hok
        have hm'ne : m' ≠ .start := by
          by_cases hb : b = .start
          · obtain ⟨hwy, hma⟩ := hbst hb
            by_cases ha : a = .start
            · subst ha
              subst hb
              exact absurd hok (by simp [composeOK])
            · rw [hma]
              exact ha
          · exact hbnst hb
        exact (reach_steps_closed hCx hRx hm').2 hm'ne rfl
      · have hrfe : rf = [] := List.isEmpty_iff.mp hrf
        subst hrfe
        obtain ⟨m', hm', hbst, hbnst⟩ :=
          reach_glue hsrc hlag hch hx hxw b hyw (composeOK_symm hok)
        have hm'ne : m' ≠ .start := by
          by_cases ha : a = .start
          · obtain ⟨hwx, hmb⟩ := hbst ha
            by_cases hb : b = .start
            · subst ha
              subst hb
              exact absurd hok (by simp [composeOK])
            · rw [hmb]
              exact hb
          · exact hbnst ha
        exact (reach_steps_closed hCy hRy hm').2 hm'ne rfl
    · split at h
      · split at h
        · simp at h
        · rename_i hfb
          have hf1 : (walkFringe ctx ff [] pred succ).1 = false :=
            Bool.eq_false_iff.mpr hfb
          obtain ⟨⟨hS1, hF1, hR1⟩, _⟩ :=
            walkFringe_sound hSy ff [] pred hFx hSx
              (fun p hp => absurd hp (List.not_mem_nil p)) hRx
          have hC1 : SideClosed ctx.toSearch y
              (walkFringe ctx ff [] pred succ).2.2
              (walkFringe ctx ff [] pred succ).2.1 :=
            sideClosed_round hbd hRy rfl hf1 hCx
          exact ih _ _ _ _ hS1 hF1 hR1 hC1 hSy hFy hRy hCy h
      · split at h
        · simp at h
        · rename_i hfb
          have hf1 : (walkFringe ctx rf [] succ pred).1 = false :=
            Bool.eq_false_iff.mpr hfb
          obtain ⟨⟨hS1, hF1, hR1⟩, _⟩ :=
            walkFringe_sound hSx rf [] succ hFy hSy
              (fun p hp => absurd hp (List.not_mem_nil p)) hRy
          have hC1 : SideClosed ctx.toSearch x
              (walkFringe ctx rf [] succ pred).2.2
              (walkFringe ctx rf [] succ pred).2.1 :=
            sideClosed_round hbd hRx rfl hf1 hCy
          exact ih _ _ _ _ hSx hFx hRx hCx hS1 hF1 hR1 hC1 h

/-- The initial state is closed: its only mark is the pending start. -/
theorem sideClosed_init (sc : SearchCtx) (o s : VLNode) :
    SideClosed sc o [(s, MarkSet.startOnly)] [(s, PMark.start)] := by
  intro v m hm
  obtain ⟨ms, hms, hmark⟩ := hm
  rw [pmLookup_cons] at hms
  dsimp only at hms
  by_cases hv : s = v
  · rw [if_pos hv] at hms
    cases hms
    subst hv
    left
    cases m with
    | start => exact List.mem_singleton.mpr rfl
    | tail => cases hmark
    | arrow => cases hmark
  · rw [if_neg hv] at hms
    simp [pmLookup] at hms

/-- Completeness of the pairwise search entry point. -/
theorem hasPathPairCore_complete {ctx : WalkCtx} {fuel : Nat} {x y : VLNode}
    (hbd : ctx.backdoor = false)
    (hsrc : LinksSrcInRange ctx.links) (hlag : LinksLagNonpos ctx.links)
    (hch : ctx.children = getChildren ctx.links)
    (hx : x.2 ≤ 0 ∧ (x.2.natAbs : Int) ≤ ctx.maxLag)
    (hy : y.2 ≤ 0 ∧ (y.2.natAbs : Int) ≤ ctx.maxLag)
    (h : hasPathPairCore ctx fuel x y = some false) :
    ¬ ConnectedPair ctx.toSearch x y :=
  bfsLoop_complete hbd hsrc hlag hch hx hy fuel _ _ _ _
    (sideSound_init _ x) (fringeSound_init _ x) (startRecorded_init x)
    (sideClosed_init _ y x)
    (sideSound_init _ y) (fringeSound_init _ y) (startRecorded_init y)
    (sideClosed_init _ x y) h

theorem pmLookup_none_iff {P : PathMap} {v : VLNode} :
    pmLookup P v = none ↔ ∀ q ∈ P, q.1 ≠ v := by
  unfold pmLookup
  rw [Option.map_eq_none']
  rw [List.find?_eq_none]
  constructor
  · intro h q hq he
    have h2 := h q hq
    simp [he] at h2
  · intro h q hq
    simp [h q hq]

theorem pmUpdate_not_mem {P : PathMap} {v : VLNode} (f : MarkSet → MarkSet)
    (h : pmLookup P v = none) :
    pmUpdate P v f = P ++ [(v, f ⟨false, false, false⟩)] := by
  induction P with
  | nil => rfl
  | cons p rest ih =>
    rw [pmLookup_cons] at h
    by_cases hp : p.1 = v
    · rw [if_pos hp] at h
      cases h
    · rw [if_neg hp] at h
      unfold pmUpdate
      rw [if_neg hp, ih h]
      rfl

theorem pmUpdate_mem {P : PathMap} {v : VLNode} {ms : MarkSet}
    (f : MarkSet → MarkSet) (h : pmLookup P v = some ms) :
    ∃ P1 P2, P = P1 ++ (v, ms) :: P2 ∧
      pmUpdate P v f = P1 ++ (v, f ms) :: P2 := by
  induction P with
  | nil => simp [pmLookup] at h
  | cons p rest ih =>
    obtain ⟨p1, p2⟩ := p
    rw [pmLookup_cons] at h
    dsimp only at h
    by_cases hp : p1 = v
    · rw [if_pos hp] at h
      cases h
      subst hp
      exact ⟨[], rest, rfl, by unfold pmUpdate; rw [if_pos rfl]; rfl⟩
    · rw [if_neg hp] at h
      obtain ⟨P1, P2, he, hu⟩ := ih h
      refine ⟨(p1, p2) :: P1, P2, ?_, ?_⟩
      · rw [he]
        rfl
      · unfold pmUpdate
        rw [if_neg hp, hu]
        rfl

theorem pmCount_append (P Q : PathMap) :
    pmCount (P ++ Q) = pmCount P + pmCount Q := by
  unfold pmCount
  rw [List.map_append, List.sum_append]

theorem pmCount_cons (p : VLNode × MarkSet) (P : PathMap) :
    pmCount (p :: P) = msCount p.2 + pmCount P := by
  simp [pmCount]

theorem msCount_addTail {ms : MarkSet} (h : ms.hasTail = false) :
    msCount (msAddTail ms) = msCount ms + 1 := by
  obtain ⟨a, b, c⟩ := ms
  cases h
  cases a <;> cases c <;> decide

theorem msCount_addArrow {ms : MarkSet} (h : ms.hasArrow = false) :
    msCount (msAddArrow ms) = msCount ms + 1 := by
  obtain ⟨a, b, c⟩ := ms
  cases h
  cases a <;> cases b <;> decide

theorem msCount_le (ms : MarkSet) : msCount ms ≤ 3 := by
  obtain ⟨a, b, c⟩ := ms
  cases a <;> cases b <;> cases c <;> decide

theorem pmCount_setTail {P : PathMap} {w : VLNode}
    (h : pmRecTail P w = true) :
    pmCount (pmSetTail P w) = pmCount P + 1 := by
  unfold pmSetTail
  cases hl : pmLookup P w with
  | none =>
    rw [pmUpdate_not_mem msAddTail hl, pmCount_append]
    have h1 : pmCount [(w, msAddTail ⟨false, false, false⟩)] = 1 := by
      simp [pmCount, msCount, msAddTail]
    omega
  | some ms =>
    have hrec : (!ms.hasTail && !ms.hasStart) = true := by
      have h3 : pmRecTail P w = true := h
      unfold pmRecTail at h3
      rw [hl] at h3
      exact h3
    have htl : ms.hasTail = false := by
      simp only [Bool.and_eq_true, Bool.not_eq_true'] at hrec
      exact hrec.1
    obtain ⟨P1, P2, he, hu⟩ := pmUpdate_mem msAddTail hl
    rw [hu, he, pmCount_append, pmCount_append, pmCount_cons, pmCount_cons,
      msCount_addTail htl]
    dsimp only
    omega

theorem pmCount_setArrow {P : PathMap} {w : VLNode}
    (h : pmRecArrow P w = true) :
    pmCount (pmSetArrow P w) = pmCount P + 1 := by
  unfold pmSetArrow
  cases hl : pmLookup P w with
  | none =>
    rw [pmUpdate_not_mem msAddArrow hl, pmCount_append]
    have h1 : pmCount [(w, msAddArrow ⟨false, false, false⟩)] = 1 := by
      simp [pmCount, msCount, msAddArrow]
    omega
  | some ms =>
    have hrec : (!ms.hasArrow && !ms.hasStart) = true := by
      have h3 : pmRecArrow P w = true := h
      unfold pmRecArrow at h3
      rw [hl] at h3
      exact h3
    have har : ms.hasArrow = false := by
      simp only [Bool.and_eq_true, Bool.not_eq_true'] at hrec
      exact hrec.1
    obtain ⟨P1, P2, he, hu⟩ := pmUpdate_mem msAddArrow hl
    rw [hu, he, pmCount_append, pmCount_append, pmCount_cons, pmCount_cons,
      msCount_addArrow har]
    dsimp only
    omega

/-- State invariant of a visit table: distinct keys, all inside the finite
node universe. -/
def pmInv (links : Links) (ml : Int) (x y : VLNode) (P : PathMap) : Prop :=
  (P.map Prod.fst).Nodup ∧ ∀ p ∈ P, p.1 ∈ univNodes links ml x y

theorem pmInv_update {links : Links} {ml : Int} {x y : VLNode} {P : PathMap}
    {w : VLNode} (f : MarkSet → MarkSet)
    (hw : w ∈ univNodes links ml x y) (hinv : pmInv links ml x y P) :
    pmInv links ml x y (pmUpdate P w f) := by
  obtain ⟨hnd, hdom⟩ := hinv
  cases hl : pmLookup P w with
  | none =>
    rw [pmUpdate_not_mem f hl]
    constructor
    · rw [List.map_append, List.nodup_append]
      refine ⟨hnd, by simp, ?_⟩
      intro a ha hb
      simp only [List.map_cons, List.map_nil, List.mem_singleton] at hb
      subst hb
      obtain ⟨p, hp, hpa⟩ := List.mem_map.mp ha
      exact (pmLookup_none_iff.mp hl p hp) hpa
    · intro p hp
      rcases List.mem_append.mp hp with h | h
      · exact hdom p h
      · rw [List.mem_singleton] at h
        subst h
        exact hw
  | some ms =>
    obtain ⟨P1, P2, he, hu⟩ := pmUpdate_mem f hl
    subst he
    rw [hu]
    constructor
    · have hkeys : (P1 ++ (w, f ms) :: P2).map Prod.fst =
          (P1 ++ (w, ms) :: P2).map Prod.fst := by simp
      rw [hkeys]
      exact hnd
    · intro p hp
      rcases List.mem_append.mp hp with h | h
      · exact hdom p (List.mem_append.mpr (Or.inl h))
      · rcases List.mem_cons.mp h with h | h
        · subst h
          exact hw
        · exact hdom p (List.mem_append.mpr (Or.inr (List.mem_cons_of_mem _ h)))

theorem pmCount_le_three_mul (P : PathMap) : pmCount P ≤ 3 * P.length := by
  induction P with
  | nil => simp [pmCount]
  | cons p rest ih =>
    rw [pmCount_cons]
    have := msCount_le p.2
    simp only [List.length_cons]
    omega

theorem pmCount_le {links : Links} {ml : Int} {x y : VLNode} {P : PathMap}
    (hinv : pmInv links ml x y P) :
    pmCount P ≤ 3 * (univNodes links ml x y).length := by
  obtain ⟨hnd, hdom⟩ := hinv
  have h1 : P.length ≤ (univNodes links ml x y).length := by
    have h2 : (P.map Prod.fst) ⊆ univNodes links ml x y := by
      intro a ha
      obtain ⟨p, hp, hpa⟩ := List.mem_map.mp ha
      subst hpa
      exact hdom p hp
    have h3 := (List.subperm_of_subset hnd h2).length_le
    simpa using h3
  have h4 := pmCount_le_three_mul P
  omega

theorem entrySources_mem {links : Links} {l : List LinkEntry} (hl : l ∈ links)
    {e : LinkEntry} (he : e ∈ l) : e.parse.1 ∈ entrySources links := by
  unfold entrySources
  rw [List.mem_flatMap]
  exact ⟨l, hl, List.mem_map.mpr ⟨e, he, rfl⟩⟩

theorem mem_univNodes_of_base {links : Links} {ml : Int} {x y : VLNode}
    {v lag : Int}
    (hv : v ∈ ((List.range links.length).map Int.ofNat) ++
      entrySources links ++ [x.1, y.1])
    (h1 : lag ≤ 0) (h2 : (lag.natAbs : Int) ≤ ml) :
    ((v, lag) : VLNode) ∈ univNodes links ml x y := by
  unfold univNodes
  rw [List.mem_flatMap]
  refine ⟨v, hv, ?_⟩
  rw [List.mem_append]
  left
  rw [List.mem_map]
  refine ⟨lag.natAbs, ?_, ?_⟩
  · rw [List.mem_range]
    omega
  · show (v, -(Int.ofNat lag.natAbs)) = (v, lag)
    have h3 : -(Int.ofNat lag.natAbs) = lag := by
      simp only [Int.ofNat_eq_coe]
      omega
    rw [h3]

theorem parent_mem_univ {links : Links} {ml : Int} {x y v w : VLNode}
    (h : w ∈ getLaggedParents links v false) (h1 : w.2 ≤ 0)
    (h2 : (w.2.natAbs : Int) ≤ ml) : w ∈ univNodes links ml x y := by
  rw [mem_getLaggedParents] at h
  obtain ⟨e, he, hcz, hw⟩ := h
  obtain ⟨l, hl, hel⟩ := linkList_mem_links he
  have hv : w.1 ∈ ((List.range links.length).map Int.ofNat) ++
      entrySources links ++ [x.1, y.1] := by
    rw [List.mem_append, List.mem_append]
    left
    right
    rw [hw]
    exact entrySources_mem hl hel
  exact mem_univNodes_of_base hv h1 h2

theorem child_mem_univ {links : Links} {ml : Int} {x y v w : VLNode}
    (h : w ∈ getLaggedChildren (getChildren links) v false) (h1 : w.2 ≤ 0)
    (h2 : (w.2.natAbs : Int) ≤ ml) : w ∈ univNodes links ml x y := by
  rw [mem_getLaggedChildren] at h
  obtain ⟨c, hc, hw⟩ := h
  rw [mem_childList_getChildren] at hc
  obtain ⟨j, hj, e, he, hcz, hsv, hv0, hvl, hceq⟩ := hc
  have hv : w.1 ∈ ((List.range links.length).map Int.ofNat) ++
      entrySources links ++ [x.1, y.1] := by
    rw [List.mem_append, List.mem_append]
    left
    left
    rw [hw, hceq]
    exact List.mem_map.mpr ⟨j, hj, rfl⟩
  exact mem_univNodes_of_base hv h1 h2

theorem start_mem_univ_left (links : Links) (ml : Int) (x y : VLNode) :
    x ∈ univNodes links ml x y := by
  unfold univNodes
  rw [List.mem_flatMap]
  refine ⟨x.1, ?_, ?_⟩
  · rw [List.mem_append, List.mem_append]
    right
    exact List.mem_cons_self _ _
  · rw [List.mem_append]
    right
    exact List.mem_cons_self _ _

theorem start_mem_univ_right (links : Links) (ml : Int) (x y : VLNode) :
    y ∈ univNodes links ml x y := by
  unfold univNodes
  rw [List.mem_flatMap]
  refine ⟨y.1, ?_, ?_⟩
  · rw [List.mem_append, List.mem_append]
    right
    exact List.mem_cons_of_mem _ (List.mem_cons_self _ _)
  · rw [List.mem_append]
    right
    exact List.mem_cons_of_mem _ (List.mem_cons_self _ _)

theorem length_flatMap_const {α β : Type} (l : List α) (f : α → List β)
    (c : Nat) (h : ∀ a ∈ l, (f a).length = c) :
    (l.flatMap f).length = l.length * c := by
  induction l with
  | nil => simp
  | cons a rest ih =>
    rw [List.flatMap_cons, List.length_append, h a (List.mem_cons_self _ _),
      ih (fun b hb => h b (List.mem_cons_of_mem _ hb)), List.length_cons,
      Nat.succ_mul]
    omega

theorem entrySources_length (links : Links) :
    (entrySources links).length = totalEntries links := by
  unfold entrySources totalEntries
  induction links with
  | nil => rfl
  | cons l rest ih =>
    rw [List.flatMap_cons, List.length_append, List.length_map, List.map_cons,
      List.sum_cons, ih]

theorem univNodes_length (links : Links) (ml : Int) (x y : VLNode) :
    (univNodes links ml x y).length =
      (links.length + totalEntries links + 2) * (ml.natAbs + 3) := by
  unfold univNodes
  rw [length_flatMap_const _ _ (ml.natAbs + 3) (by
    intro a _
    rw [List.length_append, List.length_map, List.length_range]
    rfl)]
  rw [List.length_append, List.length_append, List.length_map,
    List.length_range, entrySources_length]
  rfl

/-- State-accounting of one parents pass: the invariant persists and each
fringe entry appended coincides with exactly one new mark. -/
theorem walkToParentsGo_total {ctx : WalkCtx} {otherP : PathMap}
    {x y : VLNode} :
    ∀ (ps : List VLNode) (fringe : List (VLNode × PMark)) (P : PathMap)
      (r : Bool × List (VLNode × PMark) × PathMap),
      walkToParentsGo ctx otherP ps fringe P = r → r.1 = false →
      (∀ w ∈ ps, w.2 ≤ 0 → (w.2.natAbs : Int) ≤ ctx.maxLag →
        w ∈ univNodes ctx.links ctx.maxLag x y) →
      pmInv ctx.links ctx.maxLag x y P →
      pmInv ctx.links ctx.maxLag x y r.2.2 ∧
      pmCount r.2.2 + fringe.length = pmCount P + r.2.1.length := by
  intro ps
  induction ps with
  | nil =>
    intro fringe P r heq hfalse hu hinv
    subst heq
    exact ⟨hinv, rfl⟩
  | cons w rest ih =>
    intro fringe P r heq hfalse hu hinv
    have hu' : ∀ u ∈ rest, u.2 ≤ 0 → (u.2.natAbs : Int) ≤ ctx.maxLag →
        u ∈ univNodes ctx.links ctx.maxLag x y :=
      fun u hur => hu u (List.mem_cons_of_mem _ hur)
    unfold walkToParentsGo at heq
    split at heq
    · exact ih fringe P r heq hfalse hu' hinv
    split at heq
    · rename_i hskip hfilt
      obtain ⟨hnc, hlagw, hboundw⟩ := hfilt
      have hwu : w ∈ univNodes ctx.links ctx.maxLag x y :=
        hu w (List.mem_cons_self _ _) hlagw hboundw
      split at heq
      · rename_i hrec
        split at heq
        · subst heq
          simp at hfalse
        · obtain ⟨hinv2, hcount2⟩ :=
            ih (fringe ++ [(w, PMark.tail)]) (pmSetTail P w) r heq hfalse hu'
              (pmInv_update msAddTail hwu hinv)
          refine ⟨hinv2, ?_⟩
          rw [List.length_append] at hcount2
          rw [pmCount_setTail hrec] at hcount2
          simp only [List.length_cons, List.length_nil] at hcount2
          omega
      · split at heq
        · subst heq
          simp at hfalse
        · exact ih fringe P r heq hfalse hu' hinv
    · exact ih fringe P r heq hfalse hu' hinv

/-- State-accounting of one children pass. -/
theorem walkToChildrenGo_total {ctx : WalkCtx} {otherP : PathMap}
    {x y : VLNode} :
    ∀ (cs : List VLNode) (fringe : List (VLNode × PMark)) (P : PathMap)
      (r : Bool × List (VLNode × PMark) × PathMap),
      walkToChildrenGo ctx otherP cs fringe P = r → r.1 = false →
      (∀ w ∈ cs, w.2 ≤ 0 → (w.2.natAbs : Int) ≤ ctx.maxLag →
        w ∈ univNodes ctx.links ctx.maxLag x y) →
      pmInv ctx.links ctx.maxLag x y P →
      pmInv ctx.links ctx.maxLag x y r.2.2 ∧
      pmCount r.2.2 + fringe.length = pmCount P + r.2.1.length := by
  intro cs
  induction cs with
  | nil =>
    intro fringe P r heq hfalse hu hinv
    subst heq
    exact ⟨hinv, rfl⟩
  | cons w rest ih =>
    intro fringe P r heq hfalse hu hinv
    have hu' : ∀ u ∈ rest, u.2 ≤ 0 → (u.2.natAbs : Int) ≤ ctx.maxLag →
        u ∈ univNodes ctx.links ctx.maxLag x y :=
      fun u hur => hu u (List.mem_cons_of_mem _ hur)
    unfold walkToChildrenGo at heq
    split at heq
    · rename_i hfilt
      obtain ⟨hlagw, hboundw⟩ := hfilt
      have hwu : w ∈ univNodes ctx.links ctx.maxLag x y :=
        hu w (List.mem_cons_self _ _) hlagw hboundw
      split at heq
      · rename_i hrec
        split at heq
        · subst heq
          simp at hfalse
        · obtain ⟨hinv2, hcount2⟩ :=
            ih (fringe ++ [(w, PMark.arrow)]) (pmSetArrow P w) r heq hfalse hu'
              (pmInv_update msAddArrow hwu hinv)
          refine ⟨hinv2, ?_⟩
          rw [List.length_append] at hcount2
          rw [pmCount_setArrow hrec] at hcount2
          simp only [List.length_cons, List.length_nil] at hcount2
          omega
      · split at heq
        · subst heq
          simp at hfalse
        · exact ih fringe P r heq hfalse hu' hinv
    · exact ih fringe P r heq hfalse hu' hinv

/-- State-accounting of the fringe dispatch. -/
theorem walkFringeGo_total {ctx : WalkCtx} {otherP : PathMap} {x y : VLNode}
    (hch : ctx.children = getChildren ctx.links) :
    ∀ (level fringe : List (VLNode × PMark)) (P : PathMap)
      (r : Bool × List (VLNode × PMark) × PathMap),
      walkFringeGo ctx otherP level fringe P = r → r.1 = false →
      pmInv ctx.links ctx.maxLag x y P →
      pmInv ctx.links ctx.maxLag x y r.2.2 ∧
      pmCount r.2.2 + fringe.length = pmCount P + r.2.1.length := by
  intro level
  have hupar : ∀ (v : VLNode), ∀ w ∈ getLaggedParents ctx.links v false,
      w.2 ≤ 0 → (w.2.natAbs : Int) ≤ ctx.maxLag →
      w ∈ univNodes ctx.links ctx.maxLag x y :=
    fun v w hw h1 h2 => parent_mem_univ hw h1 h2
  have huch : ∀ (v : VLNode), ∀ w ∈ getLaggedChildren ctx.children v false,
      w.2 ≤ 0 → (w.2.natAbs : Int) ≤ ctx.maxLag →
      w ∈ univNodes ctx.links ctx.maxLag x y := by
    intro v w hw h1 h2
    rw [hch] at hw
    exact child_mem_univ hw h1 h2
  induction level with
  | nil =>
    intro fringe P r heq hfalse hinv
    subst heq
    exact ⟨hinv, rfl⟩
  | cons q rest ih =>
    obtain ⟨v, mark⟩ := q
    intro fringe P r heq hfalse hinv
    rw [walkFringeGo_cons] at heq
    unfold walkToParents walkToChildren at heq
    split at heq
    · split at heq
      · split at heq
        · rename_i hf
          subst heq
          rw [hfalse] at hf
          cases hf
        · rename_i hf
          have hf1 : (walkToParentsGo ctx otherP
              (getLaggedParents ctx.links v false) fringe P).1 = false :=
            Bool.eq_false_iff.mpr hf
          obtain ⟨hinv1, hcount1⟩ :=
            walkToParentsGo_total _ fringe P _ rfl hf1 (hupar v) hinv
          obtain ⟨hinv2, hcount2⟩ := ih _ _ r heq hfalse hinv1
          exact ⟨hinv2, by omega⟩
      · exact ih fringe P r heq hfalse hinv
    · split at heq
      · split at heq
        · rename_i hf
          subst heq
          rw [hfalse] at hf
          cases hf
        · rename_i hf
          have hf1 : (walkToParentsGo ctx otherP
              (getLaggedParents ctx.links v false) fringe P).1 = false :=
            Bool.eq_false_iff.mpr hf
          obtain ⟨hinv1, hcount1⟩ :=
            walkToParentsGo_total _ fringe P _ rfl hf1 (hupar v) hinv
          split at heq
          · rename_i hf2
            subst heq
            rw [hfalse] at hf2
            cases hf2
          · rename_i hf2
            have hf2' : (walkToChildrenGo ctx otherP
                (getLaggedChildren ctx.children v false)
                (walkToParentsGo ctx otherP
                  (getLaggedParents ctx.links v false) fringe P).2.1
                (walkToParentsGo ctx otherP
                  (getLaggedParents ctx.links v false) fringe P).2.2).1 =
                false := Bool.eq_false_iff.mpr hf2
            obtain ⟨hinv2, hcount2⟩ :=
              walkToChildrenGo_total _ _ _ _ rfl hf2' (huch v) hinv1
            obtain ⟨hinv3, hcount3⟩ := ih _ _ r heq hfalse hinv2
            exact ⟨hinv3, by omega⟩
      · split at heq
        · rename_i hf2
          subst heq
          rw [hfalse] at hf2
          cases hf2
        · rename_i hf2
          have hf2' : (walkToChildrenGo ctx otherP
              (getLaggedChildren ctx.children v false) fringe P).1 = false :=
            Bool.eq_false_iff.mpr hf2
          obtain ⟨hinv2, hcount2⟩ :=
            walkToChildrenGo_total _ _ _ _ rfl hf2' (huch v) hinv
          obtain ⟨hinv3, hcount3⟩ := ih _ _ r heq hfalse hinv2
          exact ⟨hinv3, by omega⟩

/-- State-accounting of a full `_walk_fringe` call, backdoor included. -/
theorem walkFringe_total {ctx : WalkCtx} {otherP : PathMap} {x y : VLNode}
    (hch : ctx.children = getChildren ctx.links)
    (level fringe : List (VLNode × PMark)) (P : PathMap)
    (r : Bool × List (VLNode × PMark) × PathMap)
    (heq : walkFringe ctx level fringe P otherP = r) (hfalse : r.1 = false)
    (hinv : pmInv ctx.links ctx.maxLag x y P) :
    pmInv ctx.links ctx.maxLag x y r.2.2 ∧
    pmCount r.2.2 + fringe.length = pmCount P + r.2.1.length := by
  unfold walkFringe at heq
  split at heq
  · unfold walkToParents at heq
    exact walkToParentsGo_total _ fringe P r heq hfalse
      (fun w hw h1 h2 => parent_mem_univ hw h1 h2) hinv
  · exact walkFringeGo_total hch level fringe P r heq hfalse hinv

/-- The loop always returns a verdict when given fuel above the round
measure. -/
theorem bfsLoop_total {ctx : WalkCtx} {x y : VLNode}
    (hch : ctx.children = getChildren ctx.links) :
    ∀ (fuel : Nat) (pred succ : PathMap) (ff rf : List (VLNode × PMark)),
      pmInv ctx.links ctx.maxLag x y pred →
      pmInv ctx.links ctx.maxLag x y succ →
      ff.length + rf.length +
        (3 * (univNodes ctx.links ctx.maxLag x y).length - pmCount pred) +
        (3 * (univNodes ctx.links ctx.maxLag x y).length - pmCount succ) <
        fuel →
      (bfsLoop ctx fuel pred succ ff rf).isSome = true := by
  intro fuel
  induction fuel with
  | zero =>
    intro pred succ ff rf _ _ hm
    omega
  | succ fuel ih =>
    intro pred succ ff rf hip his hm
    rw [bfsLoop_succ]
    split
    · rfl
    · rename_i hne
      have hffpos : 1 ≤ ff.length := by
        rcases Nat.eq_zero_or_pos ff.length with h0 | h1
        · exfalso
          apply hne
          left
          rw [List.isEmpty_iff]
          exact List.length_eq_zero.mp h0
        · exact h1
      have hrfpos : 1 ≤ rf.length := by
        rcases Nat.eq_zero_or_pos rf.length with h0 | h1
        · exfalso
          apply hne
          right
          rw [List.isEmpty_iff]
          exact List.length_eq_zero.mp h0
        · exact h1
      split
      · split
        · rfl
        · rename_i hlen hf
          have hf1 : (walkFringe ctx ff [] pred succ).1 = false :=
            Bool.eq_false_iff.mpr hf
          obtain ⟨hinv1, hcount1⟩ :=
            walkFringe_total hch ff [] pred _ rfl hf1 hip
          have hb1 := pmCount_le hinv1
          apply ih
          · exact hinv1
          · exact his
          · simp only [List.length_nil] at hcount1
            omega
      · split
        · rfl
        · rename_i hlen hf
          have hf1 : (walkFringe ctx rf [] succ pred).1 = false :=
            Bool.eq_false_iff.mpr hf
          obtain ⟨hinv1, hcount1⟩ :=
            walkFringe_total hch rf [] succ _ rfl hf1 his
          have hb1 := pmCount_le hinv1
          apply ih
          · exact hip
          · exact hinv1
          · simp only [List.length_nil] at hcount1
            omega

/-- At the fuel `_has_any_path` supplies, the pair search always returns a
verdict. -/
theorem hasPathPairCore_total {ctx : WalkCtx} {x y : VLNode}
    (hch : ctx.children = getChildren ctx.links) :
    (hasPathPairCore ctx (bfsFuel ctx.links ctx.maxLag) x y).isSome = true := by
  unfold hasPathPairCore
  apply @bfsLoop_total ctx x y hch
  · constructor
    · simp
    · intro p hp
      rw [List.mem_singleton] at hp
      subst hp
      exact start_mem_univ_left _ _ _ _
  · constructor
    · simp
    · intro p hp
      rw [List.mem_singleton] at hp
      subst hp
      exact start_mem_univ_right _ _ _ _
  · have hc1 : pmCount [(x, MarkSet.startOnly)] = 1 := by
      simp [pmCount, msCount, MarkSet.startOnly]
    have hc2 : pmCount [(y, MarkSet.startOnly)] = 1 := by
      simp [pmCount, msCount, MarkSet.startOnly]
    have hU := univNodes_length ctx.links ctx.maxLag x y
    have hbf : bfsFuel ctx.links ctx.maxLag =
        8 * ((ctx.links.length + totalEntries ctx.links + 2) *
          (ctx.maxLag.natAbs + 3)) + 8 := by
      unfold bfsFuel
      ring
    rw [hc1, hc2, hU, hbf]
    simp only [List.length_cons, List.length_nil]
    omega

theorem ancAdmit_maxLag_mono (mode : AncMode) (conds : List VLNode)
    (varlag par : VLNode) (st : AncState) :
    st.maxLag ≤ (ancAdmit mode conds varlag par st).maxLag := by
  unfold ancAdmit
  split
  · split
    · split
      · exact le_max_left _ _
      · exact le_refl _
    · exact le_refl _
  · exact le_refl _

theorem foldl_maxLag_mono {α : Type} (f : AncState → α → AncState)
    (hf : ∀ st a, st.maxLag ≤ (f st a).maxLag) :
    ∀ (l : List α) (st : AncState), st.maxLag ≤ (l.foldl f st).maxLag := by
  intro l
  induction l with
  | nil => intro st; exact le_refl _
  | cons a rest ih => intro st; exact le_trans (hf st a) (ih (f st a))

theorem ancLevel_maxLag_mono (links : Links) (mode : AncMode)
    (conds : List VLNode) (level : List VLNode) (st : AncState) :
    st.maxLag ≤ (ancLevel links mode conds level st).maxLag := by
  unfold ancLevel
  exact foldl_maxLag_mono _
    (fun st1 varlag => foldl_maxLag_mono _
      (fun st2 par => ancAdmit_maxLag_mono mode conds varlag par st2) _ st1)
    level st

theorem ancLoop_maxLag_mono (links : Links) (mode : AncMode)
    (conds : List VLNode) :
    ∀ (fuel : Nat) (level : List VLNode) (st : AncState),
      st.maxLag ≤ (ancLoop links mode conds fuel level st).maxLag := by
  intro fuel
  induction fuel with
  | zero => intro level st; exact le_refl _
  | succ fuel ih =>
    intro level st
    unfold ancLoop
    split
    · exact le_refl _
    · exact le_trans
        (ancLevel_maxLag_mono links mode conds level { st with nextLevel := [] })
        (ih _ _)

theorem nrStep_mono (links : Links) (conds1 : List VLNode)
    (acc : List (VLNode × List VLNode) × Int) (y : VLNode) :
    acc.2 ≤ (nrStep links conds1 acc y).2 := by
  show acc.2 ≤ (ancLoop links .nonRepeating conds1
    (ancFuel links .nonRepeating 0) [y]
    { anc := [], seen := [], maxLag := max acc.2 (y.2.natAbs : Int),
      nextLevel := [] }).maxLag
  exact le_trans (le_max_left _ _) (ancLoop_maxLag_mono _ _ _ _ _ _)

theorem nrStep_seed (links : Links) (conds1 : List VLNode)
    (acc : List (VLNode × List VLNode) × Int) (y : VLNode) :
    (y.2.natAbs : Int) ≤ (nrStep links conds1 acc y).2 := by
  show (y.2.natAbs : Int) ≤ (ancLoop links .nonRepeating conds1
    (ancFuel links .nonRepeating 0) [y]
    { anc := [], seen := [], maxLag := max acc.2 (y.2.natAbs : Int),
      nextLevel := [] }).maxLag
  exact le_trans (le_max_right _ _) (ancLoop_maxLag_mono _ _ _ _ _ _)

theorem foldl_nrStep_mono (links : Links) (conds1 : List VLNode) :
    ∀ (l : List VLNode) (acc : List (VLNode × List VLNode) × Int),
      acc.2 ≤ (l.foldl (nrStep links conds1) acc).2 := by
  intro l
  induction l with
  | nil => intro acc; exact le_refl _
  | cons y rest ih =>
    intro acc
    exact le_trans (nrStep_mono links conds1 acc y) (ih _)

/-- The resolved bound of the non-repeating ancestor search dominates the
lag of every seed. -/
theorem nonBlockedAncestorsNR_ge (links : Links) (selv : List Int)
    (Y conds : List VLNode) :
    ∀ n ∈ Y, (n.2.natAbs : Int) ≤ (nonBlockedAncestorsNR links selv Y conds).2 := by
  unfold nonBlockedAncestorsNR
  generalize ancCondsNR selv Y conds = conds1
  suffices h : ∀ (l : List VLNode) (acc : List (VLNode × List VLNode) × Int),
      ∀ n ∈ l, (n.2.natAbs : Int) ≤ (l.foldl (nrStep links conds1) acc).2 by
    intro n hn
    exact h Y ([], 0) n hn
  intro l
  induction l with
  | nil =>
    intro acc n hn
    exact absurd hn (List.not_mem_nil n)
  | cons y rest ih =>
    intro acc n hn
    rcases List.mem_cons.mp hn with hn | hn
    · subst hn
      rw [List.foldl_cons]
      exact le_trans (nrStep_seed links conds1 acc n)
        (foldl_nrStep_mono links conds1 rest _)
    · rw [List.foldl_cons]
      exact ih _ n hn

/-- Swapping `X` and `Y` leaves the derived horizon unchanged. -/
theorem getMaxLagFromXYZ_symm (links : Links) (selv : List Int)
    (X Y Z : List VLNode) :
    getMaxLagFromXYZ links selv Y X Z = getMaxLagFromXYZ links selv X Y Z := by
  unfold getMaxLagFromXYZ
  rw [max_comm (nonBlockedAncestorsNR links selv Y Z).2
    (nonBlockedAncestorsNR links selv X Z).2]

theorem getMaxLagFromXYZ_ge_X (links : Links) (selv : List Int)
    (X Y Z : List VLNode) :
    ∀ n ∈ X, (n.2.natAbs : Int) ≤ getMaxLagFromXYZ links selv X Y Z := by
  intro n hn
  unfold getMaxLagFromXYZ
  exact le_trans (nonBlockedAncestorsNR_ge links selv X Z n hn)
    (le_trans (le_max_left _ _) (le_max_left _ _))

theorem getMaxLagFromXYZ_ge_Y (links : Links) (selv : List Int)
    (X Y Z : List VLNode) :
    ∀ n ∈ Y, (n.2.natAbs : Int) ≤ getMaxLagFromXYZ links selv X Y Z := by
  intro n hn
  unfold getMaxLagFromXYZ
  exact le_trans (nonBlockedAncestorsNR_ge links selv Y Z n hn)
    (le_trans (le_max_right _ _) (le_max_left _ _))

/-- `Z`-canonicalisation is symmetric in `X` and `Y`. -/
theorem canonZ_symm (X Y Z : List VLNode) : canonZ Y X Z = canonZ X Y Z := by
  unfold canonZ
  apply List.filter_congr
  intro z _
  rw [Bool.or_comm]

/-- Full correctness of the pair search at the supplied fuel: the verdict
is exactly d-connectedness of the two origins. -/
theorem hasPathPairCore_correct {ctx : WalkCtx} {x y : VLNode}
    (hbd : ctx.backdoor = false)
    (hsrc : LinksSrcInRange ctx.links) (hlag : LinksLagNonpos ctx.links)
    (hch : ctx.children = getChildren ctx.links)
    (hx : x.2 ≤ 0 ∧ (x.2.natAbs : Int) ≤ ctx.maxLag)
    (hy : y.2 ≤ 0 ∧ (y.2.natAbs : Int) ≤ ctx.maxLag) :
    ((hasPathPairCore ctx (bfsFuel ctx.links ctx.maxLag) x y).getD false = true)
      ↔ ConnectedPair ctx.toSearch x y := by
  have htot := @hasPathPairCore_total ctx x y hch
  cases hres : hasPathPairCore ctx (bfsFuel ctx.links ctx.maxLag) x y with
  | none =>
    rw [hres] at htot
    cases htot
  | some b =>
    cases b with
    | true =>
      constructor
      · intro _
        exact hasPathPairCore_sound hres
      · intro _
        rfl
    | false =>
      constructor
      · intro h
        cases h
      · intro hc
        exact absurd hc (hasPathPairCore_complete hbd hsrc hlag hch hx hy hres)

/-- `_has_any_path` with `backdoor = False` is symmetric in `X` and `Y`
for lag-nonpositive in-range links and horizon-bounded endpoints. -/
theorem hasAnyPath_symm {links : Links} {selv : List Int}
    {X Y conds : List VLNode} {ml : Int}
    (hsrc : LinksSrcInRange links) (hlag : LinksLagNonpos links)
    (hX : ∀ n ∈ X, n.2 ≤ 0 ∧ (n.2.natAbs : Int) ≤ ml)
    (hY : ∀ n ∈ Y, n.2 ≤ 0 ∧ (n.2.natAbs : Int) ≤ ml) :
    hasAnyPath links selv Y X conds ml false =
      hasAnyPath links selv X Y conds ml false := by
  unfold hasAnyPath
  have hcs : hasAnyPathConds Y X conds selv ml =
      hasAnyPathConds X Y conds selv ml := by
    unfold hasAnyPathConds
    congr 1
    apply List.filter_congr
    intro z _
    rw [Bool.or_comm]
  rw [hcs]
  rw [Bool.eq_iff_iff, List.any_eq_true, List.any_eq_true]
  constructor
  · rintro ⟨y0, hy0, hx0any⟩
    rw [List.any_eq_true] at hx0any
    obtain ⟨x0, hx0, hpair⟩ := hx0any
    have hcorr := @hasPathPairCore_correct
        ⟨links, getChildren links, hasAnyPathConds X Y conds selv ml, ml,
          false, y0⟩ y0 x0 rfl hsrc hlag rfl (hY y0 hy0) (hX x0 hx0)
    have hconn := hcorr.mp hpair
    refine ⟨x0, hx0, ?_⟩
    rw [List.any_eq_true]
    refine ⟨y0, hy0, ?_⟩
    have hcorr2 := @hasPathPairCore_correct
        ⟨links, getChildren links, hasAnyPathConds X Y conds selv ml, ml,
          false, x0⟩ x0 y0 rfl hsrc hlag rfl (hX x0 hx0) (hY y0 hy0)
    exact hcorr2.mpr (connectedPair_symm hconn)
  · rintro ⟨x0, hx0, hy0any⟩
    rw [List.any_eq_true] at hy0any
    obtain ⟨y0, hy0, hpair⟩ := hy0any
    have hcorr := @hasPathPairCore_correct
        ⟨links, getChildren links, hasAnyPathConds X Y conds selv ml, ml,
          false, x0⟩ x0 y0 rfl hsrc hlag rfl (hX x0 hx0) (hY y0 hy0)
    have hconn := hcorr.mp hpair
    refine ⟨y0, hy0, ?_⟩
    rw [List.any_eq_true]
    refine ⟨x0, hx0, ?_⟩
    have hcorr2 := @hasPathPairCore_correct
        ⟨links, getChildren links, hasAnyPathConds X Y conds selv ml, ml,
          false, y0⟩ y0 x0 rfl hsrc hlag rfl (hY y0 hy0) (hX x0 hx0)
    exact hcorr2.mpr (connectedPair_symm hconn)

/-- `_is_dsep` without an explicit bound is symmetric in `X` and `Y` for
canonicalised (lag-nonpositive) endpoint sets over lag-nonpositive
in-range links. -/
theorem isDsep_symm {o : Oracle} {X Y Z : List VLNode}
    (hsrc : LinksSrcInRange o.links) (hlag : LinksLagNonpos o.links)
    (hX : ∀ n ∈ X, n.2 ≤ 0) (hY : ∀ n ∈ Y, n.2 ≤ 0) :
    isDsep o Y X Z none = isDsep o X Y Z none := by
  show (!(hasAnyPath o.links o.selectionVars Y X Z
      (getMaxLagFromXYZ o.links o.selectionVars Y X Z) false)) =
    (!(hasAnyPath o.links o.selectionVars X Y Z
      (getMaxLagFromXYZ o.links o.selectionVars X Y Z) false))
  rw [getMaxLagFromXYZ_symm]
  congr 1
  exact hasAnyPath_symm hsrc hlag
    (fun n hn => ⟨hX n hn, getMaxLagFromXYZ_ge_X _ _ _ _ _ n hn⟩)
    (fun n hn => ⟨hY n hn, getMaxLagFromXYZ_ge_Y _ _ _ _ _ n hn⟩)

/-- A successful `_check_XYZ` returns the canonicalised triple, and its
nodes all have non-positive lags. -/
theorem checkXYZ_ok {N : Int} {X Y Z Xc Yc Zc : List VLNode}
    (h : checkXYZ N X Y Z = .ok (Xc, Yc, Zc)) :
    Xc = dedupKeys X ∧ Yc = dedupKeys Y ∧ Zc = canonZ X Y Z ∧
    (∀ n ∈ dedupKeys X ++ dedupKeys Y ++ canonZ X Y Z, n.2 ≤ 0) := by
  unfold checkXYZ at h
  split at h
  · cases h
  · split at h
    · cases h
    · split at h
      · cases h
      · split at h
        · cases h
        · rename_i h1 h2 h3 h4
          simp only [Except.ok.injEq, Prod.mk.injEq] at h
          obtain ⟨hx, hy, hz⟩ := h
          refine ⟨hx.symm, hy.symm, hz.symm, ?_⟩
          intro n hn
          by_contra hpos
          apply h1
          rw [List.any_eq_true]
          refine ⟨n, hn, ?_⟩
          simp only [decide_eq_true_eq]
          omega

/-- A successful `run_test` core call factors through translation,
canonicalisation, and the `_is_dsep` verdict (via the cache when
consistent). -/
theorem runTestCore_ok {o : Oracle} {c : DsepCache} {X Y Z : List VLNode}
    {p : ℚ × ℚ} {ds : Bool}
    (hcache : CacheConsistent o c)
    (h : (runTestCore o c X Y Z).1 = .ok (p, ds)) :
    ∃ X1 Y1 Z1 Xc Yc Zc,
      translateNodes o.observedVars X = .ok X1 ∧
      translateNodes o.observedVars Y = .ok Y1 ∧
      translateNodes o.observedVars Z = .ok Z1 ∧
      checkXYZ o.N X1 Y1 Z1 = .ok (Xc, Yc, Zc) ∧
      p = (if isDsep o Xc Yc Zc none then ((0 : ℚ), (1 : ℚ)) else (1, 0)) := by
  unfold runTestCore at h
  cases hX1 : translateNodes o.observedVars X with
  | error e =>
    rw [hX1] at h
    cases h
  | ok X1 =>
    rw [hX1] at h
    dsimp only at h
    cases hY1 : translateNodes o.observedVars Y with
    | error e =>
      rw [hY1] at h
      cases h
    | ok Y1 =>
      rw [hY1] at h
      dsimp only at h
      cases hZ1 : translateNodes o.observedVars Z with
      | error e =>
        rw [hZ1] at h
        cases h
      | ok Z1 =>
        rw [hZ1] at h
        dsimp only at h
        cases hchk : checkXYZ o.N X1 Y1 Z1 with
        | error e =>
          rw [hchk] at h
          cases h
        | ok t =>
          obtain ⟨Xc, Yc, Zc⟩ := t
          rw [hchk] at h
          dsimp only at h
          refine ⟨X1, Y1, Z1, Xc, Yc, Zc, rfl, rfl, rfl, hchk, ?_⟩
          cases hcl : cacheLookup c (Xc, Yc, Zc) with
          | some b =>
            rw [hcl] at h
            have hb := hcache _ _ (cacheLookup_mem hcl)
            have h2 : Except.ok ((if b then ((0 : ℚ), (1 : ℚ)) else (1, 0)),
                false) = Except.ok (p, ds) := h
            simp only [Except.ok.injEq, Prod.mk.injEq] at h2
            rw [← h2.1, hb]
          | none =>
            rw [hcl] at h
            have h2 : Except.ok
                ((if isDsep o Xc Yc Zc none then ((0 : ℚ), (1 : ℚ)) else (1, 0)),
                  true) = Except.ok (p, ds) := h
            simp only [Except.ok.injEq, Prod.mk.injEq] at h2
            exact h2.1.symm

/-- Claim C2: for a well-formed oracle over lag-nonpositive links with a
consistent memo cache, `run_test(X, Y, Z)` and `run_test(Y, X, Z)` report
the same `(value, p-value)` pair whenever both queries validate. -/
theorem run_test_symmetric (o : Oracle) (c : DsepCache)
    (X Y Z : List VLNode) (t1 t2 : Int) (s1 s2 : String) (p q : ℚ × ℚ)
    (hwf : o.WF) (hlag : LinksLagNonpos o.links)
    (hcache : CacheConsistent o c)
    (h1 : (runTest o c X Y Z t1 s1).1 = .ok p)
    (h2 : (runTest o c Y X Z t2 s2).1 = .ok q) :
    p = q := by
  have h1m : ((runTestCore o c X Y Z).1).map (fun r => r.1) = .ok p := h1
  have h2m : ((runTestCore o c Y X Z).1).map (fun r => r.1) = .ok q := h2
  obtain ⟨pr, hpr, hp0⟩ : ∃ pr, (runTestCore o c X Y Z).1 = .ok pr ∧
      pr.1 = p := by
    cases hr : (runTestCore o c X Y Z).1 with
    | error e =>
      rw [hr] at h1m
      cases h1m
    | ok pr =>
      rw [hr] at h1m
      exact ⟨pr, rfl, Except.ok.inj h1m⟩
  obtain ⟨qr, hqr, hq0⟩ : ∃ qr, (runTestCore o c Y X Z).1 = .ok qr ∧
      qr.1 = q := by
    cases hr : (runTestCore o c Y X Z).1 with
    | error e =>
      rw [hr] at h2m
      cases h2m
    | ok qr =>
      rw [hr] at h2m
      exact ⟨qr, rfl, Except.ok.inj h2m⟩
  obtain ⟨X1, Y1, Z1, Xc, Yc, Zc, tX, tY, tZ, hchk, hpv⟩ :=
    runTestCore_ok hcache hpr
  obtain ⟨Y1b, X1b, Z1b, Xc2, Yc2, Zc2, tYb, tXb, tZb, hchk2, hqv⟩ :=
    runTestCore_ok hcache hqr
  have eY : Y1b = Y1 := by
    rw [tY] at tYb
    exact (Except.ok.inj tYb).symm
  have eX : X1b = X1 := by
    rw [tX] at tXb
    exact (Except.ok.inj tXb).symm
  have eZ : Z1b = Z1 := by
    rw [tZ] at tZb
    exact (Except.ok.inj tZb).symm
  subst eY
  subst eX
  subst eZ
  obtain ⟨hXc, hYc, hZc, hbound⟩ := checkXYZ_ok hchk
  obtain ⟨hXc2, hYc2, hZc2, hbound2⟩ := checkXYZ_ok hchk2
  have eXc : Xc2 = Yc := by rw [hXc2, hYc]
  have eYc : Yc2 = Xc := by rw [hYc2, hXc]
  have eZc : Zc2 = Zc := by rw [hZc2, hZc, canonZ_symm]
  have hXb : ∀ n ∈ Xc, n.2 ≤ 0 := by
    intro n hn
    apply hbound
    rw [hXc] at hn
    exact List.mem_append_left _ (List.mem_append_left _ hn)
  have hYb : ∀ n ∈ Yc, n.2 ≤ 0 := by
    intro n hn
    apply hbound
    rw [hYc] at hn
    exact List.mem_append_left _ (List.mem_append_right _ hn)
  have hsym : isDsep o Yc Xc Zc none = isDsep o Xc Yc Zc none :=
    isDsep_symm hwf.1 hlag hXb hYb
  rw [eXc, eYc, eZc, hsym] at hqv
  rw [← hp0, ← hq0, hpv, hqv]

/-- Witness for C2: on the contemporaneous chain `0 --> 1 --> 2`, both
query orders validate and report the identical separated verdict. -/
theorem run_test_symmetric_witness :
    ((runTest oracleChain [] [(0, 0)] [(2, 0)] [(1, 0)] 3 "max_lag").1 =
      .ok ((0 : ℚ), (1 : ℚ))) ∧
    ((runTest oracleChain [] [(2, 0)] [(0, 0)] [(1, 0)] 7 "2xtau_max").1 =
      .ok ((0 : ℚ), (1 : ℚ))) ∧
    ((0 : ℚ), (1 : ℚ)) = ((0 : ℚ), (1 : ℚ)) := by
  have hA : (runTest oracleChain [] [(0, 0)] [(2, 0)] [(1, 0)] 3 "max_lag").1 =
      .ok ((0 : ℚ), (1 : ℚ)) := by rfl
  have hB : (runTest oracleChain [] [(2, 0)] [(0, 0)] [(1, 0)] 7
      "2xtau_max").1 = .ok ((0 : ℚ), (1 : ℚ)) := by rfl
  exact ⟨hA, hB, run_test_symmetric oracleChain [] [(0, 0)] [(2, 0)] [(1, 0)]
    3 7 "max_lag" "2xtau_max" ((0 : ℚ), (1 : ℚ)) ((0 : ℚ), (1 : ℚ))
    (by refine ⟨?_, ?_, ?_⟩ <;> decide)
    (show ∀ l ∈ oracleChain.links, ∀ e ∈ l, e.parse.2.1 ≤ 0 by decide)
    (fun k b h => absurd h (List.not_mem_nil _)) hA hB⟩

end OracleCI
